import Mathlib

set_option maxRecDepth 100000

/-!
# Verification of the HLX wire-format and storage core

This file gives a shallow embedding, in Lean 4, of the core subsystems of the
HLX compiler repository and proves (or refutes) the specified properties:

* the LEB128 integer codecs of `src/python/hlx_lcb_client.py`;
* the LC-B batch frame builder `LCBBatchBuilder.build` of the same file,
  together with executable SHA-256 and BLAKE2b-256 digests;
* the content-addressed shader store of `src/hlx_runtime/shaderdb.py`;
* the LC-T text codec of `src/runtime/hlx_runtime/lc_t_codec.py`;
* the LC-R glyph codec of `src/runtime/hlx_runtime/lc_r_codec.py`.

Byte strings are modelled as `List Nat` (each element a byte value), text as
`List Char`, Python `int` as `Int` (arbitrary precision) or `Nat` where the
source value is provably non-negative.  Python loops are modelled either by
structural recursion on the data being consumed or by a structural fuel
parameter whose entry value is large enough that the fuel case is never hit
on the executions the source performs (each such place is commented).
-/

namespace HLX

/-! ## Python integer primitives

The source uses Python bitwise operators on arbitrary-precision signed
integers.  Python semantics: `x & m`, for `m = 2^k - 1 ≥ 0`, is `x mod 2^k`
(non-negative); `x >> k` is floor division by `2^k`; `x << k` is
multiplication by `2^k`; `~x` is `-x - 1`; `x | y` is bitwise or in
two's-complement.  Lean `Int` division and modulus are Euclidean, which for a
positive divisor coincide with Python floor division and modulus. -/

/-- Python `~x` on ints. -/
def pyNot (a : Int) : Int := -a - 1

/-- Python `x << n` on ints, for a non-negative shift count. -/
def pyShiftLeft (a : Int) (n : Nat) : Int := a * 2 ^ n

/-- Python `x | y` on arbitrary-precision ints: bitwise or in two's
complement.  On the negative case the representation `Int.negSucc m` stands
for the complement of `m`, and the bits of `m` not belonging to the other
operand are `m - (m &&& n)`. -/
def pyOr : Int → Int → Int
  | .ofNat m, .ofNat n => .ofNat (m ||| n)
  | .ofNat m, .negSucc n => .negSucc (n - (n &&& m))
  | .negSucc m, .ofNat n => .negSucc (m - (m &&& n))
  | .negSucc m, .negSucc n => .negSucc (m &&& n)

/-! ## LEB128 codecs (`src/python/hlx_lcb_client.py`, lines 81-146) -/

/-- `encode_leb128_u32(value)`: the do-while loop emitting 7 bits per byte,
continuation bit `0x80` while the remaining value is non-zero.  The Python
loop runs on a `Nat` and terminates because the value shrinks by a factor
128 each round. -/
def encode_leb128_u32 (value : Nat) : List Nat :=
  let byte := value &&& 0x7F
  let v := value >>> 7
  if h : v ≠ 0 then (byte ||| 0x80) :: encode_leb128_u32 v else [byte]
termination_by value
decreasing_by
  simp only [Nat.shiftRight_eq_div_pow] at h ⊢
  omega

/-- Arithmetic reading of the test `byte & 0x40`, used for termination and
sign reasoning below. -/
theorem land64_eq (b : Nat) : b &&& 64 = if b / 64 % 2 = 1 then 64 else 0 := by
  have h : b &&& 2 ^ 6 = (b.testBit 6).toNat * 2 ^ 6 := Nat.and_two_pow b 6
  rw [Nat.testBit_to_div_mod] at h
  norm_num at h
  by_cases hc : b / 64 % 2 = 1 <;> simp [hc] at h ⊢ <;> omega

/-- `encode_leb128_i64(value)`: signed LEB128.  The Python source computes
`negative = value < 0` once before the loop; since an arithmetic right shift
never changes the sign of its operand, testing the current value inside the
loop is equivalent, which is what this recursive form does.  `value & 0x7F`
is `value % 128 ≥ 0` and `value >> 7` is floor division `value / 128`. -/
def encode_leb128_i64 (value : Int) : List Nat :=
  if h : (if value < 0 then value / 128 ≠ -1 ∨ (value % 128).toNat &&& 0x40 = 0
          else value / 128 ≠ 0 ∨ (value % 128).toNat &&& 0x40 ≠ 0) then
    ((value % 128).toNat ||| 0x80) :: encode_leb128_i64 (value / 128)
  else [(value % 128).toNat]
termination_by value.natAbs
decreasing_by
  have hb := land64_eq ((value % 128).toNat)
  by_cases hc : ((value % 128).toNat) / 64 % 2 = 1 <;>
    simp only [hc, if_true, if_false] at hb <;>
    split at h <;> rcases h with h | h <;> omega

/-- The loop body of `decode_leb128_u32(data, offset)`, consuming the byte
list from `offset` onward; an out-of-range index (Python `IndexError`)
yields `none`.  Structural recursion on the remaining bytes. -/
def decode_leb128_u32_go : List Nat → Nat → Nat → Nat → Option (Nat × Nat)
  | [], _, _, _ => none
  | byte :: rest, offset, result, shift =>
    let result := result ||| ((byte &&& 0x7F) <<< shift)
    if byte &&& 0x80 = 0 then some (result, offset + 1)
    else decode_leb128_u32_go rest (offset + 1) result (shift + 7)

/-- `decode_leb128_u32(data, offset)`: returns `(value, new_offset)`. -/
def decode_leb128_u32 (data : List Nat) (offset : Nat) : Option (Nat × Nat) :=
  decode_leb128_u32_go (data.drop offset) offset 0 0

/-- The loop body of `decode_leb128_i64(data, offset)`.  The accumulated
`result` is non-negative throughout the loop (a bitwise or of non-negative
summands), so it is carried as a `Nat`; the final statement
`result |= (~0 << shift)` is the only place a negative int appears and is
taken verbatim through `pyOr`/`pyShiftLeft`/`pyNot`. -/
def decode_leb128_i64_go : List Nat → Nat → Nat → Nat → Option (Int × Nat)
  | [], _, _, _ => none
  | byte :: rest, offset, result, shift =>
    let result := result ||| ((byte &&& 0x7F) <<< shift)
    let shift := shift + 7
    if byte &&& 0x80 = 0 then
      let signed : Int :=
        if shift < 64 ∧ byte &&& 0x40 ≠ 0 then pyOr result (pyShiftLeft (pyNot 0) shift)
        else result
      some (signed, offset + 1)
    else decode_leb128_i64_go rest (offset + 1) result shift

/-- `decode_leb128_i64(data, offset)`: returns `(value, new_offset)`. -/
def decode_leb128_i64 (data : List Nat) (offset : Nat) : Option (Int × Nat) :=
  decode_leb128_i64_go (data.drop offset) offset 0 0

/-- C6: the signed LEB128 round-trip fails at the lower boundary.  The
encoder emits the correct ten-byte encoding of `-2^63`, but the decoder
skips sign extension because the accumulated shift is `70 ≥ 64`, returning
the positive value `2^70 - 2^63` instead of `-2^63`.  The decoder
documentation (decode a signed 64-bit integer) and the specification
boundary property (`-2^63` round-trips) both require `-2^63` back. -/
theorem leb128_i64_roundtrip_fails_at_min_int64 :
    encode_leb128_i64 (-(2 ^ 63)) =
      [0x80, 0x80, 0x80, 0x80, 0x80, 0x80, 0x80, 0x80, 0x80, 0x7F] ∧
    decode_leb128_i64 (encode_leb128_i64 (-(2 ^ 63))) 0 =
      some (2 ^ 70 - 2 ^ 63, 10) ∧
    (2 ^ 70 - 2 ^ 63 : Int) ≠ -(2 ^ 63) := by
  have he : encode_leb128_i64 (-(2 ^ 63)) =
      [0x80, 0x80, 0x80, 0x80, 0x80, 0x80, 0x80, 0x80, 0x80, 0x7F] := by
    simp [encode_leb128_i64]
  refine ⟨he, ?_, by decide⟩
  rw [he]
  decide

/-- C7 counterexample: the decoders do NOT reject overlong LEB128.  The
two-byte sequence `0x80 0x00` is an overlong encoding of zero, and both
decoders return a value for it instead of reporting an error. -/
theorem leb128_decoders_accept_overlong_zero :
    decode_leb128_u32 [0x80, 0x00] 0 = some (0, 2) ∧
    decode_leb128_i64 [0x80, 0x00] 0 = some (0, 2) := by
  decide

theorem decode_leb128_u32_go_replicate (k : Nat) :
    ∀ offset result shift,
      decode_leb128_u32_go (List.replicate k 0x80 ++ [0]) offset result shift =
        some (result, offset + k + 1) := by
  induction k with
  | zero => intro offset result shift; simp [decode_leb128_u32_go]
  | succ n ih =>
    intro offset result shift
    simp only [List.replicate_succ, List.cons_append, decode_leb128_u32_go,
      show (0x80 &&& 0x80 : Nat) = 0x80 from rfl, show (0x80 &&& 0x7F : Nat) = 0 from rfl,
      Nat.zero_shiftLeft, Nat.or_zero]
    norm_num
    rw [ih]
    simp only [Option.some.injEq, Prod.mk.injEq]
    exact ⟨trivial, by omega⟩

theorem decode_leb128_i64_go_replicate (k : Nat) :
    ∀ offset result shift,
      decode_leb128_i64_go (List.replicate k 0x80 ++ [0]) offset result shift =
        some ((result : Int), offset + k + 1) := by
  induction k with
  | zero => intro offset result shift; simp [decode_leb128_i64_go]
  | succ n ih =>
    intro offset result shift
    simp only [List.replicate_succ, List.cons_append, decode_leb128_i64_go,
      show (0x80 &&& 0x80 : Nat) = 0x80 from rfl, show (0x80 &&& 0x7F : Nat) = 0 from rfl,
      Nat.zero_shiftLeft, Nat.or_zero]
    norm_num
    rw [ih]
    simp only [Option.some.injEq, Prod.mk.injEq]
    exact ⟨trivial, by omega⟩

/-- C7 amended: the LEB128 decoders accept overlong encodings instead of
rejecting them.  For every number `k` of redundant continuation bytes
`0x80`, both decoders decode `0x80^k 0x00` to the value `0`, consuming all
`k + 1` bytes, and report no error. -/
theorem leb128_decoders_accept_every_overlong (k : Nat) :
    decode_leb128_u32 (List.replicate k 0x80 ++ [0]) 0 = some (0, k + 1) ∧
    decode_leb128_i64 (List.replicate k 0x80 ++ [0]) 0 = some (0, k + 1) := by
  unfold decode_leb128_u32 decode_leb128_i64
  simp only [List.drop_zero]
  rw [decode_leb128_u32_go_replicate, decode_leb128_i64_go_replicate]
  norm_num

/-! ## Executable digests

The source calls `hashlib.sha256` (batch builder signature, batch id) and
`hashlib.blake2b(…, digest_size=32)` (shader handles).  Both algorithms are
given here executably over byte lists, following FIPS 180-4 and RFC 7693.
They are used as opaque deterministic functions; no property of the
compression functions themselves is needed. -/

/-- Split a list into consecutive chunks of `n` elements (last chunk may be
short).  A structural fuel argument stands in for the shrinking list; any
fuel at least the list length is enough since every step removes at least
one element when `n ≥ 1`. -/
def chunksN (n : Nat) : Nat → List Nat → List (List Nat)
  | 0, _ => []
  | _, [] => []
  | fuel + 1, l => l.take n :: chunksN n fuel (l.drop n)

/-- 32-bit right rotation. -/
def rotr32 (x n : Nat) : Nat := (x >>> n) ||| ((x % 2 ^ n) <<< (32 - n))

/-- 64-bit right rotation. -/
def rotr64 (x n : Nat) : Nat := (x >>> n) ||| ((x % 2 ^ n) <<< (64 - n))

/-- SHA-256 round constants, one definition per table row of FIPS 180-4
section 4.2.2. -/
def sha256Ka : List Nat :=
  [0x428a2f98, 0x71374491, 0xb5c0fbcf, 0xe9b5dba5, 0x3956c25b, 0x59f111f1,
   0x923f82a4, 0xab1c5ed5]

def sha256Kb : List Nat :=
  [0xd807aa98, 0x12835b01, 0x243185be, 0x550c7dc3, 0x72be5d74, 0x80deb1fe,
   0x9bdc06a7, 0xc19bf174]

def sha256Kc : List Nat :=
  [0xe49b69c1, 0xefbe4786, 0x0fc19dc6, 0x240ca1cc, 0x2de92c6f, 0x4a7484aa,
   0x5cb0a9dc, 0x76f988da]

def sha256Kd : List Nat :=
  [0x983e5152, 0xa831c66d, 0xb00327c8, 0xbf597fc7, 0xc6e00bf3, 0xd5a79147,
   0x06ca6351, 0x14292967]

def sha256Ke : List Nat :=
  [0x27b70a85, 0x2e1b2138, 0x4d2c6dfc, 0x53380d13, 0x650a7354, 0x766a0abb,
   0x81c2c92e, 0x92722c85]

def sha256Kf : List Nat :=
  [0xa2bfe8a1, 0xa81a664b, 0xc24b8b70, 0xc76c51a3, 0xd192e819, 0xd6990624,
   0xf40e3585, 0x106aa070]

def sha256Kg : List Nat :=
  [0x19a4c116, 0x1e376c08, 0x2748774c, 0x34b0bcb5, 0x391c0cb3, 0x4ed8aa4a,
   0x5b9cca4f, 0x682e6ff3]

def sha256Kh : List Nat :=
  [0x748f82ee, 0x78a5636f, 0x84c87814, 0x8cc70208, 0x90befffa, 0xa4506ceb,
   0xbef9a3f7, 0xc67178f2]

/-- SHA-256 round constants. -/
def sha256K : List Nat :=
  sha256Ka ++ sha256Kb ++ sha256Kc ++ sha256Kd ++ sha256Ke ++ sha256Kf
    ++ sha256Kg ++ sha256Kh

/-- SHA-256 initial state. -/
def sha256IV : List Nat := [
  0x6a09e667, 0xbb67ae85, 0x3c6ef372, 0xa54ff53a, 0x510e527f, 0x9b05688c,
  0x1f83d9ab, 0x5be0cd19]

/-- Big-endian 32-bit words from bytes (full groups of four). -/
def be32Words : List Nat → List Nat
  | a :: b :: c :: d :: rest =>
    (a * 2 ^ 24 + b * 2 ^ 16 + c * 2 ^ 8 + d) :: be32Words rest
  | _ => []

/-- SHA-256 message padding: `0x80`, zeros, 8-byte big-endian bit length. -/
def sha256Pad (msg : List Nat) : List Nat :=
  let bitLen := 8 * msg.length
  let padZeros := (64 - (msg.length + 9) % 64) % 64
  msg ++ [0x80] ++ List.replicate padZeros 0 ++
    [bitLen / 2 ^ 56 % 256, bitLen / 2 ^ 48 % 256, bitLen / 2 ^ 40 % 256,
     bitLen / 2 ^ 32 % 256, bitLen / 2 ^ 24 % 256, bitLen / 2 ^ 16 % 256,
     bitLen / 2 ^ 8 % 256, bitLen % 256]

/-- Message-schedule extension, accumulating the words most recent first. -/
def sha256ScheduleGo : Nat → List Nat → List Nat
  | 0, acc => acc.reverse
  | fuel + 1, acc =>
    let g := fun i => acc.getD i 0
    let s0 := rotr32 (g 14) 7 ^^^ rotr32 (g 14) 18 ^^^ (g 14 >>> 3)
    let s1 := rotr32 (g 1) 17 ^^^ rotr32 (g 1) 19 ^^^ (g 1 >>> 10)
    sha256ScheduleGo fuel (((s1 + g 6 + s0 + g 15) % 2 ^ 32) :: acc)

/-- One SHA-256 round on the eight-word state. -/
def sha256Round (st : List Nat) (wk : Nat × Nat) : List Nat :=
  match st with
  | [a, b, c, d, e, f, g, h] =>
    let S1 := rotr32 e 6 ^^^ rotr32 e 11 ^^^ rotr32 e 25
    let ch := (e &&& f) ^^^ ((2 ^ 32 - 1 - e) &&& g)
    let t1 := (h + S1 + ch + wk.2 + wk.1) % 2 ^ 32
    let S0 := rotr32 a 2 ^^^ rotr32 a 13 ^^^ rotr32 a 22
    let mj := (a &&& b) ^^^ (a &&& c) ^^^ (b &&& c)
    let t2 := (S0 + mj) % 2 ^ 32
    [(t1 + t2) % 2 ^ 32, a, b, c, (d + t1) % 2 ^ 32, e, f, g]
  | other => other

/-- SHA-256 compression of a single 64-byte block. -/
def sha256Compress (h : List Nat) (block : List Nat) : List Nat :=
  let w16 := be32Words block
  let w := sha256ScheduleGo 48 w16.reverse
  let final := (w.zip sha256K).foldl sha256Round h
  (h.zip final).map (fun p => (p.1 + p.2) % 2 ^ 32)

/-- `hashlib.sha256(msg).digest()` as 32 bytes. -/
def sha256 (msg : List Nat) : List Nat :=
  let padded := sha256Pad msg
  let blocks := chunksN 64 (padded.length + 1) padded
  let hfin := blocks.foldl sha256Compress sha256IV
  hfin.flatMap (fun wd => [wd / 2 ^ 24 % 256, wd / 2 ^ 16 % 256, wd / 2 ^ 8 % 256, wd % 256])

/-- BLAKE2b initialization vector. -/
def blake2bIV : List Nat := [
  0x6a09e667f3bcc908, 0xbb67ae8584caa73b, 0x3c6ef372fe94f82b,
  0xa54ff53a5f1d36f1, 0x510e527fade682d1, 0x9b05688c2b3e6c1f,
  0x1f83d9abfb41bd6b, 0x5be0cd19137e2179]

/-- BLAKE2b message schedule permutations. -/
def blake2bSigma : List (List Nat) := [
  [0, 1, 2, 3, 4, 5, 6, 7, 8, 9, 10, 11, 12, 13, 14, 15],
  [14, 10, 4, 8, 9, 15, 13, 6, 1, 12, 0, 2, 11, 7, 5, 3],
  [11, 8, 12, 0, 5, 2, 15, 13, 10, 14, 3, 6, 7, 1, 9, 4],
  [7, 9, 3, 1, 13, 12, 11, 14, 2, 6, 5, 10, 4, 0, 15, 8],
  [9, 0, 5, 7, 2, 4, 10, 15, 14, 1, 11, 12, 6, 8, 3, 13],
  [2, 12, 6, 10, 0, 11, 8, 3, 4, 13, 7, 5, 15, 14, 1, 9],
  [12, 5, 1, 15, 14, 13, 4, 10, 0, 7, 6, 3, 9, 2, 8, 11],
  [13, 11, 7, 14, 12, 1, 3, 9, 5, 0, 15, 4, 8, 6, 2, 10],
  [6, 15, 14, 9, 11, 3, 0, 8, 12, 2, 13, 7, 1, 4, 10, 5],
  [10, 2, 8, 4, 7, 6, 1, 5, 15, 11, 9, 14, 3, 12, 13, 0]]

/-- The BLAKE2b mixing function G on the sixteen-word work vector. -/
def blake2bG (v : List Nat) (a b c d x y : Nat) : List Nat :=
  let va := (v.getD a 0 + v.getD b 0 + x) % 2 ^ 64
  let vd := rotr64 (v.getD d 0 ^^^ va) 32
  let vc := (v.getD c 0 + vd) % 2 ^ 64
  let vb := rotr64 (v.getD b 0 ^^^ vc) 24
  let va2 := (va + vb + y) % 2 ^ 64
  let vd2 := rotr64 (vd ^^^ va2) 16
  let vc2 := (vc + vd2) % 2 ^ 64
  let vb2 := rotr64 (vb ^^^ vc2) 63
  (((v.set a va2).set b vb2).set c vc2).set d vd2

/-- Little-endian 64-bit words from bytes (full groups of eight). -/
def le64Words : List Nat → List Nat
  | b0 :: b1 :: b2 :: b3 :: b4 :: b5 :: b6 :: b7 :: rest =>
    (b0 + b1 * 2 ^ 8 + b2 * 2 ^ 16 + b3 * 2 ^ 24 + b4 * 2 ^ 32 + b5 * 2 ^ 40 +
      b6 * 2 ^ 48 + b7 * 2 ^ 56) :: le64Words rest
  | _ => []

/-- One BLAKE2b round: four column and four diagonal G applications. -/
def blake2bRound (m : List Nat) (v : List Nat) (s : List Nat) : List Nat :=
  let mi := fun i => m.getD (s.getD i 0) 0
  let v := blake2bG v 0 4 8 12 (mi 0) (mi 1)
  let v := blake2bG v 1 5 9 13 (mi 2) (mi 3)
  let v := blake2bG v 2 6 10 14 (mi 4) (mi 5)
  let v := blake2bG v 3 7 11 15 (mi 6) (mi 7)
  let v := blake2bG v 0 5 10 15 (mi 8) (mi 9)
  let v := blake2bG v 1 6 11 12 (mi 10) (mi 11)
  let v := blake2bG v 2 7 8 13 (mi 12) (mi 13)
  blake2bG v 3 4 9 14 (mi 14) (mi 15)

/-- BLAKE2b compression of one 128-byte block at offset counter `t`. -/
def blake2bCompress (h : List Nat) (block : List Nat) (t : Nat) (last : Bool) : List Nat :=
  let m := le64Words block
  let v0 := h ++ blake2bIV
  let v1 := v0.set 12 (v0.getD 12 0 ^^^ (t % 2 ^ 64))
  let v2 := v1.set 13 (v1.getD 13 0 ^^^ (t / 2 ^ 64))
  let v3 := if last then v2.set 14 (v2.getD 14 0 ^^^ (2 ^ 64 - 1)) else v2
  let v := (List.range 12).foldl (fun v r => blake2bRound m v (blake2bSigma.getD (r % 10) [])) v3
  (List.range 8).map (fun i => h.getD i 0 ^^^ v.getD i 0 ^^^ v.getD (i + 8) 0)

/-- Sequentially compress the message blocks; the counter of a non-final
block is the running byte total through that block, the final block is
zero-padded to 128 bytes and carries the total message length. -/
def blake2bGo (msgLen : Nat) (h : List Nat) (t : Nat) : List (List Nat) → List Nat
  | [] => blake2bCompress h (List.replicate 128 0) 0 true
  | [b] => blake2bCompress h (b ++ List.replicate (128 - b.length) 0) msgLen true
  | b :: rest => blake2bGo msgLen (blake2bCompress h b (t + 128) false) (t + 128) rest

/-- `hashlib.blake2b(msg, digest_size=32).digest()` as 32 bytes. -/
def blake2b256 (msg : List Nat) : List Nat :=
  let h0 := blake2bIV.set 0 (blake2bIV.getD 0 0 ^^^ (0x01010000 ^^^ 32))
  let hfin := blake2bGo msg.length h0 0 (chunksN 128 (msg.length + 1) msg)
  (hfin.flatMap (fun wd =>
    [wd % 256, wd / 2 ^ 8 % 256, wd / 2 ^ 16 % 256, wd / 2 ^ 24 % 256,
     wd / 2 ^ 32 % 256, wd / 2 ^ 40 % 256, wd / 2 ^ 48 % 256, wd / 2 ^ 56 % 256])).take 32

/-! ## LC-B batch builder (`src/python/hlx_lcb_client.py`, lines 240-309)

`LCBBatchBuilder.build` serializes the collected instruction list into one
frame.  A parameter value is one of the typed cases below; the two cases
whose byte image involves IEEE-754 floats (`float`, `tensor`) carry the
bytes that `struct.pack` / `ndarray.tobytes` produced, since only those
bytes enter the frame. -/

inductive ParamValue : Type where
  | int (v : Int)
  | float (raw : List Nat)
  | bool (b : Bool)
  | tensor (shape : List Nat) (raw : List Nat)
  | string (utf8 : List Nat)
  | chain (idx : Nat)

/-- `struct.pack("<I", n)`: four little-endian bytes. -/
def u32le (n : Nat) : List Nat := [n % 256, n / 2 ^ 8 % 256, n / 2 ^ 16 % 256, n / 2 ^ 24 % 256]

/-- Type tag and payload of one parameter value, as emitted by `build`.
The tensor payload is `u8 ndim, ndim × u32 LE shape, f32 data`; numpy
bounds `ndim` by 32, so the `u8` append never overflows. -/
def encodeParamValue : ParamValue → List Nat
  | .int v => 2 :: encode_leb128_i64 v
  | .float raw => 3 :: raw
  | .bool b => [1, if b then 1 else 0]
  | .tensor shape raw =>
    let payload := shape.length :: (shape.flatMap u32le ++ raw)
    5 :: (encode_leb128_u32 payload.length ++ payload)
  | .string utf8 => 4 :: (encode_leb128_u32 utf8.length ++ utf8)
  | .chain idx => 10 :: encode_leb128_u32 idx

/-- One named parameter: name length, name bytes, tagged value. -/
def encodeParam (p : List Nat × ParamValue) : List Nat :=
  encode_leb128_u32 p.1.length ++ p.1 ++ encodeParamValue p.2

/-- One instruction: contract id, parameter count, parameters in order. -/
def encodeInstruction (ins : Nat × List (List Nat × ParamValue)) : List Nat :=
  encode_leb128_u32 ins.1 ++ encode_leb128_u32 ins.2.length ++ ins.2.flatMap encodeParam

/-- `LCB_MAGIC = 0x3142434C`. -/
def LCB_MAGIC : Nat := 0x3142434C

/-- Every frame byte before the trailer: magic, version, batch id (the
SHA-256 of the packed instruction count), instruction count, then each
instruction. -/
def buildBody (instructions : List (Nat × List (List Nat × ParamValue))) : List Nat :=
  u32le LCB_MAGIC ++ [1] ++ sha256 (u32le instructions.length) ++
    encode_leb128_u32 instructions.length ++ instructions.flatMap encodeInstruction

/-- `LCBBatchBuilder.build`: the body followed by the 32-byte signature,
which the source computes as `hashlib.sha256(bytes(data)).digest()`. -/
def LCBBatchBuilder_build (instructions : List (Nat × List (List Nat × ParamValue))) : List Nat :=
  buildBody instructions ++ sha256 (buildBody instructions)

theorem sha256Round_length (st : List Nat) (wk : Nat × Nat) :
    (sha256Round st wk).length = st.length := by
  unfold sha256Round
  split <;> rfl

theorem sha256_length (msg : List Nat) : (sha256 msg).length = 32 := by
  have hfold : ∀ (l : List (Nat × Nat)) (st : List Nat),
      (l.foldl sha256Round st).length = st.length := by
    intro l
    induction l with
    | nil => intro st; rfl
    | cons p t ih => intro st; rw [List.foldl_cons, ih, sha256Round_length]
  have hcomp : ∀ (h : List Nat) (block : List Nat), h.length = 8 →
      (sha256Compress h block).length = 8 := by
    intro h block hh
    unfold sha256Compress
    simp [hfold, hh]
  have hblocks : ∀ (bs : List (List Nat)) (st : List Nat), st.length = 8 →
      (bs.foldl sha256Compress st).length = 8 := by
    intro bs
    induction bs with
    | nil => intro st h; simpa using h
    | cons b t ih => intro st h; rw [List.foldl_cons]; exact ih _ (hcomp _ _ h)
  unfold sha256
  rw [List.length_flatMap]
  have h8 : ((chunksN 64 ((sha256Pad msg).length + 1) (sha256Pad msg)).foldl
      sha256Compress sha256IV).length = 8 := hblocks _ _ rfl
  generalize (chunksN 64 ((sha256Pad msg).length + 1) (sha256Pad msg)).foldl
      sha256Compress sha256IV = hfin at h8
  have hconst : (List.length ∘ fun wd : Nat =>
      ([wd / 2 ^ 24 % 256, wd / 2 ^ 16 % 256, wd / 2 ^ 8 % 256, wd % 256] : List Nat)) =
      fun _ => 4 :=
    funext fun _ => rfl
  rw [hconst]
  have hsum : ∀ (l : List Nat), (l.map fun _ => (4 : Nat)).sum = 4 * l.length := by
    intro l
    induction l with
    | nil => rfl
    | cons a t ih => simp [ih]; ring
  rw [hsum, h8]

/-- C2 amended: the 32-byte trailer of every frame produced by
`LCBBatchBuilder.build` is the SHA-256 digest (not BLAKE2b-256) of all
preceding frame bytes. -/
theorem lcb_build_trailer_is_sha256 (instructions : List (Nat × List (List Nat × ParamValue))) :
    32 ≤ (LCBBatchBuilder_build instructions).length ∧
    (LCBBatchBuilder_build instructions).drop ((LCBBatchBuilder_build instructions).length - 32) =
      sha256 ((LCBBatchBuilder_build instructions).take
        ((LCBBatchBuilder_build instructions).length - 32)) := by
  unfold LCBBatchBuilder_build
  have hlen : (buildBody instructions ++ sha256 (buildBody instructions)).length =
      (buildBody instructions).length + 32 := by
    rw [List.length_append, sha256_length]
  refine ⟨by omega, ?_⟩
  rw [hlen, Nat.add_sub_cancel, List.drop_left, List.take_left]

/-- C2 counterexample: for the concrete single-instruction batch
`[(906, { m ↦ int 4 })]` (contract `TENSOR_GEMM`, one integer parameter
named `m`), the 32-byte trailer of the built frame is not the BLAKE2b-256
digest of the preceding bytes: the source signs with SHA-256 instead. -/
theorem lcb_build_trailer_not_blake2b :
    (LCBBatchBuilder_build [(906, [([0x6D], .int 4)])]).drop
        ((LCBBatchBuilder_build [(906, [([0x6D], .int 4)])]).length - 32) ≠
      blake2b256 ((LCBBatchBuilder_build [(906, [([0x6D], .int 4)])]).take
        ((LCBBatchBuilder_build [(906, [([0x6D], .int 4)])]).length - 32)) := by
  have he : encode_leb128_i64 4 = [4] := by
    simp [encode_leb128_i64]
    decide
  have h1 : encode_leb128_u32 1 = [1] := by
    simp [encode_leb128_u32]
  have h906 : encode_leb128_u32 906 = [0x8A, 0x07] := by
    simp [encode_leb128_u32]
    decide
  simp only [LCBBatchBuilder_build, buildBody, encodeInstruction, encodeParam, encodeParamValue,
    List.flatMap_cons, List.flatMap_nil, List.append_nil, List.length_cons, List.length_nil,
    Nat.zero_add, he, h1, h906]
  decide

/-! ## Content-addressed shader store (`src/hlx_runtime/shaderdb.py`)

The store state is the pair of the object layer (a finite map from the
two-level path, modelled as the pair of the two-character directory and the
62-character file name, to the stored bytes) and the SQLite index (a finite
map from the handle string to its row; `INSERT OR REPLACE` on the primary
key is an upsert).  `datetime.utcnow()` is passed in explicitly as `now`. -/

/-- Association-list lookup (first match wins, as for a keyed table). -/
def alistGet {κ α : Type} [DecidableEq κ] : List (κ × α) → κ → Option α
  | [], _ => none
  | (k', v') :: t, k => if k' = k then some v' else alistGet t k

/-- Association-list upsert: replace the existing entry in place, or append. -/
def alistPut {κ α : Type} [DecidableEq κ] : List (κ × α) → κ → α → List (κ × α)
  | [], k, v => [(k, v)]
  | (k', v') :: t, k, v => if k' = k then (k, v) :: t else (k', v') :: alistPut t k v

theorem alistGet_put_self {κ α : Type} [DecidableEq κ] (l : List (κ × α)) (k : κ) (v : α) :
    alistGet (alistPut l k v) k = some v := by
  induction l with
  | nil => simp [alistGet, alistPut]
  | cons p t ih =>
    by_cases h : p.1 = k <;> simp [alistGet, alistPut, h, ih]

/-- Lower-case hex digit, as produced by `bytes.hex()` / `hexdigest()`. -/
def hexChar (d : Nat) : Char := if d < 10 then Char.ofNat (48 + d) else Char.ofNat (87 + d)

/-- `bytes.hex()`: two lower-case hex characters per byte. -/
def bytesToHex (bs : List Nat) : List Char :=
  bs.flatMap (fun b => [hexChar (b / 16), hexChar (b % 16)])

/-- `ShaderHandle.PREFIX = "&h_shader_"`. -/
def shaderHandlePrefixChars : List Char := "&h_shader_".toList

/-- A `ShaderHandle` instance: `_handle` is the full string, `_hash` the
64-hex tail that `__init__` obtains by stripping the validated leading
`"&h_shader_"`. -/
structure ShaderHandle where
  handleStr : List Char
  hashHex : List Char
deriving DecidableEq

/-- `ShaderHandle.from_spirv`: the BLAKE2b-256 hex digest of the bytes,
wrapped in the handle tag (then re-split by `__init__`). -/
def ShaderHandle_from_spirv (spirv : List Nat) : ShaderHandle :=
  let full := shaderHandlePrefixChars ++ bytesToHex (blake2b256 spirv)
  { handleStr := full, hashHex := full.drop shaderHandlePrefixChars.length }

/-- `handle.prefix` in the source: the first two hex characters. -/
def ShaderHandle.hashPfx (h : ShaderHandle) : List Char := h.hashHex.take 2

/-- `handle.suffix` in the source: the remaining hex characters. -/
def ShaderHandle.hashSfx (h : ShaderHandle) : List Char := h.hashHex.drop 2

/-- One row of the `shaders` table.  `metadata_json` is the JSON image of
the pair (descriptor bindings, tags); the pair itself is stored since the
claims treat it opaquely, and a binding is carried as its
(binding, type) fields. -/
structure Row where
  name : String
  shader_stage : String
  entry_point : String
  workgroup_x : Nat
  workgroup_y : Nat
  workgroup_z : Nat
  spirv_size : Nat
  created_at : String
  metadata_desc : List (Nat × String)
  metadata_tags : List String
deriving DecidableEq

/-- The two layers of the store. -/
structure DBState where
  objects : List ((List Char × List Char) × List Nat)
  rows : List (List Char × Row)
deriving DecidableEq

/-- The `metadata` dict argument of `add_shader`; a missing key is `none`. -/
structure Metadata where
  name : Option String
  shader_stage : Option String
  entry_point : Option String
  workgroup_size : Option (List Nat)
  descriptor_bindings : Option (List (Nat × String))
  tags : Option (List String)
deriving DecidableEq

/-- The errors `add_shader`/`get` can raise. -/
inductive DBError : Type where
  | tooSmall
  | notAligned
  | badMagic (magic : Nat)
  | hashCollision
  | rowIndexError
  | notFound
deriving DecidableEq

/-- Decidable equality for `Except` results, so that concrete runs of the
store operations can be checked by evaluation. -/
instance {e a : Type} [DecidableEq e] [DecidableEq a] : DecidableEq (Except e a) := fun x y =>
  match x, y with
  | .error u, .error v =>
    if h : u = v then isTrue (by rw [h]) else isFalse (by intro hc; injection hc; contradiction)
  | .ok u, .ok v =>
    if h : u = v then isTrue (by rw [h]) else isFalse (by intro hc; injection hc; contradiction)
  | .error _, .ok _ => isFalse (by intro hc; injection hc)
  | .ok _, .error _ => isFalse (by intro hc; injection hc)

/-- The three `ValueError`s of the structural precondition block
(lines 158-167 of the source). -/
def DBError.isStructural : DBError → Bool
  | .tooSmall => true
  | .notAligned => true
  | .badMagic _ => true
  | _ => false

/-- `int.from_bytes(b[:4], "little")`; the caller guarantees four bytes. -/
def leU32 : List Nat → Nat
  | b0 :: b1 :: b2 :: b3 :: _ => b0 + 256 * b1 + 65536 * b2 + 16777216 * b3
  | _ => 0

/-- The metadata merge and row construction of `add_shader` (source lines
187-213): each field falls back to the keyword default; a falsy
`workgroup_size` (absent or the empty list) becomes `[1, 1, 1]`; the three
indexings `wg[0] wg[1] wg[2]` can raise `IndexError` on a short non-empty
list, modelled as `none`. -/
def mkRow (metadata : Option Metadata) (spirvLen : Nat) (now : String) : Option Row :=
  let wg := match metadata.bind (·.workgroup_size) with
    | some l => if l.isEmpty then [1, 1, 1] else l
    | none => [1, 1, 1]
  match wg[0]?, wg[1]?, wg[2]? with
  | some x, some y, some z =>
    some
      { name := (metadata.bind (·.name)).getD "unnamed",
        shader_stage := (metadata.bind (·.shader_stage)).getD "compute",
        entry_point := (metadata.bind (·.entry_point)).getD "main",
        workgroup_x := x, workgroup_y := y, workgroup_z := z,
        spirv_size := spirvLen, created_at := now,
        metadata_desc := (metadata.bind (·.descriptor_bindings)).getD [],
        metadata_tags := (metadata.bind (·.tags)).getD [] }
  | _, _, _ => none

/-- `ShaderDatabase.add_shader(spirv_bytes, metadata)`, returning the state
after the call together with the result.  The failure paths return their
state explicitly: the three validation errors and the collision error occur
before any write; the Python `IndexError` on a too-short
`metadata["workgroup_size"]` list occurs after the object write but before
the row insert, so that path returns the state with the object written and
no row. -/
def add_shader (st : DBState) (spirv : List Nat) (metadata : Option Metadata) (now : String) :
    DBState × Except DBError ShaderHandle :=
  if spirv.length < 20 then (st, .error .tooSmall)
  else if spirv.length % 4 ≠ 0 then (st, .error .notAligned)
  else if leU32 (spirv.take 4) ≠ 0x07230203 then
    (st, .error (.badMagic (leU32 (spirv.take 4))))
  else
    let handle := ShaderHandle_from_spirv spirv
    match alistGet st.objects (handle.hashPfx, handle.hashSfx) with
    | some existing =>
      if existing = spirv then (st, .ok handle) else (st, .error .hashCollision)
    | none =>
      let st1 : DBState := { st with objects := alistPut st.objects (handle.hashPfx, handle.hashSfx) spirv }
      match mkRow metadata spirv.length now with
      | some row => ({ st1 with rows := alistPut st1.rows handle.handleStr row }, .ok handle)
      | none => (st1, .error .rowIndexError)

/-- `ShaderDatabase.get(handle)` for a `ShaderHandle` argument (the form
`get(put(...))` composes): read the object at the two-level path, or fail
`KeyError` (NotFound). -/
def dbGet (st : DBState) (h : ShaderHandle) : Except DBError (List Nat) :=
  match alistGet st.objects (h.hashPfx, h.hashSfx) with
  | some bs => .ok bs
  | none => .error .notFound

/-- The empty store. -/
def st0 : DBState := { objects := [], rows := [] }

/-- The 20-byte SPIR-V header module of spec scenario S4. -/
def spirvS4 : List Nat :=
  [0x03, 0x02, 0x23, 0x07, 0, 0, 1, 0, 0, 0, 0, 0, 1, 0, 0, 0, 0, 0, 0, 0]

/-- A metadata dict `{name: "alpha"}`. -/
def mdAlpha : Metadata :=
  { name := some "alpha", shader_stage := none, entry_point := none,
    workgroup_size := none, descriptor_bindings := none, tags := none }

/-- A metadata dict `{name: "beta"}`. -/
def mdBeta : Metadata :=
  { name := some "beta", shader_stage := none, entry_point := none,
    workgroup_size := none, descriptor_bindings := none, tags := none }

/-- The store after a first put of `spirvS4` with metadata `{name: "alpha"}`. -/
def stAlpha : DBState := (add_shader st0 spirvS4 (some mdAlpha) "t1").1

/-- C4: fetching a freshly put shader returns exactly the stored bytes.
Whenever `add_shader` succeeds, reading the returned handle from the
resulting state yields the input bytes: on the dedup path the path already
held exactly those bytes, and on the fresh path they were just written at
the very path the handle addresses. -/
theorem get_put_roundtrip (st : DBState) (spirv : List Nat) (m : Option Metadata)
    (now : String) (st' : DBState) (h : ShaderHandle)
    (hput : add_shader st spirv m now = (st', Except.ok h)) :
    dbGet st' h = .ok spirv := by
  unfold add_shader at hput
  split at hput
  · simp at hput
  split at hput
  · simp at hput
  split at hput
  · simp at hput
  rcases halist : alistGet st.objects ((ShaderHandle_from_spirv spirv).hashPfx,
      (ShaderHandle_from_spirv spirv).hashSfx) with _ | existing
  · simp only [halist] at hput
    rcases hrow : mkRow m spirv.length now with _ | row
    · simp only [hrow] at hput
      simp at hput
    · simp only [hrow] at hput
      simp only [Prod.mk.injEq, Except.ok.injEq] at hput
      obtain ⟨hst, hh⟩ := hput
      subst hst
      subst hh
      unfold dbGet
      simp [alistGet_put_self]
  · simp only [halist] at hput
    by_cases hsame : existing = spirv
    · rw [if_pos hsame] at hput
      simp only [Prod.mk.injEq, Except.ok.injEq] at hput
      obtain ⟨hst, hh⟩ := hput
      subst hst
      subst hh
      unfold dbGet
      rw [halist, hsame]
    · rw [if_neg hsame] at hput
      simp at hput

/-- C4 witness: the concrete S4 bytes stored in the empty store and read
back. -/
theorem get_put_roundtrip_witness :
    dbGet (add_shader st0 spirvS4 none "t").1 (ShaderHandle_from_spirv spirvS4) =
      .ok spirvS4 :=
  get_put_roundtrip st0 spirvS4 none "t" (add_shader st0 spirvS4 none "t").1
    (ShaderHandle_from_spirv spirvS4) (by decide)

/-- C3 counterexample: a second put of already-stored bytes with different
metadata does NOT upsert the metadata row.  After putting `spirvS4` with
`{name: "alpha"}`, putting the same bytes with `{name: "beta"}` returns the
same handle and leaves the whole state unchanged; the row still carries
`"alpha"`, not the new metadata.  The claim requires the row to be
upserted with the new metadata on this path. -/
theorem add_shader_dedup_skips_upsert :
    add_shader stAlpha spirvS4 (some mdBeta) "t2" =
      (stAlpha, .ok (ShaderHandle_from_spirv spirvS4)) ∧
    (alistGet stAlpha.rows (ShaderHandle_from_spirv spirvS4).handleStr).map Row.name =
      some "alpha" ∧
    mdBeta.name = some "beta" ∧ "alpha" ≠ "beta" := by
  refine ⟨by decide, by decide, by decide, by decide⟩

/-- C3 amended: a put of bytes whose object already exists with exactly
those bytes returns the same (content-determined) handle as the first put
and leaves the store, including the metadata row, entirely unchanged; the
new metadata argument is ignored. -/
theorem add_shader_idempotent_no_upsert (st : DBState) (spirv : List Nat)
    (m : Option Metadata) (now : String)
    (hlen : ¬ spirv.length < 20) (h4 : spirv.length % 4 = 0)
    (hmag : leU32 (spirv.take 4) = 0x07230203)
    (hobj : alistGet st.objects ((ShaderHandle_from_spirv spirv).hashPfx,
      (ShaderHandle_from_spirv spirv).hashSfx) = some spirv) :
    add_shader st spirv m now = (st, .ok (ShaderHandle_from_spirv spirv)) := by
  unfold add_shader
  rw [if_neg hlen, if_neg (by simpa using h4), if_neg (by simp [hmag])]
  simp [hobj]

/-- C3 amended witness: the second put of the S4 bytes. -/
theorem add_shader_idempotent_no_upsert_witness :
    add_shader stAlpha spirvS4 (some mdBeta) "t2" =
      (stAlpha, .ok (ShaderHandle_from_spirv spirvS4)) :=
  add_shader_idempotent_no_upsert stAlpha spirvS4 (some mdBeta) "t2"
    (by decide) (by decide) (by decide) (by decide)

/-- C8: the structural validation of `add_shader`, in source order: a
too-small input fails `tooSmall`; an input of unaligned length (that is not
too small) fails `notAligned`; a wrong magic word (on an otherwise
acceptable length) fails `badMagic` carrying the read word; and an input
passing all three checks is never rejected by the structural validation -
any later error is non-structural. -/
theorem add_shader_structural_validation (st : DBState) (spirv : List Nat)
    (m : Option Metadata) (now : String) :
    (spirv.length < 20 → add_shader st spirv m now = (st, .error .tooSmall)) ∧
    (¬ spirv.length < 20 → spirv.length % 4 ≠ 0 →
      add_shader st spirv m now = (st, .error .notAligned)) ∧
    (¬ spirv.length < 20 → spirv.length % 4 = 0 → leU32 (spirv.take 4) ≠ 0x07230203 →
      add_shader st spirv m now = (st, .error (.badMagic (leU32 (spirv.take 4))))) ∧
    (¬ spirv.length < 20 → spirv.length % 4 = 0 → leU32 (spirv.take 4) = 0x07230203 →
      ∀ e, (add_shader st spirv m now).2 = .error e → e.isStructural = false) := by
  refine ⟨?_, ?_, ?_, ?_⟩
  · intro h1
    unfold add_shader
    rw [if_pos h1]
  · intro h1 h2
    unfold add_shader
    rw [if_neg h1, if_pos h2]
  · intro h1 h2 h3
    unfold add_shader
    rw [if_neg h1, if_neg (by simpa using h2), if_pos h3]
  · intro h1 h2 h3 e
    unfold add_shader
    rw [if_neg h1, if_neg (by simpa using h2), if_neg (by simp [h3])]
    rcases halist : alistGet st.objects ((ShaderHandle_from_spirv spirv).hashPfx,
        (ShaderHandle_from_spirv spirv).hashSfx) with _ | existing
    · simp only [halist]
      rcases hrow : mkRow m spirv.length now with _ | row
      · simp only [hrow]
        intro he
        simp only [Except.error.injEq] at he
        subst he
        rfl
      · simp only [hrow]
        intro he
        simp at he
    · simp only [halist]
      by_cases hsame : existing = spirv
      · rw [if_pos hsame]
        intro he
        simp at he
      · rw [if_neg hsame]
        intro he
        simp only [Except.error.injEq] at he
        subst he
        rfl

/-- C8 witness: each validation arm at a concrete input. -/
theorem add_shader_structural_validation_witness :
    add_shader st0 [] none "t" = (st0, .error .tooSmall) ∧
    add_shader st0 (List.replicate 21 0) none "t" = (st0, .error .notAligned) ∧
    add_shader st0 (List.replicate 20 0) none "t" =
      (st0, .error (.badMagic (leU32 ((List.replicate 20 0).take 4)))) ∧
    (∀ e, (add_shader st0 spirvS4 none "t").2 = .error e → e.isStructural = false) :=
  ⟨(add_shader_structural_validation st0 [] none "t").1 (by decide),
   (add_shader_structural_validation st0 (List.replicate 21 0) none "t").2.1
     (by decide) (by decide),
   (add_shader_structural_validation st0 (List.replicate 20 0) none "t").2.2.1
     (by decide) (by decide) (by decide),
   (add_shader_structural_validation st0 spirvS4 none "t").2.2.2
     (by decide) (by decide) (by decide)⟩

/-- C9: error atomicity at the CAS interface.  When `add_shader` fails with
any of the four claimed errors - too small, unaligned, wrong magic, or a
digest collision at an existing object path - the returned state is exactly
the input state: no object is written and no row is touched.  (The only
failure that does mutate state is the out-of-claim `IndexError` on a short
explicit workgroup list, which the model returns as `rowIndexError`.) -/
theorem add_shader_error_atomicity (st : DBState) (spirv : List Nat)
    (m : Option Metadata) (now : String) (e : DBError)
    (he : (add_shader st spirv m now).2 = .error e)
    (hkind : e = .tooSmall ∨ e = .notAligned ∨ (∃ g, e = .badMagic g) ∨ e = .hashCollision) :
    (add_shader st spirv m now).1 = st := by
  by_cases h1 : spirv.length < 20
  · unfold add_shader
    rw [if_pos h1]
  by_cases h2 : spirv.length % 4 ≠ 0
  · unfold add_shader
    rw [if_neg h1, if_pos h2]
  by_cases h3 : leU32 (spirv.take 4) ≠ 0x07230203
  · unfold add_shader
    rw [if_neg h1, if_neg h2, if_pos h3]
  unfold add_shader at he ⊢
  rw [if_neg h1, if_neg h2, if_neg h3] at he ⊢
  rcases halist : alistGet st.objects ((ShaderHandle_from_spirv spirv).hashPfx,
      (ShaderHandle_from_spirv spirv).hashSfx) with _ | existing
  · simp only [halist] at he ⊢
    rcases hrow : mkRow m spirv.length now with _ | row
    · simp only [hrow] at he ⊢
      simp only [Except.error.injEq] at he
      subst he
      rcases hkind with h | h | ⟨g, h⟩ | h <;> simp at h
    · simp only [hrow] at he ⊢
      simp at he
  · simp only [halist] at he ⊢
    split <;> rfl

/-- C9 witness: the too-small failure leaves the empty store unchanged. -/
theorem add_shader_error_atomicity_witness :
    (add_shader st0 [] none "t").2 = .error .tooSmall ∧
    (add_shader st0 [] none "t").1 = st0 :=
  ⟨by decide,
   add_shader_error_atomicity st0 [] none "t" .tooSmall (by decide) (Or.inl rfl)⟩

/-! ## LC-T codec (`src/runtime/hlx_runtime/lc_t_codec.py`)

The Python value domain of the codec, minus floats: `None`, `bool`, `int`,
`str`, `bytes`, `list`, and `dict`.  A dict containing the key
`"contract_id"` is a contract and is embedded as `vcontract` (id plus the
`field_<N>` entries as an index-keyed list); any other dict is `vobj`.
IEEE-754 floats lie outside the shallow embedding (the encoder formats them
through `%.15g`); the decoder marks a float literal with a dedicated error
value below.  Text is `List Char`; character classes (`isalnum`, `isdigit`,
`isspace`, `isalpha`) are taken in their ASCII fragment, which is all the
well-formedness predicate admits. -/

inductive LCTValue : Type where
  | vnull
  | vbool (b : Bool)
  | vint (n : Int)
  | vstr (s : List Char)
  | vbytes (bs : List Nat)
  | varr (elems : List LCTValue)
  | vobj (fields : List (List Char × LCTValue))
  | vcontract (cid : Int) (fields : List (Int × LCTValue))

/-- `str(n)` for a natural number: canonical decimal digits.  Fuel-based
division loop; `n + 1` fuel always suffices since the value shrinks by a
factor ten each step. -/
def natDecimalGo : Nat → Nat → List Char
  | 0, _ => []
  | fuel + 1, n =>
    if n < 10 then [Char.ofNat (48 + n)]
    else natDecimalGo fuel (n / 10) ++ [Char.ofNat (48 + n % 10)]

/-- `str(n)` for `n : Nat`. -/
def natDecimal (n : Nat) : List Char := natDecimalGo (n + 1) n

/-- `str(v)` for a Python int. -/
def intDecimal (v : Int) : List Char :=
  if v < 0 then '-' :: natDecimal v.natAbs else natDecimal v.toNat

/-- The escaping of `_encode_string`: the two sequential `str.replace`
calls first double every backslash and then prefix every double quote,
which on the original characters is this per-character expansion. -/
def escapeString (s : List Char) : List Char :=
  s.flatMap fun c => if c = '\\' then ['\\', c] else if c = '"' then ['\\', c] else [c]

/-- Comma-separated join of already-encoded pieces. -/
def sepJoin : List (List Char) → List Char
  | [] => []
  | [x] => x
  | x :: t => x ++ ',' :: sepJoin t

/-- Insert one field into an index-sorted prefix (the stable
`fields.sort(key=λx. x[0])` of `_encode_contract`). -/
def insField {α : Type} (p : Int × α) : List (Int × α) → List (Int × α)
  | [] => [p]
  | q :: t => if p.1 ≤ q.1 then p :: q :: t else q :: insField p t

/-- Sort the contract fields by index. -/
def sortFields {α : Type} : List (Int × α) → List (Int × α)
  | [] => []
  | p :: t => insField p (sortFields t)

/-- The `",index=value"` emission of the sorted contract field pairs. -/
def emitFields : List (Int × List Char) → List Char
  | [] => []
  | (i, ev) :: t => ',' :: intDecimal i ++ '=' :: ev ++ emitFields t

mutual

/-- `LCTEncoder.encode`.  The string case reproduces the handle special
cases: a leading `"&h_"` or `"&"` turns into an `@` reference; everything
else is quoted with escaping.  The bytes case is `"#" + value.hex()`. -/
def encodeLct : LCTValue → List Char
  | .vnull => ['N', 'U', 'L', 'L']
  | .vbool true => ['T', 'R', 'U', 'E']
  | .vbool false => ['F', 'A', 'L', 'S', 'E']
  | .vint v => intDecimal v
  | .vstr s =>
    if ['&', 'h', '_'].isPrefixOf s then '@' :: s.drop 3
    else if ['&'].isPrefixOf s then '@' :: s.drop 1
    else '"' :: escapeString s ++ ['"']
  | .vbytes bs => '#' :: bytesToHex bs
  | .varr l => '[' :: encodeLctList l ++ [']']
  | .vobj kvs => '{' :: sepJoin (encodeLctKVs kvs) ++ ['}']
  | .vcontract cid fields =>
    '{' :: 'C' :: ':' :: intDecimal cid ++
      emitFields (sortFields (encodeLctFieldPairs fields)) ++ ['}']

/-- The encoded elements of an array, comma separated. -/
def encodeLctList : List LCTValue → List Char
  | [] => []
  | [e] => encodeLct e
  | e :: t => encodeLct e ++ ',' :: encodeLctList t

/-- The `"key:value"` pieces of an object. -/
def encodeLctKVs : List (List Char × LCTValue) → List (List Char)
  | [] => []
  | (k, v) :: t => (k ++ ':' :: encodeLct v) :: encodeLctKVs t

/-- The `(field_idx, encoded_value)` pairs `_encode_contract` collects
before sorting them by index. -/
def encodeLctFieldPairs : List (Int × LCTValue) → List (Int × List Char)
  | [] => []
  | (i, v) :: t => (i, encodeLct v) :: encodeLctFieldPairs t

end

/-- Decoder errors (`LCTError` in the source carries only a message; the
constructors here name the raise sites, plus `floatLiteral` for the float
branch outside the embedded domain and `outOfFuel` for exhausted fuel,
which a sufficiently large entry fuel never reaches). -/
inductive LCTErr : Type where
  | emptyInput
  | trailing
  | unexpectedEnd
  | unexpectedChar
  | unterminatedString
  | unterminatedEscape
  | unterminatedArray
  | expectedCommaOrBracket
  | expectedEquals
  | expectedColon
  | expectedIdent
  | unterminatedObject
  | indexError
  | badInt
  | floatLiteral
  | badHexBytes
  | outOfFuel
deriving DecidableEq

/-- `_skip_whitespace`. -/
def skipWs (s : List Char) : List Char := s.dropWhile Char.isWhitespace

/-- `str.strip()`: drop whitespace from both ends. -/
def pyStrip (s : List Char) : List Char :=
  ((s.dropWhile Char.isWhitespace).reverse.dropWhile Char.isWhitespace).reverse

/-- An identifier character: `isalnum() or == "_"`. -/
def isIdentChar (c : Char) : Bool := c.isAlphanum || c = '_'

/-- `_read_identifier`: longest identifier run; empty is an error. -/
def readIdentifier (s : List Char) : Except LCTErr (List Char × List Char) :=
  let ident := s.takeWhile isIdentChar
  if ident.isEmpty then .error .expectedIdent
  else .ok (ident, s.drop ident.length)

/-- A hex digit as `_read_hex` accepts. -/
def isHexDigit (c : Char) : Bool :=
  ('0' ≤ c && c ≤ '9') || ('a' ≤ c && c ≤ 'f') || ('A' ≤ c && c ≤ 'F')

/-- Numeric value of a hex digit. -/
def hexDigitVal (c : Char) : Nat :=
  if '0' ≤ c && c ≤ '9' then c.toNat - 48
  else if 'a' ≤ c && c ≤ 'f' then c.toNat - 87
  else c.toNat - 55

/-- `bytes.fromhex` on a run of hex digits: strict pairs, odd length fails. -/
def fromHexPairs : List Char → Option (List Nat)
  | [] => some []
  | [_] => none
  | a :: b :: t => (fromHexPairs t).map fun bs => (16 * hexDigitVal a + hexDigitVal b) :: bs

/-- The escape map of `_read_string`: the five named escapes, any other
escaped character stands for itself. -/
def unescapeChar (c : Char) : Char :=
  if c = 'n' then Char.ofNat 10
  else if c = 't' then Char.ofNat 9
  else if c = 'r' then Char.ofNat 13
  else c

/-- `_read_string` after the opening quote: collect until the closing
quote, resolving escapes; running out of input is an error. -/
def readStringGo (acc : List Char) : List Char → Except LCTErr (List Char × List Char)
  | [] => .error .unterminatedString
  | '"' :: rest => .ok (acc.reverse, rest)
  | '\\' :: [] => .error .unterminatedEscape
  | '\\' :: e :: rest => readStringGo (unescapeChar e :: acc) rest
  | c :: rest => readStringGo (c :: acc) rest

/-- `digitsVal` of a decimal digit run. -/
def digitsVal (ds : List Char) : Nat := ds.foldl (fun a c => 10 * a + (c.toNat - 48)) 0

/-- Python `int(s)` on the character material `_read_number_str` can
provide (optional sign, then the span characters): digits give the value,
anything else (empty string, stray sign, dot, exponent) raises. -/
def parseIntPy : List Char → Option Int
  | [] => none
  | '-' :: ds =>
    if ds.isEmpty || !ds.all Char.isDigit then none else some (-(digitsVal ds : Int))
  | ds => if !ds.all Char.isDigit then none else some (digitsVal ds)

/-- The exponent part of `_read_number_str` (optional `e`/`E`, optional
sign, digits), appended to the span read so far. -/
def readNumExp (pre : List Char) (s : List Char) : List Char × List Char :=
  match s with
  | c :: t =>
    if c = 'e' || c = 'E' then
      match t with
      | u :: t2 =>
        if u = '+' || u = '-' then
          (pre ++ c :: u :: t2.takeWhile Char.isDigit, t2.dropWhile Char.isDigit)
        else (pre ++ c :: t.takeWhile Char.isDigit, t.dropWhile Char.isDigit)
      | [] => (pre ++ [c], t)
    else (pre, s)
  | [] => (pre, s)

/-- The fraction part of `_read_number_str` (optional `.` and digits). -/
def readNumFrac (pre : List Char) (s : List Char) : List Char × List Char :=
  match s with
  | '.' :: t => readNumExp (pre ++ '.' :: t.takeWhile Char.isDigit) (t.dropWhile Char.isDigit)
  | _ => readNumExp pre s

/-- `_read_number_str`: optional minus, digits, optional fraction, optional
exponent; returns the span and the remaining input. -/
def readNumberStr (s : List Char) : List Char × List Char :=
  match s with
  | '-' :: t => readNumFrac ('-' :: t.takeWhile Char.isDigit) (t.dropWhile Char.isDigit)
  | _ => readNumFrac (s.takeWhile Char.isDigit) (s.dropWhile Char.isDigit)

/-- `_read_number`: a span containing a dot or an exponent is a float
(outside the embedded domain); otherwise `int(span)`. -/
def readNumber (s : List Char) : Except LCTErr (LCTValue × List Char) :=
  let (numS, r) := readNumberStr s
  if numS.contains '.' || numS.contains 'e' || numS.contains 'E' then .error .floatLiteral
  else
    match parseIntPy numS with
    | some v => .ok (.vint v, r)
    | none => .error .badInt

/-- `_match(keyword)`: the keyword must be followed by end of input or a
non-alphanumeric character (an underscore does terminate it, as in the
source, which tests `isalnum()` only). -/
def matchKw (kw : List Char) (s : List Char) : Option (List Char) :=
  if kw.isPrefixOf s then
    match s.drop kw.length with
    | [] => some []
    | c :: t => if c.isAlphanum then none else some (c :: t)
  else none

mutual

/-- `_parse_value`, consuming from the front; `fuel` decreases on every
mutual call and every loop iteration. -/
def parseValue : Nat → List Char → Except LCTErr (LCTValue × List Char)
  | 0, _ => .error .outOfFuel
  | fuel + 1, s0 =>
    match skipWs s0 with
    | [] => .error .unexpectedEnd
    | c :: rest =>
      match matchKw ['N', 'U', 'L', 'L'] (c :: rest) with
      | some r => .ok (.vnull, r)
      | none =>
      match matchKw ['T', 'R', 'U', 'E'] (c :: rest) with
      | some r => .ok (.vbool true, r)
      | none =>
      match matchKw ['F', 'A', 'L', 'S', 'E'] (c :: rest) with
      | some r => .ok (.vbool false, r)
      | none =>
      if c = '@' then
        match readIdentifier rest with
        | .ok (ident, r) => .ok (.vstr ('&' :: 'h' :: '_' :: ident), r)
        | .error e => .error e
      else if c = '#' then
        let hx := rest.takeWhile isHexDigit
        match fromHexPairs hx with
        | some bs => .ok (.vbytes bs, rest.drop hx.length)
        | none => .error .badHexBytes
      else if c = '"' then
        match readStringGo [] rest with
        | .ok (str, r) => .ok (.vstr str, r)
        | .error e => .error e
      else if c = '[' then
        parseArray fuel rest
      else if c = '{' then
        parseBrace fuel rest
      else if c = '-' || c.isDigit then
        readNumber (c :: rest)
      else if c.isAlpha || c = '_' then
        match readIdentifier (c :: rest) with
        | .ok (ident, r) => .ok (.vstr (['&', 'h', '_'] ++ ident), r)
        | .error e => .error e
      else .error .unexpectedChar

/-- `_parse_array` after the opening bracket: empty array short-circuit,
otherwise the element loop. -/
def parseArray : Nat → List Char → Except LCTErr (LCTValue × List Char)
  | 0, _ => .error .outOfFuel
  | fuel + 1, s =>
    match skipWs s with
    | ']' :: r => .ok (.varr [], r)
    | s1 => parseArrayLoop fuel s1 []

/-- The element loop of `_parse_array`: parse a value, then expect `]` to
finish or `,` to continue. -/
def parseArrayLoop : Nat → List Char → List LCTValue → Except LCTErr (LCTValue × List Char)
  | 0, _, _ => .error .outOfFuel
  | fuel + 1, s, acc =>
    match parseValue fuel (skipWs s) with
    | .error e => .error e
    | .ok (v, s2) =>
      match skipWs s2 with
      | [] => .error .unterminatedArray
      | ']' :: r => .ok (.varr (acc ++ [v]), r)
      | ',' :: r => parseArrayLoop fuel r (acc ++ [v])
      | _ => .error .expectedCommaOrBracket

/-- `_parse_brace` after the opening brace: empty object, contract when the
next two characters are `C:`, object otherwise. -/
def parseBrace : Nat → List Char → Except LCTErr (LCTValue × List Char)
  | 0, _ => .error .outOfFuel
  | fuel + 1, s =>
    match skipWs s with
    | '}' :: r => .ok (.vobj [], r)
    | 'C' :: ':' :: r => parseContract fuel r
    | s1 => parseObjectLoop fuel s1 []

/-- `_parse_contract` after `C:`: read the contract id, then the field
loop. -/
def parseContract : Nat → List Char → Except LCTErr (LCTValue × List Char)
  | 0, _ => .error .outOfFuel
  | fuel + 1, s =>
    match parseIntPy (readNumberStr s).1 with
    | some cid => parseContractLoop fuel (readNumberStr s).2 cid []
    | none => .error .badInt

/-- The field loop of `_parse_contract`.  As in the source: exhausted input
ends the loop and returns the contract built so far (no missing-brace
error); a comma is skipped if present; the field index is read and `=` is
required; a repeated index overwrites in place (dict assignment). -/
def parseContractLoop : Nat → List Char → Int → List (Int × LCTValue) →
    Except LCTErr (LCTValue × List Char)
  | 0, _, _, _ => .error .outOfFuel
  | fuel + 1, s, cid, acc =>
    match s with
    | [] => .ok (.vcontract cid acc, [])
    | _ :: _ =>
      match skipWs s with
      | [] => .error .indexError
      | '}' :: r => .ok (.vcontract cid acc, r)
      | s1 =>
        let s2 := match s1 with
          | ',' :: t => skipWs t
          | _ => s1
        let (numS, s3) := readNumberStr s2
        match parseIntPy numS with
        | none => .error .badInt
        | some idx =>
          match skipWs s3 with
          | '=' :: s5 =>
            match parseValue fuel (skipWs s5) with
            | .error e => .error e
            | .ok (v, s6) => parseContractLoop fuel s6 cid (alistPut acc idx v)
          | _ => .error .expectedEquals

/-- The key/value loop of `_parse_object`: identifier key, `:`, value,
optional comma; dict assignment on a repeated key overwrites in place. -/
def parseObjectLoop : Nat → List Char → List (List Char × LCTValue) →
    Except LCTErr (LCTValue × List Char)
  | 0, _, _ => .error .outOfFuel
  | fuel + 1, s, acc =>
    match skipWs s with
    | [] => .error .unterminatedObject
    | '}' :: r => .ok (.vobj acc, r)
    | s1 =>
      match readIdentifier s1 with
      | .error e => .error e
      | .ok (key, s2) =>
        match skipWs s2 with
        | ':' :: s4 =>
          match parseValue fuel (skipWs s4) with
          | .error e => .error e
          | .ok (v, s5) =>
            let acc2 := alistPut acc key v
            let s6 := match skipWs s5 with
              | ',' :: r => r
              | s7 => s7
            parseObjectLoop fuel s6 acc2
        | _ => .error .expectedColon

end

/-- `LCTDecoder.decode`: strip, refuse empty input, parse one value, and
refuse leftover content.  The entry fuel `3 * length + 1` exceeds the fuel
any parse of the input can consume, since every unit of fuel spent beyond
two per consumed character corresponds to a consumed character (proved
below for encoder output, which is the only place success is asserted). -/
def decode_lct (s : List Char) : Except LCTErr LCTValue :=
  let t := pyStrip s
  if t.isEmpty then .error .emptyInput
  else
    match parseValue (3 * t.length + 1) t with
    | .error e => .error e
    | .ok (v, rest) =>
      if (skipWs rest).isEmpty then .ok v else .error .trailing

/-! ### The well-formed value domain

`decode ∘ encode = id` does not hold on the full value domain (the C1
counterexample below); it holds on the sub-domain carved out here, which
excludes exactly the values whose encodings collide with another reading:

* a string starting with `&` is emitted as an `@`-reference and only comes
  back intact when it has the shape `&h_<identifier>`;
* byte values are actual bytes (`< 256`), as Python `bytes` guarantees;
* object keys are the non-empty identifier strings the object parser can
  read back, pairwise distinct (dict keys), without the dict key
  `"contract_id"` (such a dict is a contract, not an object), and the first
  key is not exactly `C` (the brace parser would read `C:` as a contract);
* contract fields are strictly ascending by index - the canonical
  iteration order of the field dict, on which the encoder sort is the
  identity (an index set is always representable this way). -/

/-- Well-formedness of a string value under encoding. -/
def wfStr (s : List Char) : Bool :=
  if ['&', 'h', '_'].isPrefixOf s then !(s.drop 3).isEmpty && (s.drop 3).all isIdentChar
  else !(['&'].isPrefixOf s)

/-- Strictly ascending integer list. -/
def strictAsc : List Int → Bool
  | [] => true
  | [_] => true
  | a :: b :: t => decide (a < b) && strictAsc (b :: t)

/-- A usable object key: non-empty identifier, not `"contract_id"`. -/
def wfKey (k : List Char) : Bool :=
  !k.isEmpty && k.all isIdentChar && k ≠ "contract_id".toList

mutual

/-- The domain on which the LC-T round-trip holds. -/
def wfLct : LCTValue → Bool
  | .vnull => true
  | .vbool _ => true
  | .vint _ => true
  | .vstr s => wfStr s
  | .vbytes bs => bs.all (· < 256)
  | .varr l => wfLctList l
  | .vobj kvs =>
    (match kvs with
     | (k, _) :: _ => k ≠ ['C']
     | [] => true) &&
    (kvs.map Prod.fst).Nodup && wfLctKVs kvs
  | .vcontract _ fields => strictAsc (fields.map Prod.fst) && wfLctFields fields

def wfLctList : List LCTValue → Bool
  | [] => true
  | e :: t => wfLct e && wfLctList t

def wfLctKVs : List (List Char × LCTValue) → Bool
  | [] => true
  | (k, v) :: t => wfKey k && wfLct v && wfLctKVs t

def wfLctFields : List (Int × LCTValue) → Bool
  | [] => true
  | (_, v) :: t => wfLct v && wfLctFields t

end

mutual

/-- Fuel consumed by a successful parse of the encoding of a value (an
upper bound, with slack where the parser takes a short path). -/
def fsize : LCTValue → Nat
  | .vnull => 1
  | .vbool _ => 1
  | .vint _ => 1
  | .vstr _ => 1
  | .vbytes _ => 1
  | .varr l => 2 + fsizeList l
  | .vobj kvs => 3 + fsizeKVs kvs
  | .vcontract _ fields => 4 + fsizeFields fields

def fsizeList : List LCTValue → Nat
  | [] => 0
  | e :: t => 1 + fsize e + fsizeList t

def fsizeKVs : List (List Char × LCTValue) → Nat
  | [] => 0
  | (_, v) :: t => 1 + fsize v + fsizeKVs t

def fsizeFields : List (Int × LCTValue) → Nat
  | [] => 0
  | (_, v) :: t => 1 + fsize v + fsizeFields t

end

theorem fsize_pos (v : LCTValue) : 1 ≤ fsize v := by
  cases v <;> simp [fsize] <;> omega

/-- A character that may legally follow a complete encoded value in the
surrounding syntax: nothing (end of input), or a separator or closer. -/
def boundaryOk (rest : List Char) : Bool :=
  match rest with
  | [] => true
  | c :: _ => c = ',' || c = ']' || c = '}'

/-! ### Span lemmas: each leaf reader consumes exactly its span -/

theorem takeWhile_append_eq {p : Char → Bool} :
    ∀ (l rest : List Char), l.all p = true →
      (∀ c t, rest = c :: t → p c = false) →
      (l ++ rest).takeWhile p = l := by
  intro l
  induction l with
  | nil =>
    intro rest _ hrest
    cases rest with
    | nil => rfl
    | cons c t => simp [List.takeWhile_cons, hrest c t rfl]
  | cons a l2 ih =>
    intro rest hall hrest
    simp only [List.all_cons, Bool.and_eq_true] at hall
    simp [List.takeWhile_cons, hall.1, ih rest hall.2 hrest]

theorem digit_char_spec (d : Nat) (h : d < 10) :
    (Char.ofNat (48 + d)).isDigit = true ∧ (Char.ofNat (48 + d)).toNat = 48 + d := by
  interval_cases d <;> exact ⟨by decide, by decide⟩

theorem digitsVal_append_digit (l : List Char) (c : Char) :
    digitsVal (l ++ [c]) = 10 * digitsVal l + (c.toNat - 48) := by
  unfold digitsVal
  rw [List.foldl_append]
  rfl

theorem natDecimalGo_spec :
    ∀ fuel n, n < fuel →
      (natDecimalGo fuel n).all Char.isDigit = true ∧ natDecimalGo fuel n ≠ [] ∧
      digitsVal (natDecimalGo fuel n) = n := by
  intro fuel
  induction fuel with
  | zero => intro n h; omega
  | succ f ih =>
    intro n hn
    unfold natDecimalGo
    by_cases h10 : n < 10
    · rw [if_pos h10]
      obtain ⟨hd, ht⟩ := digit_char_spec n h10
      refine ⟨by simp [hd], by simp, ?_⟩
      show digitsVal ([] ++ [Char.ofNat (48 + n)]) = n
      rw [digitsVal_append_digit]
      simp [digitsVal, ht]
    · rw [if_neg h10]
      obtain ⟨ha, hne, hv⟩ := ih (n / 10) (by omega)
      obtain ⟨hd, ht⟩ := digit_char_spec (n % 10) (by omega)
      refine ⟨?_, by simp, ?_⟩
      · simp [List.all_append, ha, hd]
      · rw [digitsVal_append_digit, hv, ht]
        omega

theorem natDecimal_spec (n : Nat) :
    (natDecimal n).all Char.isDigit = true ∧ natDecimal n ≠ [] ∧
    digitsVal (natDecimal n) = n :=
  natDecimalGo_spec (n + 1) n (by omega)

theorem isDigit_ne_chars {c : Char} (h : c.isDigit = true) :
    c ≠ '-' ∧ c ≠ '.' ∧ c ≠ 'e' ∧ c ≠ 'E' ∧ c ≠ '+' := by
  refine ⟨?_, ?_, ?_, ?_, ?_⟩ <;> rintro rfl <;> simp [Char.isDigit] at h

theorem parseIntPy_digits (ds : List Char) (hne : ds ≠ []) (hall : ds.all Char.isDigit = true) :
    parseIntPy ds = some (digitsVal ds) := by
  cases ds with
  | nil => exact absurd rfl hne
  | cons c cs =>
    have hcd : c.isDigit = true := by
      simp only [List.all_cons, Bool.and_eq_true] at hall
      exact hall.1
    have hcne : c ≠ '-' := (isDigit_ne_chars hcd).1
    unfold parseIntPy
    split
    · rename_i heq
      exact absurd heq (by simp)
    · rename_i ds2 heq
      injection heq with h1 h2
      exact absurd h1 hcne
    · simp [hall]

/-- A tail that cannot extend a number span. -/
def numBoundary (rest : List Char) : Prop :=
  ∀ c t, rest = c :: t → c.isDigit = false ∧ c ≠ '.' ∧ c ≠ 'e' ∧ c ≠ 'E'

theorem dropWhile_append_eq {p : Char → Bool} :
    ∀ (l rest : List Char), l.all p = true →
      (∀ c t, rest = c :: t → p c = false) →
      (l ++ rest).dropWhile p = rest := by
  intro l
  induction l with
  | nil =>
    intro rest _ hrest
    cases rest with
    | nil => rfl
    | cons c t => simp [List.dropWhile_cons, hrest c t rfl]
  | cons a l2 ih =>
    intro rest hall hrest
    simp only [List.all_cons, Bool.and_eq_true] at hall
    simp [List.dropWhile_cons, hall.1, ih rest hall.2 hrest]

theorem readNumExp_boundary (pre rest : List Char) (hrest : numBoundary rest) :
    readNumExp pre rest = (pre, rest) := by
  cases rest with
  | nil => rfl
  | cons c2 t2 =>
    obtain ⟨_, _, he, hE⟩ := hrest c2 t2 rfl
    unfold readNumExp
    simp [he, hE]

theorem readNumFrac_boundary (pre rest : List Char) (hrest : numBoundary rest) :
    readNumFrac pre rest = (pre, rest) := by
  have hexp := readNumExp_boundary pre rest hrest
  cases rest with
  | nil => exact hexp
  | cons c2 t2 =>
    obtain ⟨_, hdot, _, _⟩ := hrest c2 t2 rfl
    unfold readNumFrac
    split
    · rename_i t3 heq
      injection heq with h1 _
      exact absurd h1 hdot
    · exact hexp

theorem readNumberStr_digits (ds rest : List Char)
    (hall : ds.all Char.isDigit = true) (hne : ds ≠ []) (hrest : numBoundary rest) :
    readNumberStr (ds ++ rest) = (ds, rest) := by
  obtain ⟨c, cs, rfl⟩ : ∃ c cs, ds = c :: cs := by
    cases ds
    · exact absurd rfl hne
    · exact ⟨_, _, rfl⟩
  have hcd : c.isDigit = true := by
    simp only [List.all_cons, Bool.and_eq_true] at hall
    exact hall.1
  have hcm : c ≠ '-' := (isDigit_ne_chars hcd).1
  have htw : ((c :: cs) ++ rest).takeWhile Char.isDigit = c :: cs :=
    takeWhile_append_eq _ _ hall (fun c2 t2 h => (hrest c2 t2 h).1)
  have hdw : ((c :: cs) ++ rest).dropWhile Char.isDigit = rest :=
    dropWhile_append_eq _ _ hall (fun c2 t2 h => (hrest c2 t2 h).1)
  unfold readNumberStr
  split
  · rename_i t3 heq
    injection heq with h1 _
    exact absurd h1 hcm
  · rw [htw, hdw, readNumFrac_boundary _ _ hrest]

theorem readNumberStr_neg_digits (ds rest : List Char)
    (hall : ds.all Char.isDigit = true) (_hne : ds ≠ []) (hrest : numBoundary rest) :
    readNumberStr ('-' :: ds ++ rest) = ('-' :: ds, rest) := by
  have htw : (ds ++ rest).takeWhile Char.isDigit = ds :=
    takeWhile_append_eq _ _ hall (fun c2 t2 h => (hrest c2 t2 h).1)
  have hdw : (ds ++ rest).dropWhile Char.isDigit = rest :=
    dropWhile_append_eq _ _ hall (fun c2 t2 h => (hrest c2 t2 h).1)
  unfold readNumberStr
  split
  · rename_i t3 heq
    have h2 : t3 = ds ++ rest := by
      injection heq with _ h2
      exact h2.symm
    subst h2
    rw [htw, hdw, readNumFrac_boundary _ _ hrest]
  · rename_i hno
    exact (hno (ds ++ rest) rfl).elim

theorem all_not_contains {p : Char → Bool} :
    ∀ (l : List Char) (c : Char), l.all p = true → p c = false → l.contains c = false := by
  intro l c hall hc
  induction l with
  | nil => rfl
  | cons a t ih =>
    simp only [List.all_cons, Bool.and_eq_true] at hall
    have hac : a ≠ c := by
      intro h
      rw [h, hc] at hall
      exact absurd hall.1 (by simp)
    simp only [List.contains_cons]
    rw [ih hall.2]
    simp only [Bool.or_false, beq_eq_false_iff_ne, ne_eq]
    exact fun hh => hac hh.symm

/-- A digit is not whitespace, none of the dispatch characters, and is an
identifier character. -/
theorem digit_not_special {c : Char} (h : c.isDigit = true) :
    c.isWhitespace = false ∧ c ≠ '@' ∧ c ≠ '#' ∧ c ≠ '"' ∧ c ≠ '[' ∧ c ≠ '{' ∧
    c.isAlphanum = true ∧ isIdentChar c = true ∧ c ≠ '-' := by
  have hne : ∀ d : Char, d.isDigit = false → c ≠ d := by
    intro d hd he
    rw [he, hd] at h
    exact absurd h (by decide)
  refine ⟨?_, hne '@' (by decide), hne '#' (by decide), hne '"' (by decide),
    hne '[' (by decide), hne '{' (by decide), ?_, ?_, hne '-' (by decide)⟩
  · simp only [Char.isWhitespace, Bool.or_eq_false_iff, decide_eq_false_iff_not]
    exact ⟨⟨⟨hne ' ' (by decide), hne '\t' (by decide)⟩, hne '\x0d' (by decide)⟩,
      hne '\n' (by decide)⟩
  · simp [Char.isAlphanum, h]
  · simp [isIdentChar, Char.isAlphanum, h]

/-- An identifier character is not whitespace and none of the structural
characters. -/
theorem identChar_props {c : Char} (h : isIdentChar c = true) :
    c.isWhitespace = false ∧ c ≠ ',' ∧ c ≠ ']' ∧ c ≠ '}' ∧ c ≠ ':' ∧ c ≠ '=' ∧
    c ≠ '"' ∧ c ≠ '@' ∧ c ≠ '.' := by
  have hne : ∀ d : Char, isIdentChar d = false → c ≠ d := by
    intro d hd he
    rw [he, hd] at h
    exact absurd h (by decide)
  refine ⟨?_, hne ',' (by decide), hne ']' (by decide), hne '}' (by decide),
    hne ':' (by decide), hne '=' (by decide), hne '"' (by decide),
    hne '@' (by decide), hne '.' (by decide)⟩
  simp only [Char.isWhitespace, Bool.or_eq_false_iff, decide_eq_false_iff_not]
  exact ⟨⟨⟨hne ' ' (by decide), hne '\t' (by decide)⟩, hne '\x0d' (by decide)⟩,
    hne '\n' (by decide)⟩

/-- The boundary characters are not identifier, digit, hex, number
extension, or whitespace characters. -/
theorem boundary_props {rest : List Char} (h : boundaryOk rest = true) :
    (∀ c t, rest = c :: t → isIdentChar c = false ∧ c.isDigit = false ∧
      isHexDigit c = false ∧ c.isWhitespace = false ∧ c.isAlphanum = false) ∧
    numBoundary rest := by
  constructor
  · intro c t hrest
    subst hrest
    simp only [boundaryOk, Bool.or_eq_true, decide_eq_true_eq] at h
    rcases h with (rfl | rfl) | rfl <;> exact ⟨by decide, by decide, by decide, by decide, by decide⟩
  · intro c t hrest
    subst hrest
    simp only [boundaryOk, Bool.or_eq_true, decide_eq_true_eq] at h
    rcases h with (rfl | rfl) | rfl <;> exact ⟨by decide, by decide, by decide, by decide⟩

theorem hexChar_spec (d : Nat) (h : d < 16) :
    isHexDigit (hexChar d) = true ∧ hexDigitVal (hexChar d) = d := by
  interval_cases d <;> exact ⟨by decide, by decide⟩

theorem bytesToHex_all_hex (bs : List Nat) (h : bs.all (· < 256) = true) :
    (bytesToHex bs).all isHexDigit = true := by
  induction bs with
  | nil => rfl
  | cons b t ih =>
    simp only [List.all_cons, Bool.and_eq_true, decide_eq_true_eq] at h
    have h1 := hexChar_spec (b / 16) (by omega)
    have h2 := hexChar_spec (b % 16) (by omega)
    simp [bytesToHex, List.all_cons, h1.1, h2.1]
    simpa [bytesToHex] using ih h.2

theorem fromHexPairs_bytesToHex (bs : List Nat) (h : bs.all (· < 256) = true) :
    fromHexPairs (bytesToHex bs) = some bs := by
  induction bs with
  | nil => rfl
  | cons b t ih =>
    simp only [List.all_cons, Bool.and_eq_true, decide_eq_true_eq] at h
    have h1 := hexChar_spec (b / 16) (by omega)
    have h2 := hexChar_spec (b % 16) (by omega)
    show fromHexPairs (hexChar (b / 16) :: hexChar (b % 16) :: bytesToHex t) = _
    rw [fromHexPairs]
    rw [show bytesToHex t = bytesToHex t from rfl, ih h.2]
    simp [h1.2, h2.2]
    omega

theorem readIdentifier_span (ident rest : List Char)
    (hall : ident.all isIdentChar = true) (hne : ident ≠ [])
    (hrest : ∀ c t, rest = c :: t → isIdentChar c = false) :
    readIdentifier (ident ++ rest) = .ok (ident, rest) := by
  unfold readIdentifier
  rw [takeWhile_append_eq _ _ hall hrest]
  simp only [List.isEmpty_iff, List.drop_left]
  rw [if_neg hne]

theorem readStringGo_escape :
    ∀ (s acc rest : List Char),
      readStringGo acc (escapeString s ++ '"' :: rest) = .ok (acc.reverse ++ s, rest) := by
  intro s
  induction s with
  | nil => intro acc rest; simp [escapeString, readStringGo]
  | cons c t ih =>
    intro acc rest
    by_cases hb : c = '\\'
    · subst hb
      show readStringGo acc ('\\' :: '\\' :: (escapeString t ++ '"' :: rest)) = _
      rw [readStringGo]
      rw [show unescapeChar '\\' = '\\' from by decide, ih]
      simp
    · by_cases hq : c = '"'
      · subst hq
        show readStringGo acc ('\\' :: '"' :: (escapeString t ++ '"' :: rest)) = _
        rw [readStringGo]
        rw [show unescapeChar '"' = '"' from by decide, ih]
        simp
      · show readStringGo acc ((if c = '\\' then ['\\', c] else if c = '"' then ['\\', c]
          else [c]) ++ escapeString t ++ '"' :: rest) = _
        rw [if_neg hb, if_neg hq]
        show readStringGo acc (c :: (escapeString t ++ '"' :: rest)) = _
        rw [readStringGo.eq_def]
        split
        · simp_all
        · rename_i heq
          injection heq with h1 _
          exact absurd h1 hq
        · rename_i heq
          injection heq with h1 _
          exact absurd h1 hb
        · rename_i heq
          injection heq with h1 _
          exact absurd h1 hb
        · rename_i heq2
          injection heq2 with h1 h2
          subst h1
          rw [← h2, ih]
          simp

theorem isPrefixOf_self_append (l rest : List Char) : l.isPrefixOf (l ++ rest) = true := by
  induction l with
  | nil => simp [List.isPrefixOf]
  | cons a t ih => simp [List.isPrefixOf, ih]

theorem matchKw_exact (kw rest : List Char) (hb : boundaryOk rest = true) :
    matchKw kw (kw ++ rest) = some rest := by
  unfold matchKw
  rw [if_pos (isPrefixOf_self_append kw rest), List.drop_left]
  cases rest with
  | nil => rfl
  | cons c t =>
    have := ((boundary_props hb).1 c t rfl).2.2.2.2
    simp [this]

theorem matchKw_head_ne (k : Char) (kt : List Char) (c : Char) (ct : List Char)
    (h : k ≠ c) : matchKw (k :: kt) (c :: ct) = none := by
  unfold matchKw
  have : (k :: kt).isPrefixOf (c :: ct) = false := by
    simp [List.isPrefixOf, beq_eq_false_iff_ne, h]
  rw [this]
  simp

theorem skipWs_not_ws (c : Char) (t : List Char) (h : c.isWhitespace = false) :
    skipWs (c :: t) = c :: t := by
  simp [skipWs, List.dropWhile_cons, h]

theorem parseIntPy_intDecimal (v : Int) : parseIntPy (intDecimal v) = some v := by
  unfold intDecimal
  by_cases hv : v < 0
  · rw [if_pos hv]
    obtain ⟨hall, hne, hval⟩ := natDecimal_spec v.natAbs
    show parseIntPy ('-' :: natDecimal v.natAbs) = some v
    unfold parseIntPy
    split
    · rename_i heq
      exact absurd heq (by simp)
    · rename_i ds heq
      injection heq with _ h2
      subst h2
      rw [if_neg (by simp [hne, hall])]
      rw [hval]
      congr 1
      omega
    · rename_i h1 h2
      exact absurd rfl (h2 (natDecimal v.natAbs))
  · rw [if_neg hv]
    obtain ⟨hall, hne, hval⟩ := natDecimal_spec v.toNat
    rw [parseIntPy_digits _ hne hall, hval]
    simp only [Option.bind_eq_bind, Option.some_bind, Option.pure_def, Option.some.injEq]
    omega

theorem encode_int_nonempty_digit (v : Int) :
    ∃ c cs, intDecimal v = c :: cs ∧ (c.isDigit = true ∨ c = '-') := by
  unfold intDecimal
  by_cases hv : v < 0
  · rw [if_pos hv]
    exact ⟨'-', _, rfl, Or.inr rfl⟩
  · rw [if_neg hv]
    obtain ⟨hall, hne, _⟩ := natDecimal_spec v.toNat
    obtain ⟨c, cs, hcons⟩ : ∃ c cs, natDecimal v.toNat = c :: cs := by
      cases h : natDecimal v.toNat
      · exact absurd h hne
      · exact ⟨_, _, rfl⟩
    refine ⟨c, cs, hcons, Or.inl ?_⟩
    rw [hcons] at hall
    simp only [List.all_cons, Bool.and_eq_true] at hall
    exact hall.1

theorem readNumberStr_intDecimal (v : Int) (rest : List Char) (hrest : numBoundary rest) :
    readNumberStr (intDecimal v ++ rest) = (intDecimal v, rest) := by
  unfold intDecimal
  by_cases hv : v < 0
  · rw [if_pos hv]
    obtain ⟨hall, hne, _⟩ := natDecimal_spec v.natAbs
    exact readNumberStr_neg_digits _ _ hall hne hrest
  · rw [if_neg hv]
    obtain ⟨hall, hne, _⟩ := natDecimal_spec v.toNat
    exact readNumberStr_digits _ _ hall hne hrest

theorem intDecimal_not_floatish (v : Int) :
    ((intDecimal v).contains '.' || (intDecimal v).contains 'e' ||
      (intDecimal v).contains 'E') = false := by
  have hdot : ∀ (l : List Char), l.all Char.isDigit = true →
      (('-' :: l).contains '.' || ('-' :: l).contains 'e' || ('-' :: l).contains 'E') = false
      ∧ (l.contains '.' || l.contains 'e' || l.contains 'E') = false := by
    intro l hall
    have h1 := all_not_contains l '.' hall (by decide)
    have h2 := all_not_contains l 'e' hall (by decide)
    have h3 := all_not_contains l 'E' hall (by decide)
    refine ⟨?_, by rw [h1, h2, h3]; rfl⟩
    simp only [List.contains_cons, h1, h2, h3]
    decide
  unfold intDecimal
  by_cases hv : v < 0
  · rw [if_pos hv]
    exact (hdot _ (natDecimal_spec v.natAbs).1).1
  · rw [if_neg hv]
    exact (hdot _ (natDecimal_spec v.toNat).1).2

theorem readNumber_intDecimal (v : Int) (rest : List Char) (hrest : numBoundary rest) :
    readNumber (intDecimal v ++ rest) = .ok (.vint v, rest) := by
  unfold readNumber
  rw [readNumberStr_intDecimal v rest hrest]
  have hf := intDecimal_not_floatish v
  simp only [hf, Bool.false_eq_true, if_false, parseIntPy_intDecimal]

theorem alistPut_fresh {κ α : Type} [DecidableEq κ] :
    ∀ (l : List (κ × α)) (k : κ) (v : α), k ∉ l.map Prod.fst →
      alistPut l k v = l ++ [(k, v)] := by
  intro l k v hk
  induction l with
  | nil => rfl
  | cons p t ih =>
    simp only [List.map_cons, List.mem_cons] at hk
    push_neg at hk
    cases p with
    | mk k2 v2 =>
      show alistPut ((k2, v2) :: t) k v = _
      unfold alistPut
      rw [if_neg (fun h => hk.1 h.symm), ih hk.2]
      rfl

theorem strictAsc_head_lt :
    ∀ (a : Int) (t : List Int), strictAsc (a :: t) = true →
      strictAsc t = true ∧ ∀ x ∈ t, a < x := by
  intro a t
  induction t generalizing a with
  | nil => intro _; exact ⟨rfl, by simp⟩
  | cons b t2 ih =>
    intro h
    have h2 : a < b ∧ strictAsc (b :: t2) = true := by
      have : strictAsc (a :: b :: t2) = (decide (a < b) && strictAsc (b :: t2)) := rfl
      rw [this] at h
      simp only [Bool.and_eq_true, decide_eq_true_eq] at h
      exact h
    obtain ⟨hrec, hall⟩ := ih b h2.2
    refine ⟨h2.2, ?_⟩
    intro x hx
    rcases List.mem_cons.mp hx with rfl | hx2
    · exact h2.1
    · exact lt_trans h2.1 (hall x hx2)

theorem strictAsc_nodup : ∀ (l : List Int), strictAsc l = true → l.Nodup := by
  intro l
  induction l with
  | nil => intro _; exact List.nodup_nil
  | cons a t ih =>
    intro h
    obtain ⟨ht, hall⟩ := strictAsc_head_lt a t h
    refine List.nodup_cons.mpr ⟨?_, ih ht⟩
    intro hmem
    exact absurd (hall a hmem) (lt_irrefl a)

theorem insField_front {α : Type} (p : Int × α) (t : List (Int × α))
    (h : ∀ q ∈ t, p.1 < q.1) : insField p t = p :: t := by
  cases t with
  | nil => rfl
  | cons q t2 =>
    show insField p (q :: t2) = _
    unfold insField
    rw [if_pos (le_of_lt (h q (List.mem_cons_self q t2)))]

theorem sortFields_id {α : Type} :
    ∀ (l : List (Int × α)), strictAsc (l.map Prod.fst) = true → sortFields l = l := by
  intro l
  induction l with
  | nil => intro _; rfl
  | cons p t ih =>
    intro h
    rw [List.map_cons] at h
    obtain ⟨ht, hall⟩ := strictAsc_head_lt p.1 (t.map Prod.fst) h
    show sortFields (p :: t) = _
    unfold sortFields
    rw [ih ht]
    exact insField_front p t fun q hq => hall q.1 (List.mem_map_of_mem Prod.fst hq)

theorem encodeLctFieldPairs_map_fst (fields : List (Int × LCTValue)) :
    (encodeLctFieldPairs fields).map Prod.fst = fields.map Prod.fst := by
  induction fields with
  | nil => rfl
  | cons p t ih =>
    cases p with
    | mk i v =>
      show Prod.fst (i, encodeLct v) :: (encodeLctFieldPairs t).map Prod.fst = _
      rw [ih]
      rfl

/-- A leading `-` or digit is not whitespace and fails all the other
dispatch tests of `_parse_value` before the number branch. -/
theorem num_head_props {c : Char} (h : c.isDigit = true ∨ c = '-') :
    c.isWhitespace = false ∧ c ≠ 'N' ∧ c ≠ 'T' ∧ c ≠ 'F' ∧ c ≠ '@' ∧ c ≠ '#' ∧
    c ≠ '"' ∧ c ≠ '[' ∧ c ≠ '{' ∧ (c = '-' || c.isDigit) = true ∧
    c ≠ ']' ∧ c ≠ '}' ∧ c ≠ ',' := by
  rcases h with h | rfl
  · have hne : ∀ d : Char, d.isDigit = false → c ≠ d := by
      intro d hd he
      rw [he, hd] at h
      exact absurd h (by decide)
    obtain ⟨hws, _, _, _, _, _, _, _, _⟩ := digit_not_special h
    exact ⟨hws, hne 'N' (by decide), hne 'T' (by decide), hne 'F' (by decide),
      hne '@' (by decide), hne '#' (by decide), hne '"' (by decide),
      hne '[' (by decide), hne '{' (by decide), by simp [h],
      hne ']' (by decide), hne '}' (by decide), hne ',' (by decide)⟩
  · refine ⟨by decide, by decide, by decide, by decide, by decide, by decide,
      by decide, by decide, by decide, by decide, by decide, by decide, by decide⟩

theorem hexDigit_not_ws {c : Char} (h : isHexDigit c = true) : c.isWhitespace = false := by
  have hne : ∀ d : Char, isHexDigit d = false → c ≠ d := by
    intro d hd he
    rw [he, hd] at h
    exact absurd h (by decide)
  simp only [Char.isWhitespace, Bool.or_eq_false_iff, decide_eq_false_iff_not]
  exact ⟨⟨⟨hne ' ' (by decide), hne '\t' (by decide)⟩, hne '\x0d' (by decide)⟩,
    hne '\n' (by decide)⟩

/-- The handle prefix forces the shape `&h_<tail>` with `tail = s.drop 3`. -/
theorem amp_prefix_shape (s : List Char) (h : (['&', 'h', '_'].isPrefixOf s) = true) :
    s = '&' :: 'h' :: '_' :: s.drop 3 := by
  cases s with
  | nil => exact absurd h (by decide)
  | cons a t =>
    cases t with
    | nil => exact absurd h (by simp [List.isPrefixOf])
    | cons b t2 =>
      cases t2 with
      | nil => exact absurd h (by simp [List.isPrefixOf])
      | cons d t3 =>
        simp only [List.isPrefixOf, Bool.and_eq_true, beq_iff_eq] at h
        obtain ⟨ha, hb, hd, _⟩ := h
        subst ha; subst hb; subst hd
        rfl

/-- Every well-formed encoding starts with a non-whitespace character that
is not a closer or separator. -/
theorem encodeLct_head (v : LCTValue) (hwf : wfLct v = true) :
    ∃ c cs, encodeLct v = c :: cs ∧ c.isWhitespace = false ∧
      c ≠ ']' ∧ c ≠ '}' ∧ c ≠ ',' := by
  cases v with
  | vnull => exact ⟨'N', _, rfl, by decide, by decide, by decide, by decide⟩
  | vbool b =>
    cases b
    · exact ⟨'F', _, rfl, by decide, by decide, by decide, by decide⟩
    · exact ⟨'T', _, rfl, by decide, by decide, by decide, by decide⟩
  | vint i =>
    obtain ⟨c, cs, hcons, hc⟩ := encode_int_nonempty_digit i
    obtain ⟨hws, _, _, _, _, _, _, _, _, _, h1, h2, h3⟩ := num_head_props hc
    exact ⟨c, cs, hcons, hws, h1, h2, h3⟩
  | vstr s =>
    show ∃ c cs, (if ['&', 'h', '_'].isPrefixOf s then '@' :: s.drop 3
      else if ['&'].isPrefixOf s then '@' :: s.drop 1
      else '"' :: escapeString s ++ ['"']) = c :: cs ∧ _
    by_cases hp : ['&', 'h', '_'].isPrefixOf s
    · rw [if_pos hp]
      exact ⟨'@', _, rfl, by decide, by decide, by decide, by decide⟩
    · rw [if_neg hp]
      by_cases hq : ['&'].isPrefixOf s
      · exfalso
        have hwf2 : wfStr s = true := hwf
        unfold wfStr at hwf2
        rw [if_neg hp, hq] at hwf2
        exact absurd hwf2 (by decide)
      · rw [if_neg hq]
        exact ⟨'"', _, rfl, by decide, by decide, by decide, by decide⟩
  | vbytes bs => exact ⟨'#', _, rfl, by decide, by decide, by decide, by decide⟩
  | varr l => exact ⟨'[', _, rfl, by decide, by decide, by decide, by decide⟩
  | vobj kvs => exact ⟨'{', _, rfl, by decide, by decide, by decide, by decide⟩
  | vcontract cid fields => exact ⟨'{', _, rfl, by decide, by decide, by decide, by decide⟩

theorem last_all {p : Char → Bool} :
    ∀ l : List Char, l ≠ [] → l.all p = true → ∃ c, l.getLast? = some c ∧ p c = true := by
  intro l
  induction l with
  | nil => intro h _; exact absurd rfl h
  | cons a t ih =>
    intro _ hall
    simp only [List.all_cons, Bool.and_eq_true] at hall
    cases t with
    | nil => exact ⟨a, rfl, hall.1⟩
    | cons b t2 =>
      obtain ⟨c, hc, hpc⟩ := ih (by simp) hall.2
      exact ⟨c, by rw [List.getLast?_cons_cons]; exact hc, hpc⟩

theorem getLast?_cons_of_ne_nil (a : Char) (l : List Char) (h : l ≠ []) :
    (a :: l).getLast? = l.getLast? := by
  cases l with
  | nil => exact absurd rfl h
  | cons b t => exact List.getLast?_cons_cons

/-- Every well-formed encoding ends with a non-whitespace character. -/
theorem encodeLct_last (v : LCTValue) (hwf : wfLct v = true) :
    ∃ c, (encodeLct v).getLast? = some c ∧ c.isWhitespace = false := by
  cases v with
  | vnull => exact ⟨'L', by decide, by decide⟩
  | vbool b =>
    cases b
    · exact ⟨'E', by decide, by decide⟩
    · exact ⟨'E', by decide, by decide⟩
  | vint i =>
    show ∃ c, (intDecimal i).getLast? = some c ∧ _
    unfold intDecimal
    by_cases hv : i < 0
    · rw [if_pos hv]
      obtain ⟨hall, hne, _⟩ := natDecimal_spec i.natAbs
      obtain ⟨c, hc, hpc⟩ := last_all (natDecimal i.natAbs) hne hall
      exact ⟨c, by rw [getLast?_cons_of_ne_nil _ _ hne]; exact hc,
        (digit_not_special hpc).1⟩
    · rw [if_neg hv]
      obtain ⟨hall, hne, _⟩ := natDecimal_spec i.toNat
      obtain ⟨c, hc, hpc⟩ := last_all (natDecimal i.toNat) hne hall
      exact ⟨c, hc, (digit_not_special hpc).1⟩
  | vstr s =>
    have hwf2 : wfStr s = true := hwf
    unfold wfStr at hwf2
    show ∃ c, (if ['&', 'h', '_'].isPrefixOf s then '@' :: s.drop 3
      else if ['&'].isPrefixOf s then '@' :: s.drop 1
      else '"' :: escapeString s ++ ['"']).getLast? = some c ∧ _
    by_cases hp : ['&', 'h', '_'].isPrefixOf s
    · rw [if_pos hp]
      rw [hp] at hwf2
      simp only [if_true, Bool.and_eq_true, Bool.not_eq_true'] at hwf2
      have hne : s.drop 3 ≠ [] := by
        intro h
        rw [h] at hwf2
        exact absurd hwf2.1 (by decide)
      obtain ⟨c, hc, hpc⟩ := last_all (s.drop 3) hne hwf2.2
      exact ⟨c, by rw [getLast?_cons_of_ne_nil _ _ hne]; exact hc,
        (identChar_props hpc).1⟩
    · rw [if_neg hp]
      by_cases hq : ['&'].isPrefixOf s
      · rw [if_neg hp, hq] at hwf2
        exact absurd hwf2 (by decide)
      · rw [if_neg hq]
        exact ⟨'"', by rw [List.getLast?_concat], by decide⟩
  | vbytes bs =>
    show ∃ c, ('#' :: bytesToHex bs).getLast? = some c ∧ _
    cases bs with
    | nil => exact ⟨'#', by decide, by decide⟩
    | cons b t =>
      have hall : (bytesToHex (b :: t)).all isHexDigit = true := bytesToHex_all_hex _ hwf
      have hne : bytesToHex (b :: t) ≠ [] := by
        show hexChar (b / 16) :: hexChar (b % 16) :: bytesToHex t ≠ []
        simp
      obtain ⟨c, hc, hpc⟩ := last_all _ hne hall
      exact ⟨c, by rw [getLast?_cons_of_ne_nil _ _ hne]; exact hc, hexDigit_not_ws hpc⟩
  | varr l =>
    refine ⟨']', ?_, by decide⟩
    show (('[' :: encodeLctList l) ++ [']']).getLast? = some ']'
    rw [List.getLast?_concat]
  | vobj kvs =>
    refine ⟨'}', ?_, by decide⟩
    show (('{' :: sepJoin (encodeLctKVs kvs)) ++ ['}']).getLast? = some '}'
    rw [List.getLast?_concat]
  | vcontract cid fields =>
    refine ⟨'}', ?_, by decide⟩
    show ((('{' :: 'C' :: ':' :: intDecimal cid) ++
      emitFields (sortFields (encodeLctFieldPairs fields))) ++ ['}']).getLast? = some '}'
    rw [List.getLast?_concat]

theorem pyStrip_eq_self (l : List Char)
    (hhead : ∀ c t, l = c :: t → c.isWhitespace = false)
    (hlast : ∀ c, l.getLast? = some c → c.isWhitespace = false) : pyStrip l = l := by
  unfold pyStrip
  have h1 : l.dropWhile Char.isWhitespace = l := by
    cases l with
    | nil => rfl
    | cons c t => simp [List.dropWhile_cons, hhead c t rfl]
  rw [h1]
  have h2 : l.reverse.dropWhile Char.isWhitespace = l.reverse := by
    cases hr : l.reverse with
    | nil => rfl
    | cons c t =>
      have : l.getLast? = some c := by
        rw [← List.head?_reverse, hr]
        rfl
      simp [List.dropWhile_cons, hlast c this]
  rw [h2, List.reverse_reverse]

theorem pyStrip_encode (v : LCTValue) (hwf : wfLct v = true) :
    pyStrip (encodeLct v) = encodeLct v := by
  obtain ⟨c, cs, henc, hws, _, _, _⟩ := encodeLct_head v hwf
  obtain ⟨d, hd, hdws⟩ := encodeLct_last v hwf
  refine pyStrip_eq_self _ ?_ ?_
  · intro c2 t2 h2
    rw [henc] at h2
    injection h2 with h3 _
    rw [← h3]
    exact hws
  · intro c2 h2
    rw [hd] at h2
    injection h2 with h3
    rw [← h3]
    exact hdws

theorem numBoundary_cons (c : Char) (h1 : c.isDigit = false) (h2 : c ≠ '.')
    (h3 : c ≠ 'e') (h4 : c ≠ 'E') (t : List Char) : numBoundary (c :: t) := by
  intro c2 t2 heq
  injection heq with ha _
  rw [← ha]
  exact ⟨h1, h2, h3, h4⟩

/-- None of the three keyword matches fires on a head other than
`N`/`T`/`F`. -/
theorem matchKw_kws_fail (c : Char) (ct : List Char) (hN : c ≠ 'N') (hT : c ≠ 'T')
    (hF : c ≠ 'F') :
    matchKw ['N', 'U', 'L', 'L'] (c :: ct) = none ∧
    matchKw ['T', 'R', 'U', 'E'] (c :: ct) = none ∧
    matchKw ['F', 'A', 'L', 'S', 'E'] (c :: ct) = none :=
  ⟨matchKw_head_ne _ _ _ _ (Ne.symm hN), matchKw_head_ne _ _ _ _ (Ne.symm hT),
    matchKw_head_ne _ _ _ _ (Ne.symm hF)⟩

theorem wfKey_parts (k : List Char) (h : wfKey k = true) :
    k ≠ [] ∧ k.all isIdentChar = true := by
  unfold wfKey at h
  simp only [Bool.and_eq_true, Bool.not_eq_true'] at h
  refine ⟨?_, h.1.2⟩
  intro hk
  rw [hk] at h
  exact absurd h.1.1 (by decide)

theorem nodup_parts {κ α : Type} (acc : List (κ × α)) (k : κ) (v : α) (t : List (κ × α))
    (h : ((acc ++ (k, v) :: t).map Prod.fst).Nodup) :
    k ∉ acc.map Prod.fst ∧ (((acc ++ [(k, v)]) ++ t).map Prod.fst).Nodup := by
  constructor
  · rw [List.map_append] at h
    rw [List.nodup_append] at h
    intro hmem
    exact h.2.2 hmem (List.mem_cons_self _ _)
  · rw [List.append_assoc]
    exact h

/-- The encoding of a non-empty array decomposes as first element plus a
well-delimited continuation. -/
theorem arr_entry_shape (e : LCTValue) (t : List LCTValue) (rest : List Char) :
    ∃ after, encodeLctList (e :: t) ++ ']' :: rest = encodeLct e ++ after ∧
      boundaryOk after = true ∧
      ((t = [] ∧ after = ']' :: rest) ∨
       (t ≠ [] ∧ after = ',' :: (encodeLctList t ++ ']' :: rest))) := by
  cases t with
  | nil => exact ⟨']' :: rest, rfl, rfl, Or.inl ⟨rfl, rfl⟩⟩
  | cons e2 t2 =>
    refine ⟨',' :: (encodeLctList (e2 :: t2) ++ ']' :: rest), ?_, rfl,
      Or.inr ⟨by simp, rfl⟩⟩
    show (encodeLct e ++ ',' :: encodeLctList (e2 :: t2)) ++ ']' :: rest = _
    simp only [List.append_assoc, List.cons_append]

/-- The encoding of a non-empty object decomposes as key, colon, first
value, and a well-delimited continuation. -/
theorem obj_entry_shape (k : List Char) (v : LCTValue) (t : List (List Char × LCTValue))
    (rest : List Char) :
    ∃ after, sepJoin (encodeLctKVs ((k, v) :: t)) ++ '}' :: rest =
      k ++ ':' :: (encodeLct v ++ after) ∧
      boundaryOk after = true ∧
      ((t = [] ∧ after = '}' :: rest) ∨
       (t ≠ [] ∧ after = ',' :: (sepJoin (encodeLctKVs t) ++ '}' :: rest))) := by
  cases t with
  | nil =>
    refine ⟨'}' :: rest, ?_, rfl, Or.inl ⟨rfl, rfl⟩⟩
    show (k ++ ':' :: encodeLct v) ++ '}' :: rest = _
    simp only [List.append_assoc, List.cons_append]
  | cons t0 ts =>
    obtain ⟨k2, v2⟩ := t0
    refine ⟨',' :: (sepJoin (encodeLctKVs ((k2, v2) :: ts)) ++ '}' :: rest), ?_, rfl,
      Or.inr ⟨by simp, rfl⟩⟩
    show ((k ++ ':' :: encodeLct v) ++ ',' :: sepJoin (encodeLctKVs ((k2, v2) :: ts)))
      ++ '}' :: rest = _
    simp only [List.append_assoc, List.cons_append]

/-- The field block of a contract is either the closing brace or starts
with a comma; both delimit values and numbers. -/
theorem emit_boundary (fields : List (Int × LCTValue)) (rest : List Char) :
    boundaryOk (emitFields (encodeLctFieldPairs fields) ++ '}' :: rest) = true ∧
    numBoundary (emitFields (encodeLctFieldPairs fields) ++ '}' :: rest) := by
  cases fields with
  | nil =>
    exact ⟨rfl, numBoundary_cons '}' (by decide) (by decide) (by decide) (by decide) rest⟩
  | cons p t =>
    obtain ⟨i, v⟩ := p
    constructor
    · show boundaryOk (',' :: ((intDecimal i ++ '=' :: encodeLct v ++
        emitFields (encodeLctFieldPairs t)) ++ '}' :: rest)) = true
      rfl
    · show numBoundary (',' :: ((intDecimal i ++ '=' :: encodeLct v ++
        emitFields (encodeLctFieldPairs t)) ++ '}' :: rest))
      exact numBoundary_cons ',' (by decide) (by decide) (by decide) (by decide) _

/-- Master round-trip induction (strong induction on the `fsize` budget):
the parser consumes exactly the encoding of a well-formed value, and the
three loops consume encoded element lists, for any fuel at least the
budget. -/
theorem parse_encode_master : ∀ n : Nat,
    (∀ v fuel rest, fsize v ≤ n → wfLct v = true → fsize v ≤ fuel →
      boundaryOk rest = true → parseValue fuel (encodeLct v ++ rest) = .ok (v, rest)) ∧
    (∀ l fuel rest acc, l ≠ [] → fsizeList l ≤ n → wfLctList l = true → fsizeList l ≤ fuel →
      parseArrayLoop fuel (encodeLctList l ++ ']' :: rest) acc = .ok (.varr (acc ++ l), rest)) ∧
    (∀ kvs fuel rest acc, kvs ≠ [] → fsizeKVs kvs ≤ n → wfLctKVs kvs = true →
      fsizeKVs kvs ≤ fuel → ((acc ++ kvs).map Prod.fst).Nodup →
      parseObjectLoop fuel (sepJoin (encodeLctKVs kvs) ++ '}' :: rest) acc =
        .ok (.vobj (acc ++ kvs), rest)) ∧
    (∀ fields fuel rest cid acc, fsizeFields fields ≤ n → wfLctFields fields = true →
      fsizeFields fields + 1 ≤ fuel → ((acc ++ fields).map Prod.fst).Nodup →
      parseContractLoop fuel (emitFields (encodeLctFieldPairs fields) ++ '}' :: rest) cid acc =
        .ok (.vcontract cid (acc ++ fields), rest)) := by
  intro n
  induction n using Nat.strong_induction_on with
  | _ n ih =>
  have ihv : ∀ v fuel rest, fsize v < n → wfLct v = true → fsize v ≤ fuel →
      boundaryOk rest = true → parseValue fuel (encodeLct v ++ rest) = .ok (v, rest) :=
    fun v fuel rest hlt hwf hf hb => (ih (fsize v) hlt).1 v fuel rest (le_refl _) hwf hf hb
  have ihA : ∀ l fuel rest acc, l ≠ [] → fsizeList l < n → wfLctList l = true →
      fsizeList l ≤ fuel →
      parseArrayLoop fuel (encodeLctList l ++ ']' :: rest) acc = .ok (.varr (acc ++ l), rest) :=
    fun l fuel rest acc hne hlt hwf hf =>
      (ih (fsizeList l) hlt).2.1 l fuel rest acc hne (le_refl _) hwf hf
  have ihO : ∀ kvs fuel rest acc, kvs ≠ [] → fsizeKVs kvs < n → wfLctKVs kvs = true →
      fsizeKVs kvs ≤ fuel → ((acc ++ kvs).map Prod.fst).Nodup →
      parseObjectLoop fuel (sepJoin (encodeLctKVs kvs) ++ '}' :: rest) acc =
        .ok (.vobj (acc ++ kvs), rest) :=
    fun kvs fuel rest acc hne hlt hwf hf hnd =>
      (ih (fsizeKVs kvs) hlt).2.2.1 kvs fuel rest acc hne (le_refl _) hwf hf hnd
  have ihC : ∀ fields fuel rest cid acc, fsizeFields fields < n → wfLctFields fields = true →
      fsizeFields fields + 1 ≤ fuel → ((acc ++ fields).map Prod.fst).Nodup →
      parseContractLoop fuel (emitFields (encodeLctFieldPairs fields) ++ '}' :: rest) cid acc =
        .ok (.vcontract cid (acc ++ fields), rest) :=
    fun fields fuel rest cid acc hlt hwf hf hnd =>
      (ih (fsizeFields fields) hlt).2.2.2 fields fuel rest cid acc (le_refl _) hwf hf hnd
  refine ⟨?_, ?_, ?_, ?_⟩
  · -- values
    intro v fuel rest hn hwf hfuel hb
    cases fuel with
    | zero => have := fsize_pos v; omega
    | succ f =>
    cases v with
    | vnull =>
      show parseValue (f + 1) (['N', 'U', 'L', 'L'] ++ rest) = .ok (.vnull, rest)
      have hskip : skipWs (['N', 'U', 'L', 'L'] ++ rest) = 'N' :: (['U', 'L', 'L'] ++ rest) := by
        show skipWs ('N' :: (['U', 'L', 'L'] ++ rest)) = _
        exact skipWs_not_ws _ _ (by decide)
      have hkw : matchKw ['N', 'U', 'L', 'L'] ('N' :: (['U', 'L', 'L'] ++ rest)) = some rest :=
        matchKw_exact ['N', 'U', 'L', 'L'] rest hb
      simp only [parseValue, hskip, hkw]
    | vbool b =>
      cases b with
      | true =>
        show parseValue (f + 1) (['T', 'R', 'U', 'E'] ++ rest) = .ok (.vbool true, rest)
        have hskip : skipWs (['T', 'R', 'U', 'E'] ++ rest)
            = 'T' :: (['R', 'U', 'E'] ++ rest) := by
          show skipWs ('T' :: (['R', 'U', 'E'] ++ rest)) = _
          exact skipWs_not_ws _ _ (by decide)
        have hk1 : matchKw ['N', 'U', 'L', 'L'] ('T' :: (['R', 'U', 'E'] ++ rest)) = none :=
          matchKw_head_ne _ _ _ _ (by decide)
        have hkw : matchKw ['T', 'R', 'U', 'E'] ('T' :: (['R', 'U', 'E'] ++ rest)) = some rest :=
          matchKw_exact ['T', 'R', 'U', 'E'] rest hb
        simp only [parseValue, hskip, hk1, hkw]
      | false =>
        show parseValue (f + 1) (['F', 'A', 'L', 'S', 'E'] ++ rest) = .ok (.vbool false, rest)
        have hskip : skipWs (['F', 'A', 'L', 'S', 'E'] ++ rest)
            = 'F' :: (['A', 'L', 'S', 'E'] ++ rest) := by
          show skipWs ('F' :: (['A', 'L', 'S', 'E'] ++ rest)) = _
          exact skipWs_not_ws _ _ (by decide)
        have hk1 : matchKw ['N', 'U', 'L', 'L'] ('F' :: (['A', 'L', 'S', 'E'] ++ rest))
            = none := matchKw_head_ne _ _ _ _ (by decide)
        have hk2 : matchKw ['T', 'R', 'U', 'E'] ('F' :: (['A', 'L', 'S', 'E'] ++ rest))
            = none := matchKw_head_ne _ _ _ _ (by decide)
        have hkw : matchKw ['F', 'A', 'L', 'S', 'E'] ('F' :: (['A', 'L', 'S', 'E'] ++ rest))
            = some rest := matchKw_exact ['F', 'A', 'L', 'S', 'E'] rest hb
        simp only [parseValue, hskip, hk1, hk2, hkw]
    | vint i =>
      obtain ⟨c, cs, henc, hcp⟩ := encode_int_nonempty_digit i
      obtain ⟨hws, hN, hT, hF, hAt, hHash, hQ, hLb, hBr, hnum, _, _, _⟩ := num_head_props hcp
      show parseValue (f + 1) (intDecimal i ++ rest) = .ok (.vint i, rest)
      rw [henc]
      have hskip : skipWs ((c :: cs) ++ rest) = c :: (cs ++ rest) :=
        skipWs_not_ws c (cs ++ rest) hws
      obtain ⟨hk1, hk2, hk3⟩ := matchKw_kws_fail c (cs ++ rest) hN hT hF
      simp only [parseValue, hskip, hk1, hk2, hk3]
      rw [if_neg hAt, if_neg hHash, if_neg hQ, if_neg hLb, if_neg hBr, if_pos hnum]
      have hrn := readNumber_intDecimal i rest (boundary_props hb).2
      rw [henc] at hrn
      exact hrn
    | vstr s =>
      by_cases hp : ['&', 'h', '_'].isPrefixOf s = true
      · have hshape := amp_prefix_shape s hp
        have hwf2 : wfStr s = true := hwf
        unfold wfStr at hwf2
        rw [if_pos hp] at hwf2
        simp only [Bool.and_eq_true, Bool.not_eq_true'] at hwf2
        have hne3 : s.drop 3 ≠ [] := by
          intro h
          rw [h] at hwf2
          exact absurd hwf2.1 (by decide)
        have hall3 : (s.drop 3).all isIdentChar = true := hwf2.2
        have henc : encodeLct (.vstr s) ++ rest = '@' :: (s.drop 3 ++ rest) := by
          show (if ['&', 'h', '_'].isPrefixOf s then '@' :: s.drop 3
            else if ['&'].isPrefixOf s then '@' :: s.drop 1
            else '"' :: escapeString s ++ ['"']) ++ rest = _
          rw [if_pos hp]
          rfl
        rw [henc]
        have hskip : skipWs ('@' :: (s.drop 3 ++ rest)) = '@' :: (s.drop 3 ++ rest) :=
          skipWs_not_ws _ _ (by decide)
        obtain ⟨hk1, hk2, hk3⟩ :=
          matchKw_kws_fail '@' (s.drop 3 ++ rest) (by decide) (by decide) (by decide)
        have hident : readIdentifier (s.drop 3 ++ rest) = .ok (s.drop 3, rest) :=
          readIdentifier_span _ _ hall3 hne3
            (fun c t h => ((boundary_props hb).1 c t h).1)
        simp only [parseValue, hskip, hk1, hk2, hk3]
        simp only [if_true]
        simp only [hident]
        rw [← hshape]
      · have hq : ¬ (['&'].isPrefixOf s = true) := by
          intro hq
          have hwf2 : wfStr s = true := hwf
          unfold wfStr at hwf2
          rw [if_neg hp, hq] at hwf2
          exact absurd hwf2 (by decide)
        have hfix : encodeLct (.vstr s) ++ rest = '"' :: (escapeString s ++ '"' :: rest) := by
          show (if ['&', 'h', '_'].isPrefixOf s then '@' :: s.drop 3
            else if ['&'].isPrefixOf s then '@' :: s.drop 1
            else '"' :: escapeString s ++ ['"']) ++ rest = _
          rw [if_neg hp, if_neg hq]
          simp only [List.append_assoc, List.cons_append, List.nil_append]
        rw [hfix]
        have hskip : skipWs ('"' :: (escapeString s ++ '"' :: rest))
            = '"' :: (escapeString s ++ '"' :: rest) := skipWs_not_ws _ _ (by decide)
        obtain ⟨hk1, hk2, hk3⟩ :=
          matchKw_kws_fail '"' (escapeString s ++ '"' :: rest)
            (by decide) (by decide) (by decide)
        have hstr : readStringGo [] (escapeString s ++ '"' :: rest) = .ok (s, rest) :=
          readStringGo_escape s [] rest
        simp only [parseValue, hskip, hk1, hk2, hk3]
        rw [if_neg (show ¬('"' = '@') by decide), if_neg (show ¬('"' = '#') by decide)]
        simp only [if_true]
        simp only [hstr]
    | vbytes bs =>
      show parseValue (f + 1) ('#' :: (bytesToHex bs ++ rest)) = .ok (.vbytes bs, rest)
      have hwfb : bs.all (· < 256) = true := hwf
      have hskip : skipWs ('#' :: (bytesToHex bs ++ rest)) = '#' :: (bytesToHex bs ++ rest) :=
        skipWs_not_ws _ _ (by decide)
      obtain ⟨hk1, hk2, hk3⟩ :=
        matchKw_kws_fail '#' (bytesToHex bs ++ rest) (by decide) (by decide) (by decide)
      have htake : (bytesToHex bs ++ rest).takeWhile isHexDigit = bytesToHex bs :=
        takeWhile_append_eq _ _ (bytesToHex_all_hex bs hwfb)
          (fun c t h => ((boundary_props hb).1 c t h).2.2.1)
      have hfrom := fromHexPairs_bytesToHex bs hwfb
      have hdrop : (bytesToHex bs ++ rest).drop (bytesToHex bs).length = rest :=
        List.drop_left _ _
      simp only [parseValue, hskip, hk1, hk2, hk3]
      rw [if_neg (show ¬('#' = '@') by decide)]
      simp only [if_true]
      simp only [htake, hfrom, hdrop]
    | varr l =>
      have hwfl : wfLctList l = true := hwf
      have hfix : encodeLct (.varr l) ++ rest = '[' :: (encodeLctList l ++ ']' :: rest) := by
        show (('[' :: encodeLctList l) ++ [']']) ++ rest = _
        simp only [List.append_assoc, List.cons_append, List.nil_append]
      rw [hfix]
      have hskip : skipWs ('[' :: (encodeLctList l ++ ']' :: rest))
          = '[' :: (encodeLctList l ++ ']' :: rest) := skipWs_not_ws _ _ (by decide)
      obtain ⟨hk1, hk2, hk3⟩ :=
        matchKw_kws_fail '[' (encodeLctList l ++ ']' :: rest)
          (by decide) (by decide) (by decide)
      simp only [parseValue, hskip, hk1, hk2, hk3]
      rw [if_neg (show ¬('[' = '@') by decide), if_neg (show ¬('[' = '#') by decide),
        if_neg (show ¬('[' = '"') by decide)]
      simp only [if_true]
      rw [show fsize (.varr l) = 2 + fsizeList l from rfl] at hfuel hn
      cases f with
      | zero => omega
      | succ f2 =>
      cases l with
      | nil =>
        have hskip2 : skipWs (encodeLctList ([] : List LCTValue) ++ ']' :: rest)
            = ']' :: rest := by
          show skipWs (']' :: rest) = _
          exact skipWs_not_ws _ _ (by decide)
        simp only [parseArray, hskip2]
      | cons e t =>
        obtain ⟨hwe, hwt⟩ : wfLct e = true ∧ wfLctList t = true := by
          have h2 : wfLctList (e :: t) = true := hwfl
          simp only [wfLctList, Bool.and_eq_true] at h2
          exact h2
        obtain ⟨c0, cs0, hh, hws0, hbr0, _, _⟩ := encodeLct_head e hwe
        obtain ⟨Z, hZ⟩ : ∃ Z, encodeLctList (e :: t) ++ ']' :: rest = c0 :: Z := by
          cases t with
          | nil =>
            refine ⟨cs0 ++ ']' :: rest, ?_⟩
            show encodeLct e ++ ']' :: rest = _
            rw [hh]
            rfl
          | cons e2 t2 =>
            refine ⟨cs0 ++ (',' :: encodeLctList (e2 :: t2) ++ ']' :: rest), ?_⟩
            show (encodeLct e ++ ',' :: encodeLctList (e2 :: t2)) ++ ']' :: rest = _
            rw [hh]
            simp only [List.append_assoc, List.cons_append]
        have hskip2 : skipWs (encodeLctList (e :: t) ++ ']' :: rest)
            = encodeLctList (e :: t) ++ ']' :: rest := by
          rw [hZ]
          exact skipWs_not_ws _ _ hws0
        simp only [parseArray, hskip2]
        rw [hZ]
        split
        · rename_i r heq
          injection heq with h1 _
          exact absurd h1 hbr0
        · rw [← hZ]
          exact ihA (e :: t) f2 rest [] (fun h => List.noConfusion h) (by omega)
            hwfl (by omega)
    | vobj kvs =>
      have hfix : encodeLct (.vobj kvs) ++ rest
          = '{' :: (sepJoin (encodeLctKVs kvs) ++ '}' :: rest) := by
        show (('{' :: sepJoin (encodeLctKVs kvs)) ++ ['}']) ++ rest = _
        simp only [List.append_assoc, List.cons_append, List.nil_append]
      rw [hfix]
      have hskip : skipWs ('{' :: (sepJoin (encodeLctKVs kvs) ++ '}' :: rest))
          = '{' :: (sepJoin (encodeLctKVs kvs) ++ '}' :: rest) :=
        skipWs_not_ws _ _ (by decide)
      obtain ⟨hk1, hk2, hk3⟩ :=
        matchKw_kws_fail '{' (sepJoin (encodeLctKVs kvs) ++ '}' :: rest)
          (by decide) (by decide) (by decide)
      simp only [parseValue, hskip, hk1, hk2, hk3]
      rw [if_neg (show ¬('{' = '@') by decide), if_neg (show ¬('{' = '#') by decide),
        if_neg (show ¬('{' = '"') by decide), if_neg (show ¬('{' = '[') by decide)]
      simp only [if_true]
      rw [show fsize (.vobj kvs) = 3 + fsizeKVs kvs from rfl] at hfuel hn
      cases f with
      | zero => omega
      | succ f2 =>
      cases kvs with
      | nil =>
        have hskip2 : skipWs (sepJoin (encodeLctKVs ([] : List (List Char × LCTValue)))
            ++ '}' :: rest) = '}' :: rest := by
          show skipWs ('}' :: rest) = _
          exact skipWs_not_ws _ _ (by decide)
        simp only [parseBrace, hskip2]
      | cons kv t =>
        obtain ⟨k, v⟩ := kv
        have hwf2 : wfLct (.vobj ((k, v) :: t)) = true := hwf
        simp only [wfLct, Bool.and_eq_true, decide_eq_true_eq] at hwf2
        obtain ⟨⟨hC, hnd⟩, hkvs⟩ := hwf2
        have hkvs2 : wfLctKVs ((k, v) :: t) = true := hkvs
        simp only [wfLctKVs, Bool.and_eq_true] at hkvs2
        obtain ⟨⟨hkey, hwv⟩, hwt⟩ := hkvs2
        obtain ⟨hkne, hkall⟩ := wfKey_parts k hkey
        obtain ⟨k0, kt, rfl⟩ : ∃ k0 kt, k = k0 :: kt := by
          cases k with
          | nil => exact absurd rfl hkne
          | cons a b => exact ⟨a, b, rfl⟩
        have hk0 : isIdentChar k0 = true := by
          simp only [List.all_cons, Bool.and_eq_true] at hkall
          exact hkall.1
        obtain ⟨after, hshape, hbafter, hcont⟩ := obj_entry_shape (k0 :: kt) v t rest
        have hshape2 : sepJoin (encodeLctKVs ((k0 :: kt, v) :: t)) ++ '}' :: rest
            = k0 :: (kt ++ ':' :: (encodeLct v ++ after)) := by
          rw [hshape]
          rfl
        have hskip2 : skipWs (sepJoin (encodeLctKVs ((k0 :: kt, v) :: t)) ++ '}' :: rest)
            = k0 :: (kt ++ ':' :: (encodeLct v ++ after)) := by
          rw [hshape2]
          exact skipWs_not_ws _ _ (identChar_props hk0).1
        simp only [parseBrace, hskip2]
        split
        · rename_i r heq
          injection heq with h1 _
          exact absurd h1 (identChar_props hk0).2.2.2.1
        · rename_i r heq
          injection heq with h1 h2
          cases kt with
          | nil =>
            rw [h1] at hC
            exact absurd rfl hC
          | cons k1 kts =>
            injection h2 with h3 _
            have hk1c : isIdentChar k1 = true := by
              simp only [List.all_cons, Bool.and_eq_true] at hkall
              exact hkall.2.1
            exact absurd h3 (identChar_props hk1c).2.2.2.2.1
        · rw [← hshape2]
          exact ihO ((k0 :: kt, v) :: t) f2 rest [] (fun h => List.noConfusion h)
            (by omega) hkvs (by omega) hnd
    | vcontract cid fields =>
      have hwf2 : wfLct (.vcontract cid fields) = true := hwf
      simp only [wfLct, Bool.and_eq_true] at hwf2
      obtain ⟨hasc, hflds⟩ := hwf2
      have hsort : sortFields (encodeLctFieldPairs fields) = encodeLctFieldPairs fields :=
        sortFields_id _ (by rw [encodeLctFieldPairs_map_fst]; exact hasc)
      have hfix : encodeLct (.vcontract cid fields) ++ rest
          = '{' :: ('C' :: ':' :: (intDecimal cid
            ++ (emitFields (encodeLctFieldPairs fields) ++ '}' :: rest))) := by
        show ((('{' :: 'C' :: ':' :: intDecimal cid)
          ++ emitFields (sortFields (encodeLctFieldPairs fields))) ++ ['}']) ++ rest = _
        rw [hsort]
        simp only [List.append_assoc, List.cons_append, List.nil_append]
      rw [hfix]
      have hskip : skipWs ('{' :: ('C' :: ':' :: (intDecimal cid
          ++ (emitFields (encodeLctFieldPairs fields) ++ '}' :: rest))))
          = '{' :: ('C' :: ':' :: (intDecimal cid
            ++ (emitFields (encodeLctFieldPairs fields) ++ '}' :: rest))) :=
        skipWs_not_ws _ _ (by decide)
      obtain ⟨hk1, hk2, hk3⟩ :=
        matchKw_kws_fail '{' ('C' :: ':' :: (intDecimal cid
          ++ (emitFields (encodeLctFieldPairs fields) ++ '}' :: rest)))
          (by decide) (by decide) (by decide)
      simp only [parseValue, hskip, hk1, hk2, hk3]
      rw [if_neg (show ¬('{' = '@') by decide), if_neg (show ¬('{' = '#') by decide),
        if_neg (show ¬('{' = '"') by decide), if_neg (show ¬('{' = '[') by decide)]
      simp only [if_true]
      rw [show fsize (.vcontract cid fields) = 4 + fsizeFields fields from rfl] at hfuel hn
      cases f with
      | zero => omega
      | succ f2 =>
      have hskip2 : skipWs ('C' :: (':' :: (intDecimal cid
          ++ (emitFields (encodeLctFieldPairs fields) ++ '}' :: rest))))
          = 'C' :: (':' :: (intDecimal cid
            ++ (emitFields (encodeLctFieldPairs fields) ++ '}' :: rest))) :=
        skipWs_not_ws _ _ (by decide)
      simp only [parseBrace, hskip2]
      cases f2 with
      | zero => omega
      | succ f3 =>
      have hnum : readNumberStr (intDecimal cid
          ++ (emitFields (encodeLctFieldPairs fields) ++ '}' :: rest))
          = (intDecimal cid, emitFields (encodeLctFieldPairs fields) ++ '}' :: rest) :=
        readNumberStr_intDecimal cid _ (emit_boundary fields rest).2
      simp only [parseContract, hnum, parseIntPy_intDecimal]
      exact ihC fields f3 rest cid [] (by omega) hflds (by omega)
        (strictAsc_nodup _ hasc)
  · -- array element loop
    intro l fuel rest acc hne hn hwf hfuel
    obtain ⟨e, t, rfl⟩ : ∃ e t, l = e :: t := by
      cases l with
      | nil => exact absurd rfl hne
      | cons a b => exact ⟨a, b, rfl⟩
    obtain ⟨hwe, hwt⟩ : wfLct e = true ∧ wfLctList t = true := by
      have h2 : wfLctList (e :: t) = true := hwf
      simp only [wfLctList, Bool.and_eq_true] at h2
      exact h2
    rw [show fsizeList (e :: t) = 1 + fsize e + fsizeList t from rfl] at hn hfuel
    have hep := fsize_pos e
    cases fuel with
    | zero => omega
    | succ f =>
    obtain ⟨after, hshape, hbafter, hcont⟩ := arr_entry_shape e t rest
    obtain ⟨c0, cs0, hh, hws0, _, _, _⟩ := encodeLct_head e hwe
    have hskip : skipWs (encodeLct e ++ after) = encodeLct e ++ after := by
      rw [hh]
      exact skipWs_not_ws _ _ hws0
    have hval : parseValue f (encodeLct e ++ after) = .ok (e, after) :=
      ihv e f after (by omega) hwe (by omega) hbafter
    simp only [parseArrayLoop, hshape, hskip, hval]
    rcases hcont with ⟨rfl, rfl⟩ | ⟨htne, rfl⟩
    · have hskip3 : skipWs (']' :: rest) = ']' :: rest := skipWs_not_ws _ _ (by decide)
      simp only [hskip3]
    · have hskip3 : skipWs (',' :: (encodeLctList t ++ ']' :: rest))
          = ',' :: (encodeLctList t ++ ']' :: rest) := skipWs_not_ws _ _ (by decide)
      simp only [hskip3]
      have h0 : fsizeList ([] : List LCTValue) = 0 := rfl
      have hres := ihA t f rest (acc ++ [e]) htne (by omega) hwt (by omega)
      rw [List.append_assoc] at hres
      exact hres
  · -- object key/value loop
    intro kvs fuel rest acc hne hn hwf hfuel hnd
    obtain ⟨kv, t, rfl⟩ : ∃ kv t, kvs = kv :: t := by
      cases kvs with
      | nil => exact absurd rfl hne
      | cons a b => exact ⟨a, b, rfl⟩
    obtain ⟨k, v⟩ := kv
    have hkvs2 : wfLctKVs ((k, v) :: t) = true := hwf
    simp only [wfLctKVs, Bool.and_eq_true] at hkvs2
    obtain ⟨⟨hkey, hwv⟩, hwt⟩ := hkvs2
    obtain ⟨hkne, hkall⟩ := wfKey_parts k hkey
    obtain ⟨k0, kt, rfl⟩ : ∃ k0 kt, k = k0 :: kt := by
      cases k with
      | nil => exact absurd rfl hkne
      | cons a b => exact ⟨a, b, rfl⟩
    have hk0 : isIdentChar k0 = true := by
      simp only [List.all_cons, Bool.and_eq_true] at hkall
      exact hkall.1
    rw [show fsizeKVs ((k0 :: kt, v) :: t) = 1 + fsize v + fsizeKVs t from rfl] at hn hfuel
    have hvp := fsize_pos v
    cases fuel with
    | zero => omega
    | succ f =>
    obtain ⟨after, hshape, hbafter, hcont⟩ := obj_entry_shape (k0 :: kt) v t rest
    have hshape2 : sepJoin (encodeLctKVs ((k0 :: kt, v) :: t)) ++ '}' :: rest
        = k0 :: (kt ++ ':' :: (encodeLct v ++ after)) := by
      rw [hshape]
      rfl
    have hskip : skipWs (sepJoin (encodeLctKVs ((k0 :: kt, v) :: t)) ++ '}' :: rest)
        = k0 :: (kt ++ ':' :: (encodeLct v ++ after)) := by
      rw [hshape2]
      exact skipWs_not_ws _ _ (identChar_props hk0).1
    simp only [parseObjectLoop, hskip]
    split
    · rename_i heq
      exact absurd heq (by simp)
    · rename_i r heq
      injection heq with h1 _
      exact absurd h1 (identChar_props hk0).2.2.2.1
    · have hident : readIdentifier (k0 :: (kt ++ ':' :: (encodeLct v ++ after)))
          = .ok (k0 :: kt, ':' :: (encodeLct v ++ after)) :=
        readIdentifier_span (k0 :: kt) (':' :: (encodeLct v ++ after)) hkall hkne
          (fun c t2 h => by injection h with ha _; rw [← ha]; decide)
      simp only [hident]
      have hskip2 : skipWs (':' :: (encodeLct v ++ after)) = ':' :: (encodeLct v ++ after) :=
        skipWs_not_ws _ _ (by decide)
      simp only [hskip2]
      obtain ⟨cv, csv, hhv, hwsv, _, _, _⟩ := encodeLct_head v hwv
      have hskip3 : skipWs (encodeLct v ++ after) = encodeLct v ++ after := by
        rw [hhv]
        exact skipWs_not_ws _ _ hwsv
      have hval : parseValue f (encodeLct v ++ after) = .ok (v, after) :=
        ihv v f after (by omega) hwv (by omega) hbafter
      simp only [hskip3, hval]
      obtain ⟨hfresh, hnd2⟩ := nodup_parts acc (k0 :: kt) v t hnd
      have hput : alistPut acc (k0 :: kt) v = acc ++ [(k0 :: kt, v)] :=
        alistPut_fresh acc _ v hfresh
      simp only [hput]
      rcases hcont with ⟨rfl, rfl⟩ | ⟨htne, rfl⟩
      · have hskip4 : skipWs ('}' :: rest) = '}' :: rest := skipWs_not_ws _ _ (by decide)
        simp only [hskip4]
        split
        · rename_i r heq
          injection heq with h1 _
          exact absurd h1 (by decide)
        · have h0 : fsizeKVs ([] : List (List Char × LCTValue)) = 0 := rfl
          cases f with
          | zero => omega
          | succ f4 =>
          have hskip5 : skipWs ('}' :: rest) = '}' :: rest := skipWs_not_ws _ _ (by decide)
          simp only [parseObjectLoop, hskip5]
      · have hskip4 : skipWs (',' :: (sepJoin (encodeLctKVs t) ++ '}' :: rest))
            = ',' :: (sepJoin (encodeLctKVs t) ++ '}' :: rest) :=
          skipWs_not_ws _ _ (by decide)
        simp only [hskip4]
        have hres := ihO t f rest (acc ++ [(k0 :: kt, v)]) htne (by omega) hwt
          (by omega) hnd2
        rw [List.append_assoc] at hres
        exact hres
  · -- contract field loop
    intro fields fuel rest cid acc hn hwf hfuel hnd
    cases fields with
    | nil =>
      have h0 : fsizeFields ([] : List (Int × LCTValue)) = 0 := rfl
      cases fuel with
      | zero => omega
      | succ f =>
        have hskip : skipWs ('}' :: rest) = '}' :: rest := skipWs_not_ws _ _ (by decide)
        show parseContractLoop (f + 1) ('}' :: rest) cid acc
          = .ok (.vcontract cid (acc ++ []), rest)
        simp only [parseContractLoop, hskip, List.append_nil]
    | cons p t =>
      obtain ⟨i, v⟩ := p
      have hflds2 : wfLctFields ((i, v) :: t) = true := hwf
      simp only [wfLctFields, Bool.and_eq_true] at hflds2
      obtain ⟨hwv, hwt⟩ := hflds2
      rw [show fsizeFields ((i, v) :: t) = 1 + fsize v + fsizeFields t from rfl] at hn hfuel
      have hvp := fsize_pos v
      cases fuel with
      | zero => omega
      | succ f =>
      have hfix : emitFields (encodeLctFieldPairs ((i, v) :: t)) ++ '}' :: rest
          = ',' :: (intDecimal i ++ '=' :: (encodeLct v
            ++ (emitFields (encodeLctFieldPairs t) ++ '}' :: rest))) := by
        show ((',' :: intDecimal i) ++ ('=' :: encodeLct v)
          ++ emitFields (encodeLctFieldPairs t)) ++ '}' :: rest = _
        simp only [List.append_assoc, List.cons_append]
      rw [hfix]
      have hskip : skipWs (',' :: (intDecimal i ++ '=' :: (encodeLct v
          ++ (emitFields (encodeLctFieldPairs t) ++ '}' :: rest))))
          = ',' :: (intDecimal i ++ '=' :: (encodeLct v
            ++ (emitFields (encodeLctFieldPairs t) ++ '}' :: rest))) :=
        skipWs_not_ws _ _ (by decide)
      simp only [parseContractLoop, hskip]
      split
      · rename_i heq
        exact absurd heq (by simp)
      · rename_i r heq
        injection heq with h1 _
        exact absurd h1 (by decide)
      · obtain ⟨cn, csn, hhn, hcpn⟩ := encode_int_nonempty_digit i
        have hwsn : cn.isWhitespace = false := (num_head_props hcpn).1
        have hskip2 : skipWs (intDecimal i ++ '=' :: (encodeLct v
            ++ (emitFields (encodeLctFieldPairs t) ++ '}' :: rest)))
            = intDecimal i ++ '=' :: (encodeLct v
              ++ (emitFields (encodeLctFieldPairs t) ++ '}' :: rest)) := by
          rw [hhn]
          exact skipWs_not_ws _ _ hwsn
        simp only [hskip2]
        have hnum : readNumberStr (intDecimal i ++ '=' :: (encodeLct v
            ++ (emitFields (encodeLctFieldPairs t) ++ '}' :: rest)))
            = (intDecimal i, '=' :: (encodeLct v
              ++ (emitFields (encodeLctFieldPairs t) ++ '}' :: rest))) :=
          readNumberStr_intDecimal i _
            (numBoundary_cons '=' (by decide) (by decide) (by decide) (by decide) _)
        simp only [hnum, parseIntPy_intDecimal]
        have hskip3 : skipWs ('=' :: (encodeLct v
            ++ (emitFields (encodeLctFieldPairs t) ++ '}' :: rest)))
            = '=' :: (encodeLct v ++ (emitFields (encodeLctFieldPairs t) ++ '}' :: rest)) :=
          skipWs_not_ws _ _ (by decide)
        simp only [hskip3]
        obtain ⟨cv, csv, hhv, hwsv, _, _, _⟩ := encodeLct_head v hwv
        have hskip4 : skipWs (encodeLct v
            ++ (emitFields (encodeLctFieldPairs t) ++ '}' :: rest))
            = encodeLct v ++ (emitFields (encodeLctFieldPairs t) ++ '}' :: rest) := by
          rw [hhv]
          exact skipWs_not_ws _ _ hwsv
        have hval : parseValue f (encodeLct v
            ++ (emitFields (encodeLctFieldPairs t) ++ '}' :: rest))
            = .ok (v, emitFields (encodeLctFieldPairs t) ++ '}' :: rest) :=
          ihv v f _ (by omega) hwv (by omega) (emit_boundary t rest).1
        simp only [hskip4, hval]
        obtain ⟨hfresh, hnd2⟩ := nodup_parts acc i v t hnd
        have hput : alistPut acc i v = acc ++ [(i, v)] := alistPut_fresh acc i v hfresh
        simp only [hput]
        have hres := ihC t f rest cid (acc ++ [(i, v)]) (by omega) hwt (by omega) hnd2
        rw [List.append_assoc] at hres
        exact hres

/-- The fuel budget of a well-formed value is covered by three units per
encoded character (so the decoder entry fuel `3·len + 1` always
suffices). -/
theorem fsize_bound_master : ∀ n : Nat,
    (∀ v, fsize v ≤ n → wfLct v = true → fsize v ≤ 3 * (encodeLct v).length) ∧
    (∀ l, fsizeList l ≤ n → wfLctList l = true →
      fsizeList l ≤ 3 * (encodeLctList l).length + 1) ∧
    (∀ kvs, fsizeKVs kvs ≤ n → wfLctKVs kvs = true →
      fsizeKVs kvs ≤ 3 * (sepJoin (encodeLctKVs kvs)).length + 1) ∧
    (∀ fields, fsizeFields fields ≤ n → wfLctFields fields = true →
      fsizeFields fields ≤ 3 * (emitFields (encodeLctFieldPairs fields)).length) := by
  intro n
  induction n using Nat.strong_induction_on with
  | _ n ih =>
  refine ⟨?_, ?_, ?_, ?_⟩
  · intro v hn hwf
    cases v with
    | vnull => decide
    | vbool b => cases b <;> decide
    | vint i =>
      obtain ⟨c, cs, henc, _⟩ := encode_int_nonempty_digit i
      show fsize (.vint i) ≤ 3 * (intDecimal i).length
      rw [henc, show fsize (.vint i) = 1 from rfl]
      simp only [List.length_cons]
      omega
    | vstr s =>
      obtain ⟨c, cs, henc, _, _, _, _⟩ := encodeLct_head (.vstr s) hwf
      rw [henc, show fsize (.vstr s) = 1 from rfl]
      simp only [List.length_cons]
      omega
    | vbytes bs =>
      obtain ⟨c, cs, henc, _, _, _, _⟩ := encodeLct_head (.vbytes bs) hwf
      rw [henc, show fsize (.vbytes bs) = 1 from rfl]
      simp only [List.length_cons]
      omega
    | varr l =>
      have hwfl : wfLctList l = true := hwf
      rw [show fsize (.varr l) = 2 + fsizeList l from rfl] at hn ⊢
      have hlist := (ih (fsizeList l) (by omega)).2.1 l (le_refl _) hwfl
      show 2 + fsizeList l ≤ 3 * ((('[' :: encodeLctList l) ++ [']']).length)
      simp only [List.length_append, List.length_cons, List.length_nil]
      omega
    | vobj kvs =>
      have hkvs : wfLctKVs kvs = true := by
        have h2 : wfLct (.vobj kvs) = true := hwf
        simp only [wfLct, Bool.and_eq_true] at h2
        exact h2.2
      rw [show fsize (.vobj kvs) = 3 + fsizeKVs kvs from rfl] at hn ⊢
      have hk := (ih (fsizeKVs kvs) (by omega)).2.2.1 kvs (le_refl _) hkvs
      show 3 + fsizeKVs kvs ≤ 3 * ((('{' :: sepJoin (encodeLctKVs kvs)) ++ ['}']).length)
      simp only [List.length_append, List.length_cons, List.length_nil]
      omega
    | vcontract cid fields =>
      have hwf2 : wfLct (.vcontract cid fields) = true := hwf
      simp only [wfLct, Bool.and_eq_true] at hwf2
      obtain ⟨hasc, hflds⟩ := hwf2
      have hsort : sortFields (encodeLctFieldPairs fields) = encodeLctFieldPairs fields :=
        sortFields_id _ (by rw [encodeLctFieldPairs_map_fst]; exact hasc)
      rw [show fsize (.vcontract cid fields) = 4 + fsizeFields fields from rfl] at hn ⊢
      have hf := (ih (fsizeFields fields) (by omega)).2.2.2 fields (le_refl _) hflds
      show 4 + fsizeFields fields ≤ 3 * (((('{' :: 'C' :: ':' :: intDecimal cid)
        ++ emitFields (sortFields (encodeLctFieldPairs fields))) ++ ['}']).length)
      rw [hsort]
      simp only [List.length_append, List.length_cons, List.length_nil]
      omega
  · intro l hn hwf
    cases l with
    | nil =>
      have h0 : fsizeList ([] : List LCTValue) = 0 := rfl
      omega
    | cons e t =>
      obtain ⟨hwe, hwt⟩ : wfLct e = true ∧ wfLctList t = true := by
        have h2 : wfLctList (e :: t) = true := hwf
        simp only [wfLctList, Bool.and_eq_true] at h2
        exact h2
      rw [show fsizeList (e :: t) = 1 + fsize e + fsizeList t from rfl] at hn ⊢
      have hv := (ih (fsize e) (by have := fsize_pos e; omega)).1 e (le_refl _) hwe
      cases t with
      | nil =>
        have h0 : fsizeList ([] : List LCTValue) = 0 := rfl
        show 1 + fsize e + fsizeList [] ≤ 3 * (encodeLct e).length + 1
        omega
      | cons e2 t2 =>
        have hlist := (ih (fsizeList (e2 :: t2)) (by have := fsize_pos e; omega)).2.1
          (e2 :: t2) (le_refl _) hwt
        show 1 + fsize e + fsizeList (e2 :: t2)
          ≤ 3 * ((encodeLct e ++ ',' :: encodeLctList (e2 :: t2)).length) + 1
        simp only [List.length_append, List.length_cons]
        omega
  · intro kvs hn hwf
    cases kvs with
    | nil =>
      have h0 : fsizeKVs ([] : List (List Char × LCTValue)) = 0 := rfl
      omega
    | cons kv t =>
      obtain ⟨k, v⟩ := kv
      have h2 : wfLctKVs ((k, v) :: t) = true := hwf
      simp only [wfLctKVs, Bool.and_eq_true] at h2
      obtain ⟨⟨_, hwv⟩, hwt⟩ := h2
      rw [show fsizeKVs ((k, v) :: t) = 1 + fsize v + fsizeKVs t from rfl] at hn ⊢
      have hv := (ih (fsize v) (by have := fsize_pos v; omega)).1 v (le_refl _) hwv
      cases t with
      | nil =>
        have h0 : fsizeKVs ([] : List (List Char × LCTValue)) = 0 := rfl
        show 1 + fsize v + fsizeKVs [] ≤ 3 * ((k ++ ':' :: encodeLct v).length) + 1
        simp only [List.length_append, List.length_cons]
        omega
      | cons t0 ts =>
        obtain ⟨k2, v2⟩ := t0
        have hk := (ih (fsizeKVs ((k2, v2) :: ts)) (by have := fsize_pos v; omega)).2.2.1
          ((k2, v2) :: ts) (le_refl _) hwt
        show 1 + fsize v + fsizeKVs ((k2, v2) :: ts)
          ≤ 3 * (((k ++ ':' :: encodeLct v)
            ++ ',' :: sepJoin (encodeLctKVs ((k2, v2) :: ts))).length) + 1
        simp only [List.length_append, List.length_cons]
        omega
  · intro fields hn hwf
    cases fields with
    | nil =>
      have h0 : fsizeFields ([] : List (Int × LCTValue)) = 0 := rfl
      omega
    | cons p t =>
      obtain ⟨i, v⟩ := p
      have h2 : wfLctFields ((i, v) :: t) = true := hwf
      simp only [wfLctFields, Bool.and_eq_true] at h2
      obtain ⟨hwv, hwt⟩ := h2
      rw [show fsizeFields ((i, v) :: t) = 1 + fsize v + fsizeFields t from rfl] at hn ⊢
      have hv := (ih (fsize v) (by have := fsize_pos v; omega)).1 v (le_refl _) hwv
      have hf := (ih (fsizeFields t) (by have := fsize_pos v; omega)).2.2.2 t (le_refl _) hwt
      show 1 + fsize v + fsizeFields t
        ≤ 3 * (((',' :: intDecimal i) ++ ('=' :: encodeLct v)
          ++ emitFields (encodeLctFieldPairs t)).length)
      simp only [List.length_append, List.length_cons]
      omega

/-- On the well-formed domain the decoder inverts the encoder. -/
theorem lct_decode_encode (v : LCTValue) (hwf : wfLct v = true) :
    decode_lct (encodeLct v) = .ok v := by
  obtain ⟨c, cs, henc, _, _, _, _⟩ := encodeLct_head v hwf
  have hne : (encodeLct v).isEmpty = false := by
    rw [henc]
    rfl
  have hbound := (fsize_bound_master (fsize v)).1 v (le_refl _) hwf
  have hparse : parseValue (3 * (encodeLct v).length + 1) (encodeLct v) = .ok (v, []) := by
    have h := (parse_encode_master (fsize v)).1 v (3 * (encodeLct v).length + 1) []
      (le_refl _) hwf (by omega) rfl
    rw [List.append_nil] at h
    exact h
  unfold decode_lct
  simp only [pyStrip_encode v hwf, hne, Bool.false_eq_true, if_false, hparse]
  rfl

/-- C1 (counterexample): the round-trip `decode_lct (encode_lct V) = V`
fails on the string value `"&x"`: the encoder turns any string starting
with `&` into an `@`-reference, and the decoder expands every
`@`-reference to a `&h_`-prefixed handle, so `"&x"` comes back as
`"&h_x"`. -/
theorem lct_roundtrip_fails_on_amp_string :
    decode_lct (encodeLct (.vstr ['&', 'x'])) = .ok (.vstr ['&', 'h', '_', 'x']) ∧
    decode_lct (encodeLct (.vstr ['&', 'x'])) ≠ .ok (.vstr ['&', 'x']) := by
  constructor
  · rfl
  · intro h
    rw [show decode_lct (encodeLct (.vstr ['&', 'x']))
      = .ok (.vstr ['&', 'h', '_', 'x']) from rfl] at h
    injection h with h2
    injection h2 with h3
    exact absurd h3 (by decide)

/-- C1 (amended): for every well-formed value - handle strings of shape
`&h_<identifier>` or strings not starting with `&`, bytes that are bytes,
object keys that are distinct identifiers other than `contract_id` with the
first key not literally `C`, and contract fields in strictly ascending
index order - decoding the LC-T encoding yields the value back:
`decode_lct (encode_lct V) = .ok V`. -/
theorem lct_roundtrip_wf (v : LCTValue) (hwf : wfLct v = true) :
    decode_lct (encodeLct v) = .ok v :=
  lct_decode_encode v hwf

theorem lct_roundtrip_wf_witness :
    wfLct (.vcontract 14 [(0, .vint 42), (2, .vstr ['o', 'k'])]) = true ∧
    decode_lct (encodeLct (.vcontract 14 [(0, .vint 42), (2, .vstr ['o', 'k'])]))
      = .ok (.vcontract 14 [(0, .vint 42), (2, .vstr ['o', 'k'])]) :=
  ⟨rfl, lct_roundtrip_wf (.vcontract 14 [(0, .vint 42), (2, .vstr ['o', 'k'])]) rfl⟩

/-- C10: `decode_lct` errors out on empty or all-whitespace input
(`pyStrip` of the input is empty) and on any input with non-whitespace
content remaining after one parsed value; a successful decode implies the
parser consumed the whole stripped input up to trailing whitespace. -/
theorem decode_lct_consumes_all (s : List Char) :
    (pyStrip s = [] → decode_lct s = .error .emptyInput) ∧
    (∀ v rest, parseValue (3 * (pyStrip s).length + 1) (pyStrip s) = .ok (v, rest) →
      skipWs rest ≠ [] → decode_lct s = .error .trailing) ∧
    (∀ v, decode_lct s = .ok v →
      ∃ rest, parseValue (3 * (pyStrip s).length + 1) (pyStrip s) = .ok (v, rest) ∧
        skipWs rest = []) := by
  refine ⟨?_, ?_, ?_⟩
  · intro hs
    unfold decode_lct
    simp only [hs]
    rfl
  · intro v rest hp hr
    unfold decode_lct
    have hne : (pyStrip s).isEmpty = false := by
      cases hps : pyStrip s with
      | nil =>
        rw [hps] at hp
        rw [show parseValue (3 * ([] : List Char).length + 1) [] = .error .unexpectedEnd
          from rfl] at hp
        exact absurd hp (by intro h; injection h)
      | cons a b => rfl
    simp only [hne, Bool.false_eq_true, if_false, hp]
    have hre : (skipWs rest).isEmpty = false := by
      cases hq : skipWs rest with
      | nil => exact absurd hq hr
      | cons a b => rfl
    simp only [hre, Bool.false_eq_true, if_false]
  · intro v hv
    unfold decode_lct at hv
    by_cases hne : (pyStrip s).isEmpty = true
    · rw [if_pos hne] at hv
      exact absurd hv (by intro h; injection h)
    · rw [if_neg hne] at hv
      rcases hp : parseValue (3 * (pyStrip s).length + 1) (pyStrip s) with e | vr
      · rw [hp] at hv
        exact absurd hv (by intro h; injection h)
      · obtain ⟨v2, rest⟩ := vr
        rw [hp] at hv
        have hv2 : (if (skipWs rest).isEmpty = true then (Except.ok v2 : Except LCTErr LCTValue)
            else .error .trailing) = .ok v := hv
        by_cases hr : (skipWs rest).isEmpty = true
        · rw [if_pos hr] at hv2
          injection hv2 with hv3
          refine ⟨rest, ?_, List.isEmpty_iff.mp hr⟩
          rw [hv3]
        · rw [if_neg hr] at hv2
          exact absurd hv2 (by intro h; injection h)

theorem decode_lct_consumes_all_witness :
    decode_lct ("  ".toList) = .error .emptyInput ∧
    decode_lct ("1 2".toList) = .error .trailing :=
  ⟨(decode_lct_consumes_all ("  ".toList)).1 rfl,
    (decode_lct_consumes_all ("1 2".toList)).2.1 (.vint 1) [' ', '2'] rfl (by decide)⟩

/-! ## LC-R runic codec (`src/runtime/hlx_runtime/lc_r_codec.py`, glyphs
from `src/runtime/hlx_runtime/glyphs.py`)

The 21 core glyphs of `LC_R_GLYPHS` (whose values make up
`GLYPH_TO_NAME`, the set `is_lc_r_glyph` tests). -/

def gTRUE : Char := Char.ofNat 0x22A4
def gFALSE : Char := Char.ofNat 0x22A5
def gNULL : Char := Char.ofNat 0x2205
def gHANDLE : Char := Char.ofNat 0x27C1
def gCS : Char := Char.ofNat 0x1F70A
def gFIELD : Char := Char.ofNat 0x1F701
def gCE : Char := Char.ofNat 0x1F702
def gINT : Char := Char.ofNat 0x1F703
def gFLOAT : Char := Char.ofNat 0x1F704
def gTEXT : Char := Char.ofNat 0x16ED
def gBYTES : Char := Char.ofNat 0x16EB
def gARRAY : Char := Char.ofNat 0x22D4
def gOBJECT : Char := Char.ofNat 0x22D5
def gL1 : Char := Char.ofNat 0x2295
def gL2 : Char := Char.ofNat 0x2297
def gL3 : Char := Char.ofNat 0x2299
def gL12 : Char := Char.ofNat 0x27E1
def gSEP : Char := Char.ofNat 0x22C5
def gNEST : Char := Char.ofNat 0x25C7
def gFLOW : Char := Char.ofNat 0x2192
def gBIND : Char := Char.ofNat 0x22EF

def lcrGlyphs : List Char :=
  [gTRUE, gFALSE, gNULL, gHANDLE, gCS, gFIELD, gCE, gINT, gFLOAT, gTEXT, gBYTES,
   gARRAY, gOBJECT, gL1, gL2, gL3, gL12, gSEP, gNEST, gFLOW, gBIND]

/-- `is_lc_r_glyph`: membership in `GLYPH_TO_NAME`. -/
def isLcrGlyph (c : Char) : Bool := lcrGlyphs.contains c

/-- The stop set of `_read_until_glyph`: glyphs plus the structural
markers `]`, `}`, `)`, space. -/
def ruStop (c : Char) : Bool :=
  isLcrGlyph c || c = ']' || c = '}' || c = ')' || c = ' '

/-- The `_encode` string escaping: only double quotes (`value.replace`). -/
def escapeQuote (s : List Char) : List Char :=
  s.flatMap fun c => if c = '"' then ['\\', c] else [c]

/-- `SEPARATOR.join`. -/
def sepJoinG : List (List Char) → List Char
  | [] => []
  | [x] => x
  | x :: t => x ++ gSEP :: sepJoinG t

mutual

/-- `LCREncoder.encode`.  A string starting with `&` loses its `&` and
becomes a handle; a string starting with `h_` becomes a handle without
dropping anything; text is quoted with only `"` escaped.  Object keys are
emitted raw inside quotes (no escaping).  Contract fields are re-indexed
sequentially from 0 (`_encode_contract` ignores the stored keys). -/
def encode_lcr_val : LCTValue → List Char
  | .vnull => [gNULL]
  | .vbool true => [gTRUE]
  | .vbool false => [gFALSE]
  | .vint v => gINT :: intDecimal v
  | .vstr s =>
    if ['&'].isPrefixOf s then gHANDLE :: s.drop 1
    else if ['h', '_'].isPrefixOf s then gHANDLE :: s
    else gTEXT :: '"' :: escapeQuote s ++ ['"']
  | .vbytes bs => gBYTES :: bytesToHex bs
  | .varr l => gARRAY :: '[' :: sepJoinG (encodeLcrElems l) ++ [']']
  | .vobj kvs => gOBJECT :: '{' :: sepJoinG (encodeLcrKVs kvs) ++ ['}']
  | .vcontract cid fields => gCS :: intDecimal cid ++ encodeLcrFields 0 fields ++ [gCE]

/-- Encoded array elements, before the separator join. -/
def encodeLcrElems : List LCTValue → List (List Char)
  | [] => []
  | v :: t => encode_lcr_val v :: encodeLcrElems t

/-- Encoded `key⋯value` object fields, before the separator join. -/
def encodeLcrKVs : List (List Char × LCTValue) → List (List Char)
  | [] => []
  | (k, v) :: t => (gTEXT :: '"' :: k ++ '"' :: gBIND :: encode_lcr_val v) :: encodeLcrKVs t

/-- The contract field block: `FIELD <j> SPACE <value>` with `j` counting
up from the initial position, regardless of the stored field keys. -/
def encodeLcrFields (j : Nat) : List (Int × LCTValue) → List Char
  | [] => []
  | (_, v) :: t => gFIELD :: natDecimal j ++ ' ' :: encode_lcr_val v ++ encodeLcrFields (j + 1) t

end

def encode_lcr (v : LCTValue) : List Char := encode_lcr_val v

/-- Decoder errors (the source raises `ValueError` with a message;
`floatLiteral` marks the float branch outside the embedded domain and
`outOfFuel` exhausted fuel, unreachable at the entry fuel). -/
inductive LCRErr : Type where
  | outOfFuel
  | unexpectedEnd
  | unexpectedChar
  | badInt
  | badHexBytes
  | floatLiteral
  | expectedQuote
  | unterminatedString
  | expectedLBracket
  | unterminatedArray
  | expectedLBrace
  | unterminatedObject
  | expectedTextKey
  | expectedBind
  | unterminatedContract
  | expectedField
deriving DecidableEq

/-- `_read_until_glyph`: span up to the first glyph or structural marker,
returned stripped; the cursor advances by the unstripped span. -/
def readUntilGlyph (s : List Char) : List Char × List Char :=
  let span := s.takeWhile fun c => !(ruStop c)
  (pyStrip span, s.drop span.length)

/-- `_read_number`: digits and `.`/`-`/`+`/`e`. -/
def readNumberR (s : List Char) : List Char × List Char :=
  let span := s.takeWhile fun c => c.isDigit || c = '.' || c = '-' || c = '+' || c = 'e'
  (span, s.drop span.length)

/-- The scan loop of `_read_string` after the opening quote: the escape
flag makes the next character literal (no escape map). -/
def readStringGoR (acc : List Char) : List Char → Except LCRErr (List Char × List Char)
  | [] => .error .unterminatedString
  | '\\' :: [] => .error .unterminatedString
  | '\\' :: e :: rest => readStringGoR (e :: acc) rest
  | '"' :: rest => .ok (acc.reverse, rest)
  | c :: rest => readStringGoR (c :: acc) rest

/-- `_read_string`: requires the opening quote. -/
def readStringR : List Char → Except LCRErr (List Char × List Char)
  | '"' :: rest => readStringGoR [] rest
  | _ => .error .expectedQuote

/-- `bytes.fromhex` of the read span: hex digits in strict pairs. -/
def fromHexPairsStrict (l : List Char) : Option (List Nat) :=
  if l.all isHexDigit then fromHexPairs l else none

mutual

/-- `_parse_value`: dispatch on the leading glyph. -/
def parseValueR : Nat → List Char → Except LCRErr (LCTValue × List Char)
  | 0, _ => .error .outOfFuel
  | _ + 1, [] => .error .unexpectedEnd
  | fuel + 1, c :: rest =>
    if c = gNULL then .ok (.vnull, rest)
    else if c = gTRUE then .ok (.vbool true, rest)
    else if c = gFALSE then .ok (.vbool false, rest)
    else if c = gHANDLE then
      .ok (.vstr ('&' :: (readUntilGlyph rest).1), (readUntilGlyph rest).2)
    else if c = gINT then
      match parseIntPy (readNumberR rest).1 with
      | some v => .ok (.vint v, (readNumberR rest).2)
      | none => .error .badInt
    else if c = gFLOAT then .error .floatLiteral
    else if c = gTEXT then
      match readStringR rest with
      | .ok (s, r) => .ok (.vstr s, r)
      | .error e => .error e
    else if c = gBYTES then
      match fromHexPairsStrict (readUntilGlyph rest).1 with
      | some bs => .ok (.vbytes bs, (readUntilGlyph rest).2)
      | none => .error .badHexBytes
    else if c = gARRAY then parseArrayR fuel rest
    else if c = gOBJECT then parseObjectR fuel rest
    else if c = gCS then parseContractR fuel rest
    else .error .unexpectedChar

/-- `_parse_array`: requires `[`, then the element loop. -/
def parseArrayR : Nat → List Char → Except LCRErr (LCTValue × List Char)
  | 0, _ => .error .outOfFuel
  | _ + 1, [] => .error .expectedLBracket
  | fuel + 1, c :: rest =>
    if c = '[' then parseArrayLoopR fuel rest []
    else .error .expectedLBracket

/-- The element loop of `_parse_array`: end bracket, else one value, then
an optional separator. -/
def parseArrayLoopR : Nat → List Char → List LCTValue → Except LCRErr (LCTValue × List Char)
  | 0, _, _ => .error .outOfFuel
  | _ + 1, [], _ => .error .unterminatedArray
  | fuel + 1, c :: rest, acc =>
    if c = ']' then .ok (.varr acc, rest)
    else
      match parseValueR fuel (c :: rest) with
      | .error e => .error e
      | .ok (v, s2) =>
        let s3 := match s2 with
          | c2 :: t2 => if c2 = gSEP then t2 else c2 :: t2
          | [] => []
        parseArrayLoopR fuel s3 (acc ++ [v])

/-- `_parse_object`: requires `{`, then the key/value loop. -/
def parseObjectR : Nat → List Char → Except LCRErr (LCTValue × List Char)
  | 0, _ => .error .outOfFuel
  | _ + 1, [] => .error .expectedLBrace
  | fuel + 1, c :: rest =>
    if c = '{' then parseObjectLoopR fuel rest []
    else .error .expectedLBrace

/-- The key/value loop of `_parse_object`: text-glyph key, bind glyph,
value, optional separator; dict assignment overwrites a repeated key. -/
def parseObjectLoopR : Nat → List Char → List (List Char × LCTValue) →
    Except LCRErr (LCTValue × List Char)
  | 0, _, _ => .error .outOfFuel
  | _ + 1, [], _ => .error .unterminatedObject
  | fuel + 1, c :: rest, acc =>
    if c = '}' then .ok (.vobj acc, rest)
    else if c = gTEXT then
      match readStringR rest with
      | .error e => .error e
      | .ok (key, s2) =>
        match s2 with
        | [] => .error .expectedBind
        | b :: s3 =>
          if b = gBIND then
            match parseValueR fuel s3 with
            | .error e => .error e
            | .ok (v, s4) =>
              let s5 := match s4 with
                | c2 :: t2 => if c2 = gSEP then t2 else c2 :: t2
                | [] => []
              parseObjectLoopR fuel s5 (alistPut acc key v)
          else .error .expectedBind
    else .error .expectedTextKey

/-- `_parse_contract`: read the contract id span, then the field loop. -/
def parseContractR : Nat → List Char → Except LCRErr (LCTValue × List Char)
  | 0, _ => .error .outOfFuel
  | fuel + 1, s =>
    match parseIntPy (readUntilGlyph s).1 with
    | some cid => parseContractLoopR fuel (readUntilGlyph s).2 cid []
    | none => .error .badInt

/-- The field loop of `_parse_contract`: contract-end glyph, else field
glyph, index span, spaces, value; the decoded field key is the parsed
index (`field_<idx>`). -/
def parseContractLoopR : Nat → List Char → Int → List (Int × LCTValue) →
    Except LCRErr (LCTValue × List Char)
  | 0, _, _, _ => .error .outOfFuel
  | _ + 1, [], _, _ => .error .unterminatedContract
  | fuel + 1, c :: rest, cid, acc =>
    if c = gCE then .ok (.vcontract cid acc, rest)
    else if c = gFIELD then
      match parseIntPy (pyStrip (readUntilGlyph rest).1) with
      | none => .error .badInt
      | some idx =>
        match parseValueR fuel (((readUntilGlyph rest).2).dropWhile fun c2 => c2 = ' ') with
        | .error e => .error e
        | .ok (v, s4) => parseContractLoopR fuel s4 cid (alistPut acc idx v)
    else .error .expectedField

end

/-- `LCRDecoder.decode` / `decode_lcr`: parse one value from the start; no
check of leftover input.  The entry fuel `3·len + 1` dominates every fuel
budget an encoded value can need (proved below for encoder output). -/
def decode_lcr (s : List Char) : Except LCRErr LCTValue :=
  match parseValueR (3 * s.length + 1) s with
  | .ok (v, _) => .ok v
  | .error e => .error e

/-! ### The well-formed LC-R domain -/

/-- String values that survive the handle special cases and the
quote-only escaping: a `&`-handle with identifier tail, or a plain string
not starting with `h_` and containing no backslash. -/
def wfLcrStr (s : List Char) : Bool :=
  if ['&'].isPrefixOf s then (s.drop 1).all isIdentChar
  else if ['h', '_'].isPrefixOf s then false
  else s.all fun c => !(c = '\\')

/-- Object keys are emitted unescaped inside quotes: no quote, no
backslash, and not the contract marker key. -/
def wfLcrKey (k : List Char) : Bool :=
  (k.all fun c => !(c = '"') && !(c = '\\')) && k ≠ "contract_id".toList

/-- The sequential re-indexing `_encode_contract` applies to the fields. -/
def reIndexFields (j : Nat) : List (Int × LCTValue) → List (Int × LCTValue)
  | [] => []
  | (_, v) :: t => ((j : Int), v) :: reIndexFields (j + 1) t

/-- The field keys are already the sequential indices starting at `j`. -/
def seqIdx (j : Nat) : List (Int × LCTValue) → Bool
  | [] => true
  | (i, _) :: t => i = (j : Int) && seqIdx (j + 1) t

mutual

/-- The domain on which the LC-R round-trip holds: handle-safe strings,
byte values below 256, distinct object keys without quotes or
backslashes, and contract fields whose keys are already the sequential
indices the encoder reassigns. -/
def wfLcr : LCTValue → Bool
  | .vnull => true
  | .vbool _ => true
  | .vint _ => true
  | .vstr s => wfLcrStr s
  | .vbytes bs => bs.all (· < 256)
  | .varr l => wfLcrList l
  | .vobj kvs => (kvs.map Prod.fst).Nodup && wfLcrKVs kvs
  | .vcontract _ fields => seqIdx 0 fields && wfLcrFields fields

def wfLcrList : List LCTValue → Bool
  | [] => true
  | e :: t => wfLcr e && wfLcrList t

def wfLcrKVs : List (List Char × LCTValue) → Bool
  | [] => true
  | (k, v) :: t => wfLcrKey k && wfLcr v && wfLcrKVs t

def wfLcrFields : List (Int × LCTValue) → Bool
  | [] => true
  | (_, v) :: t => wfLcr v && wfLcrFields t

end

mutual

/-- Fuel budget of a successful parse of an encoded value. -/
def gsize : LCTValue → Nat
  | .vnull => 1
  | .vbool _ => 1
  | .vint _ => 1
  | .vstr _ => 1
  | .vbytes _ => 1
  | .varr l => 3 + gsizeList l
  | .vobj kvs => 3 + gsizeKVs kvs
  | .vcontract _ fields => 3 + gsizeFields fields

def gsizeList : List LCTValue → Nat
  | [] => 0
  | e :: t => 1 + gsize e + gsizeList t

def gsizeKVs : List (List Char × LCTValue) → Nat
  | [] => 0
  | (_, v) :: t => 1 + gsize v + gsizeKVs t

def gsizeFields : List (Int × LCTValue) → Nat
  | [] => 0
  | (_, v) :: t => 1 + gsize v + gsizeFields t

end

theorem gsize_pos (v : LCTValue) : 1 ≤ gsize v := by
  cases v <;> simp [gsize] <;> omega

/-- A character that may follow a complete LC-R value in its context:
nothing, a separator, a closer, or a contract-structure glyph. -/
def boundaryOkR (rest : List Char) : Bool :=
  match rest with
  | [] => true
  | c :: _ => c = gSEP || c = ']' || c = '}' || c = gFIELD || c = gCE

/-! ### LC-R span and character-class lemmas -/

theorem all_mono {p q : Char → Bool} :
    ∀ l : List Char, l.all p = true → (∀ c, p c = true → q c = true) → l.all q = true := by
  intro l h himp
  induction l with
  | nil => rfl
  | cons a t ih =>
    simp only [List.all_cons, Bool.and_eq_true] at h ⊢
    exact ⟨himp a h.1, ih h.2⟩

theorem ruStop_false_of {c : Char} (hglyph : isLcrGlyph c = false)
    (h1 : c ≠ ']') (h2 : c ≠ '}') (h3 : c ≠ ')') (h4 : c ≠ ' ') : ruStop c = false := by
  unfold ruStop
  rw [hglyph, decide_eq_false h1, decide_eq_false h2, decide_eq_false h3, decide_eq_false h4]
  rfl

theorem isLcrGlyph_false_of {p : Char → Bool} (c : Char)
    (hall : lcrGlyphs.all (fun d => !(p d)) = true) (hc : p c = true) :
    isLcrGlyph c = false :=
  all_not_contains lcrGlyphs c hall (by rw [hc]; rfl)

theorem identChar_not_stop {c : Char} (h : isIdentChar c = true) :
    ruStop c = false ∧ c.isWhitespace = false := by
  have hne : ∀ d : Char, isIdentChar d = false → c ≠ d := by
    intro d hd he
    rw [he, hd] at h
    exact absurd h (by decide)
  exact ⟨ruStop_false_of (isLcrGlyph_false_of c (by decide) h)
    (hne ']' (by decide)) (hne '}' (by decide)) (hne ')' (by decide)) (hne ' ' (by decide)),
    (identChar_props h).1⟩

theorem digit_not_stop {c : Char} (h : c.isDigit = true) : ruStop c = false := by
  have hne : ∀ d : Char, d.isDigit = false → c ≠ d := by
    intro d hd he
    rw [he, hd] at h
    exact absurd h (by decide)
  exact ruStop_false_of (isLcrGlyph_false_of c (by decide) h)
    (hne ']' (by decide)) (hne '}' (by decide)) (hne ')' (by decide)) (hne ' ' (by decide))

theorem hexDigit_not_stop {c : Char} (h : isHexDigit c = true) : ruStop c = false := by
  have hne : ∀ d : Char, isHexDigit d = false → c ≠ d := by
    intro d hd he
    rw [he, hd] at h
    exact absurd h (by decide)
  exact ruStop_false_of (isLcrGlyph_false_of c (by decide) h)
    (hne ']' (by decide)) (hne '}' (by decide)) (hne ')' (by decide)) (hne ' ' (by decide))

theorem minus_not_stop : ruStop '-' = false := by decide

theorem pyStrip_all_not_ws (l : List Char) (h : l.all (fun c => !c.isWhitespace) = true) :
    pyStrip l = l := by
  refine pyStrip_eq_self l ?_ ?_
  · intro c t hl
    rw [hl] at h
    simp only [List.all_cons, Bool.and_eq_true, Bool.not_eq_true'] at h
    exact h.1
  · intro c hc
    cases l with
    | nil => exact absurd hc (by simp)
    | cons a t =>
      obtain ⟨d, hd, hpd⟩ := last_all (a :: t) (by simp) h
      rw [hd] at hc
      injection hc with h2
      rw [← h2]
      simpa using hpd

theorem readUntilGlyph_span (span rest : List Char)
    (hall : span.all (fun c => !(ruStop c)) = true)
    (hnws : span.all (fun c => !c.isWhitespace) = true)
    (hrest : ∀ c t, rest = c :: t → ruStop c = true) :
    readUntilGlyph (span ++ rest) = (span, rest) := by
  have htw : (span ++ rest).takeWhile (fun c => !(ruStop c)) = span :=
    takeWhile_append_eq _ _ hall (fun c t h => by rw [hrest c t h]; rfl)
  unfold readUntilGlyph
  simp only [htw]
  rw [pyStrip_all_not_ws span hnws, List.drop_left]

theorem readNumberR_span (span rest : List Char)
    (hall : span.all (fun c => c.isDigit || c = '.' || c = '-' || c = '+' || c = 'e') = true)
    (hrest : ∀ c t, rest = c :: t →
      (c.isDigit || c = '.' || c = '-' || c = '+' || c = 'e') = false) :
    readNumberR (span ++ rest) = (span, rest) := by
  have htw := takeWhile_append_eq
    (p := fun c => c.isDigit || c = '.' || c = '-' || c = '+' || c = 'e')
    span rest hall hrest
  unfold readNumberR
  simp only [htw]
  rw [List.drop_left]

theorem intDecimal_all_numAccept (v : Int) :
    (intDecimal v).all (fun c => c.isDigit || c = '.' || c = '-' || c = '+' || c = 'e')
      = true := by
  have hd : ∀ l : List Char, l.all Char.isDigit = true →
      l.all (fun c => c.isDigit || c = '.' || c = '-' || c = '+' || c = 'e') = true :=
    fun l h => all_mono l h (fun c hc => by rw [hc]; rfl)
  unfold intDecimal
  by_cases hv : v < 0
  · rw [if_pos hv]
    simp only [List.all_cons, Bool.and_eq_true]
    exact ⟨by decide, hd _ (natDecimal_spec v.natAbs).1⟩
  · rw [if_neg hv]
    exact hd _ (natDecimal_spec v.toNat).1

theorem intDecimal_not_ws (v : Int) :
    (intDecimal v).all (fun c => !c.isWhitespace) = true := by
  have hd : ∀ l : List Char, l.all Char.isDigit = true →
      l.all (fun c => !c.isWhitespace) = true :=
    fun l h => all_mono l h (fun c hc => by rw [(digit_not_special hc).1]; rfl)
  unfold intDecimal
  by_cases hv : v < 0
  · rw [if_pos hv]
    simp only [List.all_cons, Bool.and_eq_true]
    exact ⟨by decide, hd _ (natDecimal_spec v.natAbs).1⟩
  · rw [if_neg hv]
    exact hd _ (natDecimal_spec v.toNat).1

theorem intDecimal_not_stop (v : Int) :
    (intDecimal v).all (fun c => !(ruStop c)) = true := by
  have hd : ∀ l : List Char, l.all Char.isDigit = true →
      l.all (fun c => !(ruStop c)) = true :=
    fun l h => all_mono l h (fun c hc => by rw [digit_not_stop hc]; rfl)
  unfold intDecimal
  by_cases hv : v < 0
  · rw [if_pos hv]
    simp only [List.all_cons, Bool.and_eq_true]
    exact ⟨by rw [minus_not_stop]; rfl, hd _ (natDecimal_spec v.natAbs).1⟩
  · rw [if_neg hv]
    exact hd _ (natDecimal_spec v.toNat).1

/-- `parseIntPy` of `str(j)` for a natural `j`. -/
theorem parseIntPy_natDecimal (j : Nat) : parseIntPy (natDecimal j) = some (j : Int) := by
  obtain ⟨hall, hne, hval⟩ := natDecimal_spec j
  rw [parseIntPy_digits _ hne hall, hval]
  simp only [Option.bind_eq_bind, Option.some_bind, Option.pure_def]

/-- Follower facts for the LC-R boundary set. -/
theorem boundaryR_props {rest : List Char} (h : boundaryOkR rest = true) :
    ∀ c t, rest = c :: t → ruStop c = true ∧
      (c.isDigit || c = '.' || c = '-' || c = '+' || c = 'e') = false := by
  intro c t hrest
  subst hrest
  simp only [boundaryOkR, Bool.or_eq_true, decide_eq_true_eq] at h
  rcases h with (((rfl | rfl) | rfl) | rfl) | rfl
  · exact ⟨by decide, by decide⟩
  · exact ⟨by decide, by decide⟩
  · exact ⟨by decide, by decide⟩
  · exact ⟨by decide, by decide⟩
  · exact ⟨by decide, by decide⟩

theorem readStringGoR_escape :
    ∀ (s acc rest : List Char), s.all (fun c => !(c = '\\')) = true →
      readStringGoR acc (escapeQuote s ++ '"' :: rest) = .ok (acc.reverse ++ s, rest) := by
  intro s
  induction s with
  | nil => intro acc rest _; simp [escapeQuote, readStringGoR]
  | cons c t ih =>
    intro acc rest hnb
    simp only [List.all_cons, Bool.and_eq_true, Bool.not_eq_true', decide_eq_false_iff_not]
      at hnb
    obtain ⟨hcb, htb⟩ := hnb
    have htb2 : t.all (fun c => !(c = '\\')) = true := htb
    by_cases hq : c = '"'
    · subst hq
      show readStringGoR acc ('\\' :: '"' :: (escapeQuote t ++ '"' :: rest)) = _
      rw [readStringGoR, ih _ _ htb2]
      simp
    · show readStringGoR acc ((if c = '"' then ['\\', c] else [c])
        ++ escapeQuote t ++ '"' :: rest) = _
      rw [if_neg hq]
      show readStringGoR acc (c :: (escapeQuote t ++ '"' :: rest)) = _
      rw [readStringGoR.eq_def]
      split
      · simp_all
      · rename_i heq
        injection heq with h1 _
        exact absurd h1 hcb
      · rename_i heq
        injection heq with h1 _
        exact absurd h1 hcb
      · rename_i heq
        injection heq with h1 _
        exact absurd h1 hq
      · rename_i heq
        injection heq with h1 h2
        subst h1
        rw [← h2, ih _ _ htb2]
        simp

theorem readStringGoR_raw :
    ∀ (k acc rest : List Char), k.all (fun c => !(c = '"') && !(c = '\\')) = true →
      readStringGoR acc (k ++ '"' :: rest) = .ok (acc.reverse ++ k, rest) := by
  intro k
  induction k with
  | nil => intro acc rest _; simp [readStringGoR]
  | cons c t ih =>
    intro acc rest hk
    simp only [List.all_cons, Bool.and_eq_true, Bool.not_eq_true',
      decide_eq_false_iff_not] at hk
    obtain ⟨⟨hcq, hcb⟩, htk⟩ := hk
    have htk2 : t.all (fun c => !(c = '"') && !(c = '\\')) = true := htk
    show readStringGoR acc (c :: (t ++ '"' :: rest)) = _
    rw [readStringGoR.eq_def]
    split
    · simp_all
    · rename_i heq
      injection heq with h1 _
      exact absurd h1 hcb
    · rename_i heq
      injection heq with h1 _
      exact absurd h1 hcb
    · rename_i heq
      injection heq with h1 _
      exact absurd h1 hcq
    · rename_i heq
      injection heq with h1 h2
      subst h1
      rw [← h2, ih _ _ htk2]
      simp

/-- Every LC-R encoding starts with a type glyph; in particular not a
closer, separator, or space. -/
theorem encodeLcr_head (v : LCTValue) :
    ∃ c cs, encode_lcr_val v = c :: cs ∧ c ≠ ']' ∧ c ≠ '}' ∧ c ≠ ' ' ∧ c ≠ gSEP := by
  cases v with
  | vnull => exact ⟨gNULL, _, rfl, by decide, by decide, by decide, by decide⟩
  | vbool b =>
    cases b
    · exact ⟨gFALSE, _, rfl, by decide, by decide, by decide, by decide⟩
    · exact ⟨gTRUE, _, rfl, by decide, by decide, by decide, by decide⟩
  | vint i => exact ⟨gINT, _, rfl, by decide, by decide, by decide, by decide⟩
  | vstr s =>
    show ∃ c cs, (if ['&'].isPrefixOf s then gHANDLE :: s.drop 1
      else if ['h', '_'].isPrefixOf s then gHANDLE :: s
      else gTEXT :: '"' :: escapeQuote s ++ ['"']) = c :: cs ∧ _
    by_cases hp : ['&'].isPrefixOf s = true
    · rw [if_pos hp]
      exact ⟨gHANDLE, _, rfl, by decide, by decide, by decide, by decide⟩
    · rw [if_neg hp]
      by_cases hq : ['h', '_'].isPrefixOf s = true
      · rw [if_pos hq]
        exact ⟨gHANDLE, _, rfl, by decide, by decide, by decide, by decide⟩
      · rw [if_neg hq]
        exact ⟨gTEXT, _, rfl, by decide, by decide, by decide, by decide⟩
  | vbytes bs => exact ⟨gBYTES, _, rfl, by decide, by decide, by decide, by decide⟩
  | varr l => exact ⟨gARRAY, _, rfl, by decide, by decide, by decide, by decide⟩
  | vobj kvs => exact ⟨gOBJECT, _, rfl, by decide, by decide, by decide, by decide⟩
  | vcontract cid fields => exact ⟨gCS, _, rfl, by decide, by decide, by decide, by decide⟩

theorem amp1_shape (s : List Char) (h : (['&'].isPrefixOf s) = true) :
    s = '&' :: s.drop 1 := by
  cases s with
  | nil => exact absurd h (by decide)
  | cons a t =>
    simp only [List.isPrefixOf, Bool.and_eq_true, beq_iff_eq] at h
    rw [h.1]
    rfl

theorem reIndexFields_of_seqIdx :
    ∀ (fields : List (Int × LCTValue)) (j : Nat), seqIdx j fields = true →
      reIndexFields j fields = fields := by
  intro fields
  induction fields with
  | nil => intro j _; rfl
  | cons p t ih =>
    intro j h
    obtain ⟨i, v⟩ := p
    have h2 : (decide (i = (j : Int)) && seqIdx (j + 1) t) = true := h
    simp only [Bool.and_eq_true, decide_eq_true_eq] at h2
    show ((j : Int), v) :: reIndexFields (j + 1) t = (i, v) :: t
    rw [h2.1, ih (j + 1) h2.2]

theorem reIndexFields_fst_ge :
    ∀ (l : List (Int × LCTValue)) (k : Nat) (x : Int),
      x ∈ (reIndexFields k l).map Prod.fst → (k : Int) ≤ x := by
  intro l
  induction l with
  | nil => intro k x hx; exact absurd hx (by simp [reIndexFields])
  | cons p t ih =>
    intro k x hx
    obtain ⟨i, v⟩ := p
    show _ ≤ x
    rw [show reIndexFields k ((i, v) :: t) = ((k : Int), v) :: reIndexFields (k + 1) t
      from rfl] at hx
    simp only [List.map_cons, List.mem_cons] at hx
    rcases hx with rfl | hx2
    · exact le_refl _
    · have := ih (k + 1) x hx2
      omega

theorem reIndexFields_fst_nodup :
    ∀ (l : List (Int × LCTValue)) (k : Nat), ((reIndexFields k l).map Prod.fst).Nodup := by
  intro l
  induction l with
  | nil => intro k; exact List.nodup_nil
  | cons p t ih =>
    intro k
    obtain ⟨i, v⟩ := p
    rw [show reIndexFields k ((i, v) :: t) = ((k : Int), v) :: reIndexFields (k + 1) t
      from rfl]
    simp only [List.map_cons]
    refine List.nodup_cons.mpr ⟨?_, ih (k + 1)⟩
    intro hmem
    have := reIndexFields_fst_ge t (k + 1) _ hmem
    omega

theorem arrR_entry_shape (e : LCTValue) (t : List LCTValue) (rest : List Char) :
    ∃ after, sepJoinG (encodeLcrElems (e :: t)) ++ ']' :: rest = encode_lcr_val e ++ after ∧
      boundaryOkR after = true ∧
      ((t = [] ∧ after = ']' :: rest) ∨
       (t ≠ [] ∧ after = gSEP :: (sepJoinG (encodeLcrElems t) ++ ']' :: rest))) := by
  cases t with
  | nil => exact ⟨']' :: rest, rfl, rfl, Or.inl ⟨rfl, rfl⟩⟩
  | cons e2 t2 =>
    refine ⟨gSEP :: (sepJoinG (encodeLcrElems (e2 :: t2)) ++ ']' :: rest), ?_, rfl,
      Or.inr ⟨by simp, rfl⟩⟩
    show (encode_lcr_val e ++ gSEP :: sepJoinG (encodeLcrElems (e2 :: t2))) ++ ']' :: rest = _
    simp only [List.append_assoc, List.cons_append]

theorem objR_entry_shape (k : List Char) (v : LCTValue) (t : List (List Char × LCTValue))
    (rest : List Char) :
    ∃ after, sepJoinG (encodeLcrKVs ((k, v) :: t)) ++ '}' :: rest
      = gTEXT :: ('"' :: (k ++ '"' :: gBIND :: (encode_lcr_val v ++ after))) ∧
      boundaryOkR after = true ∧
      ((t = [] ∧ after = '}' :: rest) ∨
       (t ≠ [] ∧ after = gSEP :: (sepJoinG (encodeLcrKVs t) ++ '}' :: rest))) := by
  cases t with
  | nil =>
    refine ⟨'}' :: rest, ?_, rfl, Or.inl ⟨rfl, rfl⟩⟩
    show (gTEXT :: '"' :: k ++ '"' :: gBIND :: encode_lcr_val v) ++ '}' :: rest = _
    simp only [List.append_assoc, List.cons_append]
  | cons t0 ts =>
    obtain ⟨k2, v2⟩ := t0
    refine ⟨gSEP :: (sepJoinG (encodeLcrKVs ((k2, v2) :: ts)) ++ '}' :: rest), ?_, rfl,
      Or.inr ⟨by simp, rfl⟩⟩
    show ((gTEXT :: '"' :: k ++ '"' :: gBIND :: encode_lcr_val v)
      ++ gSEP :: sepJoinG (encodeLcrKVs ((k2, v2) :: ts))) ++ '}' :: rest = _
    simp only [List.append_assoc, List.cons_append]

theorem encFields_follower (fields : List (Int × LCTValue)) (j : Nat) (rest : List Char) :
    ∀ c t, encodeLcrFields j fields ++ gCE :: rest = c :: t →
      ruStop c = true ∧ (c.isDigit || c = '.' || c = '-' || c = '+' || c = 'e') = false := by
  intro c t h
  cases fields with
  | nil =>
    injection h with h1 _
    rw [← h1]
    exact ⟨by decide, by decide⟩
  | cons p t2 =>
    obtain ⟨i, v⟩ := p
    have h2 : gFIELD :: ((natDecimal j ++ ' ' :: encode_lcr_val v
        ++ encodeLcrFields (j + 1) t2) ++ gCE :: rest) = c :: t := h
    injection h2 with h1 _
    rw [← h1]
    exact ⟨by decide, by decide⟩

theorem encFields_boundaryOkR (fields : List (Int × LCTValue)) (j : Nat) (rest : List Char) :
    boundaryOkR (encodeLcrFields j fields ++ gCE :: rest) = true := by
  cases fields with
  | nil => rfl
  | cons p t =>
    obtain ⟨i, v⟩ := p
    show boundaryOkR (gFIELD :: ((natDecimal j ++ ' ' :: encode_lcr_val v
      ++ encodeLcrFields (j + 1) t) ++ gCE :: rest)) = true
    rfl

/-- The LC-R fuel budget is covered by three units per encoded
character. -/
theorem gsize_bound_master : ∀ n : Nat,
    (∀ v, gsize v ≤ n → gsize v ≤ 3 * (encode_lcr_val v).length) ∧
    (∀ l, gsizeList l ≤ n → gsizeList l ≤ 3 * (sepJoinG (encodeLcrElems l)).length + 1) ∧
    (∀ kvs, gsizeKVs kvs ≤ n → gsizeKVs kvs ≤ 3 * (sepJoinG (encodeLcrKVs kvs)).length + 1) ∧
    (∀ fields j, gsizeFields fields ≤ n →
      gsizeFields fields ≤ 3 * (encodeLcrFields j fields).length) := by
  intro n
  induction n using Nat.strong_induction_on with
  | _ n ih =>
  refine ⟨?_, ?_, ?_, ?_⟩
  · intro v hn
    cases v with
    | vnull => decide
    | vbool b => cases b <;> decide
    | vint i =>
      show gsize (.vint i) ≤ 3 * (gINT :: intDecimal i).length
      rw [show gsize (.vint i) = 1 from rfl]
      simp only [List.length_cons]
      omega
    | vstr s =>
      obtain ⟨c, cs, henc, _, _, _, _⟩ := encodeLcr_head (.vstr s)
      rw [henc, show gsize (.vstr s) = 1 from rfl]
      simp only [List.length_cons]
      omega
    | vbytes bs =>
      show gsize (.vbytes bs) ≤ 3 * (gBYTES :: bytesToHex bs).length
      rw [show gsize (.vbytes bs) = 1 from rfl]
      simp only [List.length_cons]
      omega
    | varr l =>
      rw [show gsize (.varr l) = 3 + gsizeList l from rfl] at hn ⊢
      have hlist := (ih (gsizeList l) (by omega)).2.1 l (le_refl _)
      show 3 + gsizeList l
        ≤ 3 * (((gARRAY :: '[' :: sepJoinG (encodeLcrElems l)) ++ [']']).length)
      simp only [List.length_append, List.length_cons, List.length_nil]
      omega
    | vobj kvs =>
      rw [show gsize (.vobj kvs) = 3 + gsizeKVs kvs from rfl] at hn ⊢
      have hk := (ih (gsizeKVs kvs) (by omega)).2.2.1 kvs (le_refl _)
      show 3 + gsizeKVs kvs
        ≤ 3 * (((gOBJECT :: '{' :: sepJoinG (encodeLcrKVs kvs)) ++ ['}']).length)
      simp only [List.length_append, List.length_cons, List.length_nil]
      omega
    | vcontract cid fields =>
      rw [show gsize (.vcontract cid fields) = 3 + gsizeFields fields from rfl] at hn ⊢
      have hf := (ih (gsizeFields fields) (by omega)).2.2.2 fields 0 (le_refl _)
      show 3 + gsizeFields fields
        ≤ 3 * (((gCS :: intDecimal cid) ++ encodeLcrFields 0 fields ++ [gCE]).length)
      simp only [List.length_append, List.length_cons, List.length_nil]
      omega
  · intro l hn
    cases l with
    | nil =>
      have h0 : gsizeList ([] : List LCTValue) = 0 := rfl
      omega
    | cons e t =>
      rw [show gsizeList (e :: t) = 1 + gsize e + gsizeList t from rfl] at hn ⊢
      have hv := (ih (gsize e) (by have := gsize_pos e; omega)).1 e (le_refl _)
      cases t with
      | nil =>
        have h0 : gsizeList ([] : List LCTValue) = 0 := rfl
        show 1 + gsize e + gsizeList [] ≤ 3 * (encode_lcr_val e).length + 1
        omega
      | cons e2 t2 =>
        have hlist := (ih (gsizeList (e2 :: t2)) (by have := gsize_pos e; omega)).2.1
          (e2 :: t2) (le_refl _)
        show 1 + gsize e + gsizeList (e2 :: t2)
          ≤ 3 * ((encode_lcr_val e ++ gSEP :: sepJoinG (encodeLcrElems (e2 :: t2))).length) + 1
        simp only [List.length_append, List.length_cons]
        omega
  · intro kvs hn
    cases kvs with
    | nil =>
      have h0 : gsizeKVs ([] : List (List Char × LCTValue)) = 0 := rfl
      omega
    | cons kv t =>
      obtain ⟨k, v⟩ := kv
      rw [show gsizeKVs ((k, v) :: t) = 1 + gsize v + gsizeKVs t from rfl] at hn ⊢
      have hv := (ih (gsize v) (by have := gsize_pos v; omega)).1 v (le_refl _)
      cases t with
      | nil =>
        have h0 : gsizeKVs ([] : List (List Char × LCTValue)) = 0 := rfl
        show 1 + gsize v + gsizeKVs []
          ≤ 3 * ((gTEXT :: '"' :: k ++ '"' :: gBIND :: encode_lcr_val v).length) + 1
        simp only [List.length_append, List.length_cons]
        omega
      | cons t0 ts =>
        obtain ⟨k2, v2⟩ := t0
        have hk := (ih (gsizeKVs ((k2, v2) :: ts)) (by have := gsize_pos v; omega)).2.2.1
          ((k2, v2) :: ts) (le_refl _)
        show 1 + gsize v + gsizeKVs ((k2, v2) :: ts)
          ≤ 3 * (((gTEXT :: '"' :: k ++ '"' :: gBIND :: encode_lcr_val v)
            ++ gSEP :: sepJoinG (encodeLcrKVs ((k2, v2) :: ts))).length) + 1
        simp only [List.length_append, List.length_cons]
        omega
  · intro fields j hn
    cases fields with
    | nil =>
      have h0 : gsizeFields ([] : List (Int × LCTValue)) = 0 := rfl
      omega
    | cons p t =>
      obtain ⟨i, v⟩ := p
      rw [show gsizeFields ((i, v) :: t) = 1 + gsize v + gsizeFields t from rfl] at hn ⊢
      have hv := (ih (gsize v) (by have := gsize_pos v; omega)).1 v (le_refl _)
      have hf := (ih (gsizeFields t) (by have := gsize_pos v; omega)).2.2.2 t (j + 1)
        (le_refl _)
      show 1 + gsize v + gsizeFields t
        ≤ 3 * ((gFIELD :: natDecimal j ++ ' ' :: encode_lcr_val v
          ++ encodeLcrFields (j + 1) t).length)
      simp only [List.length_append, List.length_cons]
      omega

/-- Skipping the single space before a contract field value stops at the
leading type glyph of the value. -/
theorem dropWhile_space_encode (v : LCTValue) (X : List Char) :
    (' ' :: (encode_lcr_val v ++ X)).dropWhile (fun c2 => c2 = ' ')
      = encode_lcr_val v ++ X := by
  obtain ⟨cv, csv, hhv, _, _, hcvsp, _⟩ := encodeLcr_head v
  rw [List.dropWhile_cons, if_pos (by decide), hhv]
  show List.dropWhile (fun c2 => decide (c2 = ' ')) (cv :: (csv ++ X)) = (cv :: csv) ++ X
  rw [List.dropWhile_cons, if_neg (by simp only [decide_eq_true_eq]; exact hcvsp)]
  rfl

/-- Master LC-R round-trip induction (strong induction on the `gsize`
budget): the parser consumes exactly the encoding of a well-formed value,
and the loops consume the encoded element blocks. -/
theorem parse_encode_master_lcr : ∀ n : Nat,
    (∀ v fuel rest, gsize v ≤ n → wfLcr v = true → gsize v ≤ fuel →
      boundaryOkR rest = true →
      parseValueR fuel (encode_lcr_val v ++ rest) = .ok (v, rest)) ∧
    (∀ l fuel rest acc, gsizeList l ≤ n → wfLcrList l = true → gsizeList l + 1 ≤ fuel →
      parseArrayLoopR fuel (sepJoinG (encodeLcrElems l) ++ ']' :: rest) acc
        = .ok (.varr (acc ++ l), rest)) ∧
    (∀ kvs fuel rest acc, gsizeKVs kvs ≤ n → wfLcrKVs kvs = true →
      gsizeKVs kvs + 1 ≤ fuel → ((acc ++ kvs).map Prod.fst).Nodup →
      parseObjectLoopR fuel (sepJoinG (encodeLcrKVs kvs) ++ '}' :: rest) acc
        = .ok (.vobj (acc ++ kvs), rest)) ∧
    (∀ fields fuel rest cid acc j, gsizeFields fields ≤ n → wfLcrFields fields = true →
      gsizeFields fields + 1 ≤ fuel →
      ((acc ++ reIndexFields j fields).map Prod.fst).Nodup →
      parseContractLoopR fuel (encodeLcrFields j fields ++ gCE :: rest) cid acc
        = .ok (.vcontract cid (acc ++ reIndexFields j fields), rest)) := by
  intro n
  induction n using Nat.strong_induction_on with
  | _ n ih =>
  have ihv : ∀ v fuel rest, gsize v < n → wfLcr v = true → gsize v ≤ fuel →
      boundaryOkR rest = true →
      parseValueR fuel (encode_lcr_val v ++ rest) = .ok (v, rest) :=
    fun v fuel rest hlt hwf hf hb => (ih (gsize v) hlt).1 v fuel rest (le_refl _) hwf hf hb
  have ihA : ∀ l fuel rest acc, gsizeList l < n → wfLcrList l = true →
      gsizeList l + 1 ≤ fuel →
      parseArrayLoopR fuel (sepJoinG (encodeLcrElems l) ++ ']' :: rest) acc
        = .ok (.varr (acc ++ l), rest) :=
    fun l fuel rest acc hlt hwf hf =>
      (ih (gsizeList l) hlt).2.1 l fuel rest acc (le_refl _) hwf hf
  have ihO : ∀ kvs fuel rest acc, gsizeKVs kvs < n → wfLcrKVs kvs = true →
      gsizeKVs kvs + 1 ≤ fuel → ((acc ++ kvs).map Prod.fst).Nodup →
      parseObjectLoopR fuel (sepJoinG (encodeLcrKVs kvs) ++ '}' :: rest) acc
        = .ok (.vobj (acc ++ kvs), rest) :=
    fun kvs fuel rest acc hlt hwf hf hnd =>
      (ih (gsizeKVs kvs) hlt).2.2.1 kvs fuel rest acc (le_refl _) hwf hf hnd
  have ihC : ∀ fields fuel rest cid acc j, gsizeFields fields < n → wfLcrFields fields = true →
      gsizeFields fields + 1 ≤ fuel →
      ((acc ++ reIndexFields j fields).map Prod.fst).Nodup →
      parseContractLoopR fuel (encodeLcrFields j fields ++ gCE :: rest) cid acc
        = .ok (.vcontract cid (acc ++ reIndexFields j fields), rest) :=
    fun fields fuel rest cid acc j hlt hwf hf hnd =>
      (ih (gsizeFields fields) hlt).2.2.2 fields fuel rest cid acc j (le_refl _) hwf hf hnd
  refine ⟨?_, ?_, ?_, ?_⟩
  · -- values
    intro v fuel rest hn hwf hfuel hb
    cases fuel with
    | zero => have := gsize_pos v; omega
    | succ f =>
    cases v with
    | vnull =>
      show parseValueR (f + 1) (gNULL :: rest) = .ok (.vnull, rest)
      rfl
    | vbool b =>
      cases b with
      | true =>
        show parseValueR (f + 1) (gTRUE :: rest) = .ok (.vbool true, rest)
        rfl
      | false =>
        show parseValueR (f + 1) (gFALSE :: rest) = .ok (.vbool false, rest)
        rfl
    | vint i =>
      have hrn : readNumberR (intDecimal i ++ rest) = (intDecimal i, rest) :=
        readNumberR_span _ _ (intDecimal_all_numAccept i)
          (fun c t h => ((boundaryR_props hb) c t h).2)
      show (match parseIntPy (readNumberR (intDecimal i ++ rest)).1 with
        | some v => Except.ok (LCTValue.vint v, (readNumberR (intDecimal i ++ rest)).2)
        | none => Except.error LCRErr.badInt) = .ok (.vint i, rest)
      simp only [hrn, parseIntPy_intDecimal]
    | vstr s =>
      have hwf2 : wfLcrStr s = true := hwf
      unfold wfLcrStr at hwf2
      by_cases hp : ['&'].isPrefixOf s = true
      · rw [if_pos hp] at hwf2
        have hrug : readUntilGlyph (s.drop 1 ++ rest) = (s.drop 1, rest) :=
          readUntilGlyph_span _ _
            (all_mono _ hwf2 (fun c hc => by rw [(identChar_not_stop hc).1]; rfl))
            (all_mono _ hwf2 (fun c hc => by rw [(identChar_not_stop hc).2]; rfl))
            (fun c t h => ((boundaryR_props hb) c t h).1)
        have henc : encode_lcr_val (.vstr s) ++ rest = gHANDLE :: (s.drop 1 ++ rest) := by
          show (if ['&'].isPrefixOf s then gHANDLE :: s.drop 1
            else if ['h', '_'].isPrefixOf s then gHANDLE :: s
            else gTEXT :: '"' :: escapeQuote s ++ ['"']) ++ rest = _
          rw [if_pos hp]
          rfl
        rw [henc]
        show Except.ok (LCTValue.vstr ('&' :: (readUntilGlyph (s.drop 1 ++ rest)).1),
          (readUntilGlyph (s.drop 1 ++ rest)).2) = .ok (.vstr s, rest)
        rw [hrug]
        rw [← amp1_shape s hp]
      · rw [if_neg hp] at hwf2
        by_cases hq : ['h', '_'].isPrefixOf s = true
        · rw [if_pos hq] at hwf2
          exact absurd hwf2 (by decide)
        · rw [if_neg hq] at hwf2
          have hfix : encode_lcr_val (.vstr s) ++ rest
              = gTEXT :: ('"' :: (escapeQuote s ++ '"' :: rest)) := by
            show (if ['&'].isPrefixOf s then gHANDLE :: s.drop 1
              else if ['h', '_'].isPrefixOf s then gHANDLE :: s
              else gTEXT :: '"' :: escapeQuote s ++ ['"']) ++ rest = _
            rw [if_neg hp, if_neg hq]
            simp only [List.append_assoc, List.cons_append, List.nil_append]
          rw [hfix]
          have hesc : readStringGoR [] (escapeQuote s ++ '"' :: rest) = .ok (s, rest) := by
            have h2 := readStringGoR_escape s [] rest hwf2
            simpa using h2
          show (match readStringGoR [] (escapeQuote s ++ '"' :: rest) with
            | Except.ok (s2, r) => Except.ok (LCTValue.vstr s2, r)
            | Except.error e => Except.error e) = .ok (.vstr s, rest)
          simp only [hesc]
    | vbytes bs =>
      have hwfb : bs.all (· < 256) = true := hwf
      have hhex := bytesToHex_all_hex bs hwfb
      have hrug : readUntilGlyph (bytesToHex bs ++ rest) = (bytesToHex bs, rest) :=
        readUntilGlyph_span _ _
          (all_mono _ hhex (fun c hc => by rw [hexDigit_not_stop hc]; rfl))
          (all_mono _ hhex (fun c hc => by rw [hexDigit_not_ws hc]; rfl))
          (fun c t h => ((boundaryR_props hb) c t h).1)
      have hstrict : fromHexPairsStrict (bytesToHex bs) = some bs := by
        unfold fromHexPairsStrict
        rw [if_pos hhex, fromHexPairs_bytesToHex bs hwfb]
      show (match fromHexPairsStrict (readUntilGlyph (bytesToHex bs ++ rest)).1 with
        | some bs2 => Except.ok (LCTValue.vbytes bs2,
            (readUntilGlyph (bytesToHex bs ++ rest)).2)
        | none => Except.error LCRErr.badHexBytes) = .ok (.vbytes bs, rest)
      simp only [hrug, hstrict]
    | varr l =>
      have hwfl : wfLcrList l = true := hwf
      have hfix : encode_lcr_val (.varr l) ++ rest
          = gARRAY :: ('[' :: (sepJoinG (encodeLcrElems l) ++ ']' :: rest)) := by
        show ((gARRAY :: '[' :: sepJoinG (encodeLcrElems l)) ++ [']']) ++ rest = _
        simp only [List.append_assoc, List.cons_append, List.nil_append]
      rw [hfix]
      rw [show gsize (.varr l) = 3 + gsizeList l from rfl] at hfuel hn
      cases f with
      | zero => omega
      | succ f2 =>
      show parseArrayLoopR f2 (sepJoinG (encodeLcrElems l) ++ ']' :: rest) []
        = .ok (.varr l, rest)
      have hres := ihA l f2 rest [] (by omega) hwfl (by omega)
      exact hres
    | vobj kvs =>
      have hwf2 : wfLcr (.vobj kvs) = true := hwf
      simp only [wfLcr, Bool.and_eq_true, decide_eq_true_eq] at hwf2
      obtain ⟨hnd, hkvs⟩ := hwf2
      have hfix : encode_lcr_val (.vobj kvs) ++ rest
          = gOBJECT :: ('{' :: (sepJoinG (encodeLcrKVs kvs) ++ '}' :: rest)) := by
        show ((gOBJECT :: '{' :: sepJoinG (encodeLcrKVs kvs)) ++ ['}']) ++ rest = _
        simp only [List.append_assoc, List.cons_append, List.nil_append]
      rw [hfix]
      rw [show gsize (.vobj kvs) = 3 + gsizeKVs kvs from rfl] at hfuel hn
      cases f with
      | zero => omega
      | succ f2 =>
      show parseObjectLoopR f2 (sepJoinG (encodeLcrKVs kvs) ++ '}' :: rest) []
        = .ok (.vobj kvs, rest)
      have hres := ihO kvs f2 rest [] (by omega) hkvs (by omega) hnd
      exact hres
    | vcontract cid fields =>
      have hwf2 : wfLcr (.vcontract cid fields) = true := hwf
      simp only [wfLcr, Bool.and_eq_true] at hwf2
      obtain ⟨hseq, hflds⟩ := hwf2
      have hfix : encode_lcr_val (.vcontract cid fields) ++ rest
          = gCS :: (intDecimal cid ++ (encodeLcrFields 0 fields ++ gCE :: rest)) := by
        show ((gCS :: intDecimal cid) ++ encodeLcrFields 0 fields ++ [gCE]) ++ rest = _
        simp only [List.append_assoc, List.cons_append, List.nil_append]
      rw [hfix]
      rw [show gsize (.vcontract cid fields) = 3 + gsizeFields fields from rfl] at hfuel hn
      cases f with
      | zero => omega
      | succ f2 =>
      have hrug : readUntilGlyph (intDecimal cid ++ (encodeLcrFields 0 fields ++ gCE :: rest))
          = (intDecimal cid, encodeLcrFields 0 fields ++ gCE :: rest) :=
        readUntilGlyph_span _ _ (intDecimal_not_stop cid) (intDecimal_not_ws cid)
          (fun c t h => (encFields_follower fields 0 rest c t h).1)
      show parseContractR (f2 + 1)
        (intDecimal cid ++ (encodeLcrFields 0 fields ++ gCE :: rest)) = _
      simp only [parseContractR, hrug, parseIntPy_intDecimal]
      have hres := ihC fields f2 rest cid [] 0 (by omega) hflds (by omega)
        (by simpa using reIndexFields_fst_nodup fields 0)
      rw [reIndexFields_of_seqIdx fields 0 hseq] at hres
      exact hres
  · -- array element loop
    intro l fuel rest acc hn hwf hfuel
    cases fuel with
    | zero => omega
    | succ f =>
    cases l with
    | nil =>
      show parseArrayLoopR (f + 1) (']' :: rest) acc = .ok (.varr (acc ++ []), rest)
      rw [List.append_nil]
      rfl
    | cons e t =>
      obtain ⟨hwe, hwt⟩ : wfLcr e = true ∧ wfLcrList t = true := by
        have h2 : wfLcrList (e :: t) = true := hwf
        simp only [wfLcrList, Bool.and_eq_true] at h2
        exact h2
      rw [show gsizeList (e :: t) = 1 + gsize e + gsizeList t from rfl] at hn hfuel
      have hep := gsize_pos e
      obtain ⟨after, hshape, hbafter, hcont⟩ := arrR_entry_shape e t rest
      obtain ⟨c0, cs0, hh, hbr0, _, _, _⟩ := encodeLcr_head e
      have hval : parseValueR f (encode_lcr_val e ++ after) = .ok (e, after) :=
        ihv e f after (by omega) hwe (by omega) hbafter
      rw [hshape, hh]
      show parseArrayLoopR (f + 1) (c0 :: (cs0 ++ after)) acc = _
      simp only [parseArrayLoopR]
      rw [if_neg hbr0]
      have hval2 : parseValueR f (c0 :: (cs0 ++ after)) = .ok (e, after) := by
        rw [hh] at hval
        exact hval
      simp only [hval2]
      rcases hcont with ⟨rfl, rfl⟩ | ⟨htne, rfl⟩
      · show parseArrayLoopR f (']' :: rest) (acc ++ [e])
          = .ok (.varr (acc ++ [e]), rest)
        have hres := ihA [] f rest (acc ++ [e]) (by omega) rfl
          (by have h0 : gsizeList ([] : List LCTValue) = 0 := rfl; omega)
        rw [List.append_nil] at hres
        exact hres
      · show parseArrayLoopR f (sepJoinG (encodeLcrElems t) ++ ']' :: rest) (acc ++ [e])
          = .ok (.varr (acc ++ e :: t), rest)
        have hres := ihA t f rest (acc ++ [e]) (by omega) hwt (by omega)
        rw [List.append_assoc] at hres
        exact hres
  · -- object key/value loop
    intro kvs fuel rest acc hn hwf hfuel hnd
    cases fuel with
    | zero => omega
    | succ f =>
    cases kvs with
    | nil =>
      show parseObjectLoopR (f + 1) ('}' :: rest) acc = .ok (.vobj (acc ++ []), rest)
      rw [List.append_nil]
      rfl
    | cons kv t =>
      obtain ⟨k, v⟩ := kv
      have hkvs2 : wfLcrKVs ((k, v) :: t) = true := hwf
      simp only [wfLcrKVs, Bool.and_eq_true] at hkvs2
      obtain ⟨⟨hkey, hwv⟩, hwt⟩ := hkvs2
      have hkall : k.all (fun c => !(c = '"') && !(c = '\\')) = true := by
        unfold wfLcrKey at hkey
        simp only [Bool.and_eq_true] at hkey
        exact hkey.1
      rw [show gsizeKVs ((k, v) :: t) = 1 + gsize v + gsizeKVs t from rfl] at hn hfuel
      have hvp := gsize_pos v
      obtain ⟨after, hshape, hbafter, hcont⟩ := objR_entry_shape k v t rest
      have hval : parseValueR f (encode_lcr_val v ++ after) = .ok (v, after) :=
        ihv v f after (by omega) hwv (by omega) hbafter
      have hkread : readStringGoR [] (k ++ '"' :: gBIND :: (encode_lcr_val v ++ after))
          = .ok (k, gBIND :: (encode_lcr_val v ++ after)) := by
        have h2 := readStringGoR_raw k [] (gBIND :: (encode_lcr_val v ++ after)) hkall
        simpa using h2
      rw [hshape]
      simp only [parseObjectLoopR]
      rw [if_neg (show ¬(gTEXT = '}') by decide)]
      simp only [if_true]
      have hkread2 : readStringR ('"' :: (k ++ '"' :: gBIND :: (encode_lcr_val v ++ after)))
          = .ok (k, gBIND :: (encode_lcr_val v ++ after)) := hkread
      simp only [hkread2, hval]
      obtain ⟨hfresh, hnd2⟩ := nodup_parts acc k v t hnd
      have hput : alistPut acc k v = acc ++ [(k, v)] := alistPut_fresh acc k v hfresh
      simp only [hput]
      rcases hcont with ⟨rfl, rfl⟩ | ⟨htne, rfl⟩
      · show parseObjectLoopR f
          (if '}' = gSEP then rest else '}' :: rest) (acc ++ [(k, v)]) = _
        rw [if_neg (show ¬('}' = gSEP) by decide)]
        cases f with
        | zero => omega
        | succ f4 =>
        show parseObjectLoopR (f4 + 1) ('}' :: rest) (acc ++ [(k, v)])
          = .ok (.vobj (acc ++ [(k, v)]), rest)
        rfl
      · show parseObjectLoopR f
          (if gSEP = gSEP then sepJoinG (encodeLcrKVs t) ++ '}' :: rest
           else gSEP :: (sepJoinG (encodeLcrKVs t) ++ '}' :: rest)) (acc ++ [(k, v)]) = _
        rw [if_pos (show gSEP = gSEP from rfl)]
        have hres := ihO t f rest (acc ++ [(k, v)]) (by omega) hwt (by omega) hnd2
        rw [List.append_assoc] at hres
        exact hres
  · -- contract field loop
    intro fields fuel rest cid acc j hn hwf hfuel hnd
    cases fuel with
    | zero => omega
    | succ f =>
    cases fields with
    | nil =>
      show parseContractLoopR (f + 1) (gCE :: rest) cid acc
        = .ok (.vcontract cid (acc ++ []), rest)
      rw [List.append_nil]
      rfl
    | cons p t =>
      obtain ⟨i, v⟩ := p
      have hflds2 : wfLcrFields ((i, v) :: t) = true := hwf
      simp only [wfLcrFields, Bool.and_eq_true] at hflds2
      obtain ⟨hwv, hwt⟩ := hflds2
      rw [show gsizeFields ((i, v) :: t) = 1 + gsize v + gsizeFields t from rfl] at hn hfuel
      have hvp := gsize_pos v
      obtain ⟨hnd0, hnd2⟩ := nodup_parts acc ((j : Int)) v (reIndexFields (j + 1) t)
        (by rw [show reIndexFields j ((i, v) :: t)
              = ((j : Int), v) :: reIndexFields (j + 1) t from rfl] at hnd
            exact hnd)
      obtain ⟨hdigs, hdne, _⟩ := natDecimal_spec j
      have hfix : encodeLcrFields j ((i, v) :: t) ++ gCE :: rest
          = gFIELD :: (natDecimal j ++ (' ' :: (encode_lcr_val v
            ++ (encodeLcrFields (j + 1) t ++ gCE :: rest)))) := by
        show ((gFIELD :: natDecimal j) ++ (' ' :: encode_lcr_val v)
          ++ encodeLcrFields (j + 1) t) ++ gCE :: rest = _
        simp only [List.append_assoc, List.cons_append]
      rw [hfix]
      have hrug : readUntilGlyph (natDecimal j ++ (' ' :: (encode_lcr_val v
          ++ (encodeLcrFields (j + 1) t ++ gCE :: rest))))
          = (natDecimal j, ' ' :: (encode_lcr_val v
            ++ (encodeLcrFields (j + 1) t ++ gCE :: rest))) :=
        readUntilGlyph_span _ _
          (all_mono _ hdigs (fun c hc => by rw [digit_not_stop hc]; rfl))
          (all_mono _ hdigs (fun c hc => by rw [(digit_not_special hc).1]; rfl))
          (fun c t2 h => by injection h with h1 _; rw [← h1]; decide)
      have hstrip : pyStrip (natDecimal j) = natDecimal j :=
        pyStrip_all_not_ws _
          (all_mono _ hdigs (fun c hc => by rw [(digit_not_special hc).1]; rfl))
      have hdrop : (' ' :: (encode_lcr_val v
          ++ (encodeLcrFields (j + 1) t ++ gCE :: rest))).dropWhile (fun c2 => c2 = ' ')
          = encode_lcr_val v ++ (encodeLcrFields (j + 1) t ++ gCE :: rest) :=
        dropWhile_space_encode v _
      have hval : parseValueR f (encode_lcr_val v
          ++ (encodeLcrFields (j + 1) t ++ gCE :: rest))
          = .ok (v, encodeLcrFields (j + 1) t ++ gCE :: rest) :=
        ihv v f _ (by omega) hwv (by omega) (encFields_boundaryOkR t (j + 1) rest)
      have hput : alistPut acc ((j : Int)) v = acc ++ [((j : Int), v)] :=
        alistPut_fresh acc _ v hnd0
      simp only [parseContractLoopR]
      rw [if_neg (show ¬(gFIELD = gCE) by decide)]
      simp only [if_true, hrug, hstrip, parseIntPy_natDecimal, hdrop, hval, hput]
      have hres := ihC t f rest cid (acc ++ [((j : Int), v)]) (j + 1) (by omega) hwt
        (by omega) hnd2
      rw [List.append_assoc] at hres
      exact hres

/-- On the well-formed LC-R domain the decoder inverts the encoder. -/
theorem lcr_decode_encode (v : LCTValue) (hwf : wfLcr v = true) :
    decode_lcr (encode_lcr v) = .ok v := by
  have hbound := (gsize_bound_master (gsize v)).1 v (le_refl _)
  have hparse : parseValueR (3 * (encode_lcr_val v).length + 1) (encode_lcr_val v)
      = .ok (v, []) := by
    have h := (parse_encode_master_lcr (gsize v)).1 v
      (3 * (encode_lcr_val v).length + 1) [] (le_refl _) hwf (by omega) rfl
    rw [List.append_nil] at h
    exact h
  show (match parseValueR (3 * (encode_lcr_val v).length + 1) (encode_lcr_val v) with
    | .ok (v2, _) => Except.ok v2
    | .error e => Except.error e) = .ok v
  simp only [hparse]

/-- C5 (counterexample): the LC-R round-trip fails on a contract dict with
a non-consecutive field index: `_encode_contract` re-indexes the fields
sequentially from 0, so `{contract_id: 1, field_5: 42}` decodes as
`{contract_id: 1, field_0: 42}`. -/
theorem lcr_roundtrip_fails_on_sparse_contract :
    decode_lcr (encode_lcr (.vcontract 1 [(5, .vint 42)]))
      = .ok (.vcontract 1 [(0, .vint 42)]) ∧
    decode_lcr (encode_lcr (.vcontract 1 [(5, .vint 42)]))
      ≠ .ok (.vcontract 1 [(5, .vint 42)]) := by
  constructor
  · rfl
  · intro h
    rw [show decode_lcr (encode_lcr (.vcontract 1 [(5, .vint 42)]))
      = .ok (.vcontract 1 [(0, .vint 42)]) from rfl] at h
    injection h with h2
    injection h2 with h3 h4
    injection h4 with h5 h6
    injection h5 with h7 h8
    exact absurd h7 (by decide)

/-- C5 (amended): `decode_lcr (encode_lcr V) = V` holds on the sub-domain
where the encoder specials are the identity: strings are either
`&`-handles with identifier tails or start with neither `&` nor `h_` and
contain no backslash; bytes are real bytes; object keys are distinct,
contain no quote or backslash, and none equals `contract_id`; and contract
field keys are already the consecutive indices `0, 1, 2, …` that
`_encode_contract` reassigns.  Dicts with arbitrary non-consecutive field
indices - which the claim explicitly includes - are excluded, as are `h_`-
and `&`-prefixed strings with non-identifier tails. -/
theorem lcr_roundtrip_wf (v : LCTValue) (hwf : wfLcr v = true) :
    decode_lcr (encode_lcr v) = .ok v :=
  lcr_decode_encode v hwf

theorem lcr_roundtrip_wf_witness :
    wfLcr (.vcontract 7 [(0, .vint 1), (1, .vstr ['&', 'a'])]) = true ∧
    decode_lcr (encode_lcr (.vcontract 7 [(0, .vint 1), (1, .vstr ['&', 'a'])]))
      = .ok (.vcontract 7 [(0, .vint 1), (1, .vstr ['&', 'a'])]) :=
  ⟨rfl, lcr_roundtrip_wf (.vcontract 7 [(0, .vint 1), (1, .vstr ['&', 'a'])]) rfl⟩

end HLX
